import Mathlib

/-!
# db-gdpr-anonymizer: plan compiler, SQL generator and placeholder substitutor

A shallow embedding of `internal/anonymizer/planner.go`,
`internal/anonymizer/sql_generator.go`, `internal/faker/faker.go`,
`internal/anonymizer/executor.go` (the processing routines, the table loop of
`Execute` under a sequential schedule, and its worker pool as a transition
system) and `internal/report/report.go` (`GenerateReport`).

Go strings are modelled as lists of characters (`Str`).  The functions of the
Go standard library that the program calls (`strings.Index`, `strings.Replace`,
`strings.ReplaceAll`, `strings.Split`, `strings.HasPrefix`, `strings.TrimPrefix`,
`strings.Join`, the `%d` verb of `fmt.Sprintf`) are given by executable
definitions with the library's documented behaviour.  A Go result pair
`(value, error)` is a Lean pair whose second component is `none` for a nil
error.
-/

namespace Anonymizer

set_option maxRecDepth 8000

/-- Go strings, as lists of characters. -/
abbrev Str := List Char

/-! ## Standard library functions used by the program -/

/-- The single quote character. -/
def quoteChar : Char := Char.ofNat 39

/-- The text of `strings.Index s sub`: position of the first occurrence of `sub`
in `s`, `none` standing for the result `-1`. -/
def Index : Str → Str → Option Nat
  | [], sub => if sub.isPrefixOf [] then some 0 else none
  | c :: t, sub => if sub.isPrefixOf (c :: t) then some 0 else (Index t sub).map (· + 1)

/-- Go slice expression `s[i:j]`. -/
def slice (s : Str) (i j : Nat) : Str := (s.take j).drop i

/-- The function `strings.Replace s old new 1`: the first occurrence of `old`
is replaced, the text is returned as it is when there is none. -/
def ReplaceFirst (s old new : Str) : Str :=
  match Index s old with
  | none => s
  | some i => s.take i ++ new ++ s.drop (i + old.length)

/-- Worker of `ReplaceAll`; the first argument bounds the number of steps. -/
def replaceAllAux : Nat → Str → Str → Str → Str
  | 0, s, _, _ => s
  | fuel + 1, s, old, new =>
    if old.isPrefixOf s then new ++ replaceAllAux fuel (s.drop old.length) old new
    else
      match s with
      | [] => []
      | c :: t => c :: replaceAllAux fuel t old new

/-- The function `strings.ReplaceAll s old new` for a non-empty `old`: the
non-overlapping occurrences of `old` are replaced from left to right. -/
def ReplaceAll (s old new : Str) : Str := replaceAllAux (s.length + 1) s old new

/-- The function `strings.Split s sep` for a one-character separator. -/
def Split (sep : Char) : Str → List Str
  | [] => [[]]
  | c :: t =>
    if c = sep then [] :: Split sep t
    else
      match Split sep t with
      | [] => [[c]]
      | p :: ps => (c :: p) :: ps

/-- The function `strings.Join parts sep`. -/
def Join (sep : Str) : List Str → Str
  | [] => []
  | [p] => p
  | p :: ps => p ++ sep ++ Join sep ps

/-- Decimal digit as a character. -/
def digitChar (d : Nat) : Char :=
  match d with
  | 0 => '0' | 1 => '1' | 2 => '2' | 3 => '3' | 4 => '4'
  | 5 => '5' | 6 => '6' | 7 => '7' | 8 => '8' | _ => '9'

/-- Decimal digits of a natural number, least significant first; the first
argument bounds the number of digits. -/
def decDigits : Nat → Nat → List Nat
  | 0, _ => []
  | fuel + 1, n => if n < 10 then [n] else (n % 10) :: decDigits fuel (n / 10)

/-- The verb `%d` on a non-negative integer. -/
def fmtNat (n : Nat) : Str := ((decDigits (n + 1) n).reverse).map digitChar

/-- The verb `%d` of `fmt.Sprintf` on an integer. -/
def fmtInt : Int → Str
  | Int.ofNat n => fmtNat n
  | Int.negSucc n => '-' :: fmtNat (n + 1)

/-- Go's `int` on a 64-bit platform: the value that an integer expression takes,
its result over the integers wrapped around into the range from
`-9223372036854775808` to `9223372036854775807`. -/
def wrapInt (x : Int) : Int :=
  (x + 9223372036854775808) % 18446744073709551616 - 9223372036854775808

/-! ## planner.go -/

/-- A value of Go type `interface{}` held by a column declaration, other than
the nil interface (which is `none` in `Option Value`). -/
inductive Value where
  /-- A Go string. -/
  | str (s : Str)
  /-- A Go integer. -/
  | int (i : Int)
  /-- Any other dynamic type, carried with its `%v` rendering. -/
  | other (rendered : Str)
  deriving DecidableEq, Repr

/-- The verb `%v` on a value. -/
def Value.fmtV : Value → Str
  | .str s => s
  | .int i => fmtInt i
  | .other r => r

/-- Type `config.ColumnConfig`. -/
structure ColumnConfig where
  /-- Field `Type` of the source (a reserved word here). -/
  Type_ : Str := []
  Formatter : Str := []
  Value : Option Value := none
  Expr : Str := []
  Null : Bool := false
  deriving DecidableEq, Repr

/-- Interface `AnonymizationStrategy` with its four implementations. -/
inductive AnonymizationStrategy where
  | FixedValueStrategy (Value : Option Value)
  | NullStrategy
  | ExpressionStrategy (Expression : Str)
  | FakerStrategy (FakerType : Str)
  deriving DecidableEq, Repr

/-- Type `ColumnPlan`. -/
structure ColumnPlan where
  Name : Str
  Strategy : AnonymizationStrategy
  Formatter : Str := []
  deriving DecidableEq, Repr

/-- Type `TablePlan`. -/
structure TablePlan where
  Name : Str
  PrimaryKey : Str := []
  Where : Str := []
  Limit : Int := 0
  OrderBy : Str := []
  Columns : List ColumnPlan
  deriving DecidableEq, Repr

/-- Method `FixedValueStrategy.GenerateSQL`. -/
def FixedValueStrategy.GenerateSQL (value : Option Value) (_tableName _columnName : Str) : Str :=
  match value with
  | some (.str v) => [quoteChar] ++ ReplaceAll v [quoteChar] [quoteChar, quoteChar] ++ [quoteChar]
  | none => "NULL".toList
  | some v => v.fmtV

/-- Method `NullStrategy.GenerateSQL`. -/
def NullStrategy.GenerateSQL (_tableName _columnName : Str) : Str := "NULL".toList

/-- Method `ExpressionStrategy.GenerateSQL`. -/
def ExpressionStrategy.GenerateSQL (expression : Str) (_tableName _columnName : Str) : Str :=
  expression

/-- Method `FakerStrategy.GenerateSQL`. -/
def FakerStrategy.GenerateSQL (fakerType : Str) (tableName columnName : Str) : Str :=
  quoteChar :: "[FAKER:".toList ++ fakerType ++ ":".toList ++ tableName ++ ":".toList
    ++ columnName ++ [']', quoteChar]

/-- Dynamic dispatch of `GenerateSQL` over the interface. -/
def AnonymizationStrategy.GenerateSQL (s : AnonymizationStrategy) (tableName columnName : Str) :
    Str :=
  match s with
  | .FixedValueStrategy v => FixedValueStrategy.GenerateSQL v tableName columnName
  | .NullStrategy => NullStrategy.GenerateSQL tableName columnName
  | .ExpressionStrategy e => ExpressionStrategy.GenerateSQL e tableName columnName
  | .FakerStrategy t => FakerStrategy.GenerateSQL t tableName columnName

/-- Dynamic dispatch of `GetType` over the interface. -/
def AnonymizationStrategy.GetType : AnonymizationStrategy → Str
  | .FixedValueStrategy _ => "fixed".toList
  | .NullStrategy => "null".toList
  | .ExpressionStrategy _ => "expr".toList
  | .FakerStrategy _ => "faker".toList

/-- Function `createStrategy`: the strategy and the error of the Go result pair;
the strategy is `none` for Go's nil. -/
def createStrategy (columnConfig : ColumnConfig) : Option AnonymizationStrategy × Option Str :=
  if columnConfig.Null then (some .NullStrategy, none)
  else if columnConfig.Expr ≠ [] then (some (.ExpressionStrategy columnConfig.Expr), none)
  else if columnConfig.Value ≠ none then (some (.FixedValueStrategy columnConfig.Value), none)
  else if "faker.".toList.isPrefixOf columnConfig.Type_ then
    (some (.FakerStrategy (columnConfig.Type_.drop "faker.".length)), none)
  else (none, some ("unsupported anonymization strategy: ".toList ++ columnConfig.Type_))

/-! ## sql_generator.go -/

/-- The `SET` assignments built by the loop over `tablePlan.Columns` in
`GenerateTableSQL` and `GenerateChunkedSQL`. -/
def setClause (tablePlan : TablePlan) : List Str :=
  tablePlan.Columns.map fun column =>
    column.Name ++ " = ".toList ++ column.Strategy.GenerateSQL tablePlan.Name column.Name

/-- Method `SQLGenerator.GenerateTableSQL`. -/
def GenerateTableSQL (tablePlan : TablePlan) : Str × Option Str :=
  if tablePlan.Columns.length = 0 then
    ([], some ("no columns to anonymize in table ".toList ++ tablePlan.Name))
  else
    let whereClause := if tablePlan.Where ≠ [] then "WHERE ".toList ++ tablePlan.Where else []
    let limitClause :=
      if tablePlan.Limit > 0 then "LIMIT ".toList ++ fmtInt tablePlan.Limit else []
    let orderByClause :=
      if tablePlan.OrderBy ≠ [] then "ORDER BY ".toList ++ tablePlan.OrderBy else []
    ("UPDATE ".toList ++ tablePlan.Name ++ " SET ".toList ++ Join ", ".toList (setClause tablePlan)
      ++ " ".toList ++ whereClause ++ " ".toList ++ orderByClause ++ " ".toList ++ limitClause,
      none)

/-- Method `SQLGenerator.GenerateCountSQL`. -/
def GenerateCountSQL (tablePlan : TablePlan) : Str :=
  let whereClause := if tablePlan.Where ≠ [] then "WHERE ".toList ++ tablePlan.Where else []
  "SELECT COUNT(*) FROM ".toList ++ tablePlan.Name ++ " ".toList ++ whereClause

/-- Method `SQLGenerator.GenerateChunkedSQL`. -/
def GenerateChunkedSQL (tablePlan : TablePlan) (primaryKey : Str) (chunkSize offset : Int) :
    Str × Option Str :=
  if tablePlan.Columns.length = 0 then
    ([], some ("no columns to anonymize in table ".toList ++ tablePlan.Name))
  else if primaryKey = [] then
    ([], some "primary key is required for chunked anonymization".toList)
  else
    let whereClause₀ := primaryKey ++ " >= ".toList ++ fmtInt offset ++ " AND ".toList
      ++ primaryKey ++ " < ".toList ++ fmtInt (wrapInt (offset + chunkSize))
    let whereClause :=
      if tablePlan.Where ≠ [] then
        "(".toList ++ whereClause₀ ++ ") AND ".toList ++ tablePlan.Where
      else whereClause₀
    ("UPDATE ".toList ++ tablePlan.Name ++ " SET ".toList ++ Join ", ".toList (setClause tablePlan)
      ++ " WHERE ".toList ++ whereClause, none)

/-- Method `SQLGenerator.GeneratePrimaryKeyRangeSQL`. -/
def GeneratePrimaryKeyRangeSQL (tableName primaryKey whereClause : Str) : Str :=
  let where_ := if whereClause ≠ [] then "WHERE ".toList ++ whereClause else []
  "SELECT MIN(".toList ++ primaryKey ++ "), MAX(".toList ++ primaryKey ++ ") FROM ".toList
    ++ tableName ++ " ".toList ++ where_

/-- The placeholder that `GenerateSingleRowSQL` builds for a `FakerStrategy`
column: the primary key value is part of it. -/
def singleRowPlaceholder (fakerType tableName columnName : Str) (pkValue : Int) : Str :=
  quoteChar :: "[FAKER:".toList ++ fakerType ++ ":".toList ++ tableName ++ ":".toList
    ++ columnName ++ ":".toList ++ fmtInt pkValue ++ [']', quoteChar]

/-- One `SET` assignment of `GenerateSingleRowSQL`: the body of its loop over
the columns, with the type assertion on `*FakerStrategy`. -/
def singleRowAssignment (tableName : Str) (pkValue : Int) (column : ColumnPlan) : Str :=
  match column.Strategy with
  | .FakerStrategy fakerType =>
    column.Name ++ " = ".toList ++ singleRowPlaceholder fakerType tableName column.Name pkValue
  | strategy => column.Name ++ " = ".toList ++ strategy.GenerateSQL tableName column.Name

/-- The `SET` assignments of `GenerateSingleRowSQL`. -/
def singleRowSetClause (tablePlan : TablePlan) (pkValue : Int) : List Str :=
  tablePlan.Columns.map (singleRowAssignment tablePlan.Name pkValue)

/-- Method `SQLGenerator.GenerateSingleRowSQL`. -/
def GenerateSingleRowSQL (tablePlan : TablePlan) (primaryKey : Str) (pkValue : Int) :
    Str × Option Str :=
  if tablePlan.Columns.length = 0 then
    ([], some ("no columns to anonymize in table ".toList ++ tablePlan.Name))
  else if primaryKey = [] then
    ([], some "primary key is required for single row anonymization".toList)
  else
    let whereClause₀ := primaryKey ++ " = ".toList ++ fmtInt pkValue
    let whereClause :=
      if tablePlan.Where ≠ [] then
        "(".toList ++ whereClause₀ ++ ") AND ".toList ++ tablePlan.Where
      else whereClause₀
    ("UPDATE ".toList ++ tablePlan.Name ++ " SET ".toList
      ++ Join ", ".toList (singleRowSetClause tablePlan pkValue)
      ++ " WHERE ".toList ++ whereClause, none)

/-! ## faker.go -/

/-- Type `faker.Generator`.  The Go struct has no fields; the two fields here
are the functions of other packages that its methods call: `strings.ToLower`,
and the go-faker library, whose value depends on the library function called
(`Name`, `Email`, ...) and on how many values the generator has produced
before. -/
structure Generator where
  ToLower : Str → Str
  lib : Str → Nat → Str

/-- Method `Generator.Generate`; `calls` is the number of invocations made
before this one. -/
def Generator.Generate (g : Generator) (calls : Nat) (fakerType : Str) : Str × Option Str :=
  let t := g.ToLower fakerType
  if t = "name".toList then (g.lib "Name".toList calls, none)
  else if t = "firstname".toList then (g.lib "FirstName".toList calls, none)
  else if t = "lastname".toList then (g.lib "LastName".toList calls, none)
  else if t = "email".toList then (g.lib "Email".toList calls, none)
  else if t = "phone".toList ∨ t = "phonenumber".toList then
    (g.lib "Phonenumber".toList calls, none)
  else if t = "address".toList ∨ t = "streetaddress".toList then ("123 Main St".toList, none)
  else if t = "city".toList then ("New York".toList, none)
  else if t = "state".toList then ("NY".toList, none)
  else if t = "zipcode".toList ∨ t = "postcode".toList then ("10001".toList, none)
  else if t = "country".toList then ("USA".toList, none)
  else if t = "company".toList then ("Acme Inc".toList, none)
  else if t = "jobtitle".toList then ("Software Engineer".toList, none)
  else if t = "creditcard".toList then (g.lib "CCNumber".toList calls, none)
  else if t = "uuid".toList then (g.lib "UUIDHyphenated".toList calls, none)
  else if t = "ipv4".toList then (g.lib "IPv4".toList calls, none)
  else if t = "ipv6".toList then (g.lib "IPv6".toList calls, none)
  else if t = "url".toList then (g.lib "URL".toList calls, none)
  else if t = "username".toList then (g.lib "Username".toList calls, none)
  else if t = "password".toList then (g.lib "Password".toList calls, none)
  else if t = "numerify".toList then ("123456789".toList, none)
  else if t = "sentence".toList then ("This is a sample sentence.".toList, none)
  else if t = "paragraph".toList then
    (("This is a sample paragraph. It contains multiple sentences. "
      ++ "This is used for testing purposes.").toList, none)
  else ([], some ("unsupported faker type: ".toList ++ fakerType))

/-- Method `Generator.GetSupportedTypes`. -/
def GetSupportedTypes : List Str :=
  ["name", "firstname", "lastname", "email", "phone", "phonenumber", "address",
   "streetaddress", "city", "state", "zipcode", "postcode", "country", "company",
   "jobtitle", "creditcard", "uuid", "ipv4", "ipv6", "url", "username", "password",
   "numerify", "sentence", "paragraph"].map String.toList

/-- The opening of a placeholder, searched by `ReplaceFakerPlaceholders`. -/
def placeholderOpen : Str := quoteChar :: "[FAKER:".toList

/-- The closing delimiter of a placeholder. -/
def placeholderClose : Str := [']', quoteChar]

/-- The literal that `ReplaceFakerPlaceholders` puts in place of a placeholder:
the generated value between single quotes, its single quotes doubled. -/
def quoteLiteral (fakeData : Str) : Str :=
  [quoteChar] ++ ReplaceAll fakeData [quoteChar] [quoteChar, quoteChar] ++ [quoteChar]

/-- The generator type that `ReplaceFakerPlaceholders` reads in the text
between the opening and the closing delimiter: `strings.Split(fakerInfo, ":")[0]`. -/
def fakerTypeOf (fakerInfo : Str) : Str := (Split ':' fakerInfo).headD []

/-- The `for` loop of `ReplaceFakerPlaceholders` on the working text `result`.
The first argument bounds the number of iterations and `none` is returned when
it is exhausted (the loop has not ended yet); `calls` counts the
invocations of `Generate`.  The result is the Go result pair and the number of
invocations made.  The slice bounds hold on every path: the closing delimiter
is found at offset 8 or later, the opening having no `]`. -/
def replaceLoop (g : Generator) (sql : Str) : Nat → Str → Nat → Option ((Str × Option Str) × Nat)
  | 0, _, _ => none
  | fuel + 1, result, calls =>
    match Index result placeholderOpen with
    | none => some ((result, none), calls)
    | some start =>
      match Index (result.drop start) placeholderClose with
      | none =>
        some (([], some ("invalid faker placeholder format in SQL: ".toList ++ sql)), calls)
      | some e =>
        let end_ := e + start
        let placeholder := slice result start (end_ + 2)
        let fakerInfo := slice result (start + 8) end_
        let fakerType := fakerTypeOf fakerInfo
        match g.Generate calls fakerType with
        | (_, some err) => some (([], some err), calls + 1)
        | (fakeData, none) =>
          replaceLoop g sql fuel (ReplaceFirst result placeholder (quoteLiteral fakeData))
            (calls + 1)

/-- Method `Generator.ReplaceFakerPlaceholders`, run for at most `fuel`
iterations of its loop, by a generator that has been invoked `calls` times. -/
def ReplaceFakerPlaceholders (g : Generator) (fuel calls : Nat) (sql : Str) :
    Option ((Str × Option Str) × Nat) :=
  replaceLoop g sql fuel sql calls

/-! ## executor.go -/

/-- Type `ExecutionResult`, without its `Duration` (wall-clock time is not
modelled). -/
structure ExecutionResult where
  TableName : Str
  FieldName : Str
  RowsScanned : Int
  RowsAffected : Int
  Strategy : Str
  Error : Option Str := none
  deriving DecidableEq, Repr

/-- A statement sent to the database: through `QueryRow` or `Query`, or through
`ExecContext`. -/
inductive DBCall where
  | Query (sql : Str)
  | Exec (sql : Str)
  deriving DecidableEq, Repr

/-- The database handle `*sql.DB` as the executor sees it.  Every answer may
depend on the statement and on the statements sent before it. -/
structure Database where
  /-- Answer to `QueryRow(sql).Scan(&count)`. -/
  QueryRowInt : List DBCall → Str → Int × Option Str
  /-- Answer to `QueryRow(sql).Scan(&min, &max)`. -/
  QueryRowRange : List DBCall → Str → (Int × Int) × Option Str
  /-- Answer to `Query(sql)` followed by the scan of every row. -/
  QueryInts : List DBCall → Str → List Int × Option Str
  /-- Answer to `ExecContext(ctx, sql)`: the affected rows of the result. -/
  ExecContext : List DBCall → Str → Int × Option Str

/-- Type `Executor`: the fields that the processing routines read. -/
structure Executor where
  db : Database
  dryRun : Bool
  maxWorkers : Nat
  faker : Generator

/-- What the routines of the executor change outside their results: the
statements sent to the database, oldest first, and the number of invocations of
`Generate`. -/
structure World where
  log : List DBCall := []
  genCalls : Nat := 0
  deriving DecidableEq, Repr

/-- The world after one more statement has been sent. -/
def World.sent (w : World) (c : DBCall) : World := { w with log := w.log ++ [c] }

/-- Method `Executor.countRows`. -/
def Executor.countRows (e : Executor) (w : World) (tablePlan : TablePlan) :
    (Int × Option Str) × World :=
  let sql := GenerateCountSQL tablePlan
  (e.db.QueryRowInt w.log sql, w.sent (.Query sql))

/-- The results appended by the last loop of `processTable` and of
`processChunk`: one per column. -/
def columnResults (tablePlan : TablePlan) (rowsScanned rowsAffected : Int) :
    List ExecutionResult :=
  tablePlan.Columns.map fun column =>
    { TableName := tablePlan.Name, FieldName := column.Name, RowsScanned := rowsScanned,
      RowsAffected := rowsAffected, Strategy := column.Strategy.GetType }

/-- Method `Executor.processTable`; `fuel` bounds the loop of the placeholder
substitution and `none` is returned when it is exhausted. -/
def Executor.processTable (e : Executor) (fuel : Nat) (w : World) (tablePlan : TablePlan) :
    Option ((List ExecutionResult × Option Str) × World) :=
  match GenerateTableSQL tablePlan with
  | (_, some err) => some (([], some err), w)
  | (sqlQuery₀, none) =>
    match ReplaceFakerPlaceholders e.faker fuel w.genCalls sqlQuery₀ with
    | none => none
    | some ((_, some err), n) => some (([], some err), { w with genCalls := n })
    | some ((sqlQuery, none), n) =>
      match e.countRows { w with genCalls := n } tablePlan with
      | ((_, some err), w₁) => some (([], some err), w₁)
      | ((rowCount, none), w₁) =>
        if !e.dryRun then
          match e.db.ExecContext w₁.log sqlQuery with
          | (_, some err) => some (([], some err), w₁.sent (.Exec sqlQuery))
          | (rowsAffected, none) =>
            some ((columnResults tablePlan rowCount rowsAffected, none),
              w₁.sent (.Exec sqlQuery))
        else some ((columnResults tablePlan rowCount rowCount, none), w₁)

/-- Method `Executor.getPrimaryKeysInRange`. -/
def Executor.getPrimaryKeysInRange (e : Executor) (w : World) (tablePlan : TablePlan)
    (offset chunkSize : Int) : (List Int × Option Str) × World :=
  let sql₀ := "SELECT ".toList ++ tablePlan.PrimaryKey ++ " FROM ".toList ++ tablePlan.Name
    ++ " WHERE ".toList ++ tablePlan.PrimaryKey ++ " >= ".toList ++ fmtInt offset
    ++ " AND ".toList ++ tablePlan.PrimaryKey ++ " < ".toList
    ++ fmtInt (wrapInt (offset + chunkSize))
  let sql := if tablePlan.Where ≠ [] then sql₀ ++ " AND ".toList ++ tablePlan.Where else sql₀
  match e.db.QueryInts w.log sql with
  | (_, some err) => (([], some err), w.sent (.Query sql))
  | (primaryKeys, none) => ((primaryKeys, none), w.sent (.Query sql))

/-- The loop of `processChunk` over the primary key values of the chunk:
the affected rows summed so far are `total`; the result is the new total, or
the error that ends the routine. -/
def Executor.processRows (e : Executor) (fuel : Nat) (tablePlan : TablePlan) :
    List Int → World → Int → Option ((Int × Option Str) × World)
  | [], w, total => some ((total, none), w)
  | pkValue :: rest, w, total =>
    match GenerateSingleRowSQL tablePlan tablePlan.PrimaryKey pkValue with
    | (_, some err) => some ((total, some err), w)
    | (sqlQuery₀, none) =>
      match ReplaceFakerPlaceholders e.faker fuel w.genCalls sqlQuery₀ with
      | none => none
      | some ((_, some err), n) => some ((total, some err), { w with genCalls := n })
      | some ((sqlQuery, none), n) =>
        let w₁ : World := { w with genCalls := n }
        if !e.dryRun then
          match e.db.ExecContext w₁.log sqlQuery with
          | (_, some err) => some ((total, some err), w₁.sent (.Exec sqlQuery))
          | (rowsAffected, none) =>
            e.processRows fuel tablePlan rest (w₁.sent (.Exec sqlQuery)) (total + rowsAffected)
        else e.processRows fuel tablePlan rest w₁ (total + 1)

/-- Method `Executor.processChunk`; `fuel` bounds the loop of every placeholder
substitution and `none` is returned when it is exhausted. -/
def Executor.processChunk (e : Executor) (fuel : Nat) (w : World) (tablePlan : TablePlan)
    (offset chunkSize : Int) : Option ((List ExecutionResult × Option Str) × World) :=
  match e.getPrimaryKeysInRange w tablePlan offset chunkSize with
  | ((_, some err), w₁) => some (([], some err), w₁)
  | ((primaryKeyValues, none), w₁) =>
    match e.processRows fuel tablePlan primaryKeyValues w₁ 0 with
    | none => none
    | some ((_, some err), w₂) => some (([], some err), w₂)
    | some ((totalRowsAffected, none), w₂) =>
      some ((columnResults tablePlan primaryKeyValues.length totalRowsAffected, none), w₂)

/-- Method `Executor.getPrimaryKey`; `tables` is the current content of
`e.plan.Tables`. -/
def Executor.getPrimaryKey (_e : Executor) (tables : List TablePlan) (tableName : Str) :
    Str × Option Str :=
  match tables.find? (fun tablePlan => tablePlan.Name = tableName ∧ tablePlan.PrimaryKey ≠ []) with
  | some tablePlan => (tablePlan.PrimaryKey, none)
  | none => ("id".toList, none)

/-- Method `Executor.getPrimaryKeyRange`. -/
def Executor.getPrimaryKeyRange (e : Executor) (w : World) (tablePlan : TablePlan) :
    ((Int × Int) × Option Str) × World :=
  let sql := GeneratePrimaryKeyRangeSQL tablePlan.Name tablePlan.PrimaryKey tablePlan.Where
  (e.db.QueryRowRange w.log sql, w.sent (.Query sql))

/-- The offsets visited by the loop
`for offset := minPK; offset <= maxPK; offset += chunkSize` of `Execute`, in
order; the first argument bounds the number of iterations and `none` is returned
when it is exhausted.  The sum `offset += chunkSize` wraps around as Go's `int`
does. -/
def chunkOffsets : Nat → Int → Int → Int → Option (List Int)
  | 0, _, _, _ => none
  | fuel + 1, offset, maxPK, chunkSize =>
    if offset ≤ maxPK then
      (chunkOffsets fuel (wrapInt (offset + chunkSize)) maxPK chunkSize).map (offset :: ·)
    else some []

/-- What one iteration of the table loop of `Execute` hands out. -/
inductive Dispatch where
  /-- The iteration ends with `continue`: the table is left out. -/
  | skip
  /-- Whole-table mode: one call `processTable(ctx, tablePlan)`. -/
  | table (tablePlan : TablePlan)
  /-- Chunked mode: one goroutine `processChunk(ctx, tablePlan, offset, chunkSize)`
  for each offset. -/
  | chunks (tablePlan : TablePlan) (offsets : List Int) (chunkSize : Int)
  deriving DecidableEq, Repr

/-- The table plan after the first step of an iteration of `Execute`: an empty
primary key is replaced by the one that `getPrimaryKey` returns (`none` when it
fails and the iteration ends). -/
def Executor.resolvePrimaryKey (e : Executor) (tables : List TablePlan) (tablePlan : TablePlan) :
    Option TablePlan :=
  if tablePlan.PrimaryKey = [] then
    match e.getPrimaryKey tables tablePlan.Name with
    | (_, some _) => none
    | (primaryKey, none) => some { tablePlan with PrimaryKey := primaryKey }
  else some tablePlan

/-- One iteration of the table loop of `Execute` (the context not being
cancelled) up to the point where the work is handed out: the primary key is
resolved, the rows are counted, and the mode is chosen; in chunked mode the key
range is read and the loop over the offsets runs, for at most `fuel` iterations
(`none` when they are exhausted).  The result is the work handed out and the
world after the queries. -/
def Executor.dispatchTable (e : Executor) (fuel : Nat) (tables : List TablePlan) (w : World)
    (tablePlan₀ : TablePlan) : Option (Dispatch × World) :=
  match e.resolvePrimaryKey tables tablePlan₀ with
  | none => some (.skip, w)
  | some tablePlan =>
    match e.countRows w tablePlan with
    | ((_, some _), w₁) => some (.skip, w₁)
    | ((rowCount, none), w₁) =>
      if tablePlan.PrimaryKey ≠ [] ∧ rowCount > 1000 then
        match e.getPrimaryKeyRange w₁ tablePlan with
        | ((_, some _), w₂) => some (.skip, w₂)
        | (((minPK, maxPK), none), w₂) =>
          let chunkSize : Int := 1000
          match chunkOffsets fuel minPK maxPK chunkSize with
          | none => none
          | some offsets => some (.chunks tablePlan offsets chunkSize, w₂)
      else some (.table tablePlan, w₁)

/-! ## planner.go: `CreatePlan` -/

/-- Type `config.TableConfig`.  The map `Columns` is given by its entries in the
order in which the `range` loop of `CreatePlan` visits them (Go leaves this
order unspecified; the keys of a map are pairwise distinct). -/
structure TableConfig where
  Truncate : Bool := false
  Where : Str := []
  Limit : Int := 0
  OrderBy : Str := []
  PrimaryKey : Str := []
  Columns : List (Str × ColumnConfig) := []
  deriving DecidableEq, Repr

/-- Type `config.Config`: the field that `CreatePlan` reads, the map `Tables`
given by its entries in the order in which the `range` loop visits them. -/
structure Config where
  Tables : List (Str × TableConfig)
  deriving DecidableEq, Repr

/-- Type `AnonymizationPlan`. -/
structure AnonymizationPlan where
  Tables : List TablePlan
  deriving DecidableEq, Repr

/-- The inner loop of `CreatePlan` over the columns of one table; `columns` is
`tablePlan.Columns` as built so far.  The result is the list of column plans,
or the error that `CreatePlan` returns.  The last case of the `match` (no
strategy and no error) does not occur, `createStrategy` returning an error
whenever it returns no strategy. -/
def createColumnPlans (tableName : Str) :
    List (Str × ColumnConfig) → List ColumnPlan → Option (List ColumnPlan) × Option Str
  | [], columns => (some columns, none)
  | (columnName, columnConfig) :: rest, columns =>
    match createStrategy columnConfig with
    | (_, some err) =>
      (none, some ("error creating strategy for ".toList ++ tableName ++ ".".toList
        ++ columnName ++ ": ".toList ++ err))
    | (some strategy, none) =>
      createColumnPlans tableName rest
        (columns ++ [{ Name := columnName, Strategy := strategy,
                       Formatter := columnConfig.Formatter }])
    | (none, none) => (none, none)

/-- The outer loop of `CreatePlan` over the tables; `tables` is `plan.Tables` as
built so far. -/
def createTablePlans :
    List (Str × TableConfig) → List TablePlan → Option AnonymizationPlan × Option Str
  | [], tables => (some { Tables := tables }, none)
  | (tableName, tableConfig) :: rest, tables =>
    match createColumnPlans tableName tableConfig.Columns [] with
    | (_, some err) => (none, some err)
    | (none, none) => (none, none)
    | (some columns, none) =>
      createTablePlans rest
        (tables ++ [{ Name := tableName, PrimaryKey := tableConfig.PrimaryKey,
                      Where := tableConfig.Where, Limit := tableConfig.Limit,
                      OrderBy := tableConfig.OrderBy, Columns := columns }])

/-- Function `CreatePlan`: the plan (`none` for Go's nil) and the error. -/
def CreatePlan (cfg : Config) : Option AnonymizationPlan × Option Str :=
  createTablePlans cfg.Tables []

/-! ## executor.go: `Execute` -/

/-- The loop of `Execute` over the offsets of a table in chunked mode, with the
goroutines run one at a time in the order in which they are started, each one
to its end before the main loop goes on (one of the schedules of the program
when `maxWorkers` is positive).  `results` is the shared slice.  A chunk that
fails is logged and appends nothing.  With `maxWorkers = 0` the channel
`workerPool` is unbuffered and the first send finds no receiver: the loop blocks
for ever, which is `none`, as is the exhaustion of `fuel` in a substitution. -/
def Executor.runChunks (e : Executor) (fuel : Nat) (tablePlan : TablePlan) (chunkSize : Int) :
    List Int → World → List ExecutionResult → Option (List ExecutionResult × World)
  | [], w, results => some (results, w)
  | offset :: rest, w, results =>
    if e.maxWorkers = 0 then none
    else
      match e.processChunk fuel w tablePlan offset chunkSize with
      | none => none
      | some ((_, some _), w₁) => e.runChunks fuel tablePlan chunkSize rest w₁ results
      | some ((chunkResult, none), w₁) =>
        e.runChunks fuel tablePlan chunkSize rest w₁ (results ++ chunkResult)

/-- The table loop of `Execute`.  The plan `e.plan.Tables` is `done ++ todo`:
the tables already visited, with the primary keys that the loop has written
into them, and those still to visit.  `ctx i` is the error of the context when
the `i`-th iteration finds it cancelled and `none` when it does not.  The
result is the Go result pair, the world and the plan at the end. -/
def Executor.executeLoop (e : Executor) (fuel : Nat) (ctx : Nat → Option Str) :
    List TablePlan → List TablePlan → World → List ExecutionResult →
      Option ((List ExecutionResult × Option Str) × World × List TablePlan)
  | done, [], w, results => some ((results, none), w, done)
  | done, tablePlan₀ :: rest, w, results =>
    match ctx done.length with
    | some err => some ((results, some err), w, done ++ tablePlan₀ :: rest)
    | none =>
      let tablePlan := (e.resolvePrimaryKey (done ++ tablePlan₀ :: rest) tablePlan₀).getD tablePlan₀
      match e.dispatchTable fuel (done ++ tablePlan₀ :: rest) w tablePlan₀ with
      | none => none
      | some (.skip, w₁) => e.executeLoop fuel ctx (done ++ [tablePlan]) rest w₁ results
      | some (.chunks tablePlan₁ offsets chunkSize, w₁) =>
        match e.runChunks fuel tablePlan₁ chunkSize offsets w₁ results with
        | none => none
        | some (results₁, w₂) => e.executeLoop fuel ctx (done ++ [tablePlan]) rest w₂ results₁
      | some (.table tablePlan₁, w₁) =>
        match e.processTable fuel w₁ tablePlan₁ with
        | none => none
        | some ((_, some _), w₂) => e.executeLoop fuel ctx (done ++ [tablePlan]) rest w₂ results
        | some ((tableResults, none), w₂) =>
          e.executeLoop fuel ctx (done ++ [tablePlan]) rest w₂ (results ++ tableResults)

/-- Method `Executor.Execute` on the plan `tables`, under the schedule of
`runChunks`. -/
def Executor.Execute (e : Executor) (fuel : Nat) (ctx : Nat → Option Str)
    (tables : List TablePlan) (w : World) :
    Option ((List ExecutionResult × Option Str) × World × List TablePlan) :=
  e.executeLoop fuel ctx [] tables w []

/-- A chunk unit handed to the worker pool: the table and the offset that the
goroutine receives. -/
structure ChunkUnit where
  table : Str
  offset : Int
  deriving DecidableEq, Repr

/-- The state of the worker pool of `Execute`: the chunk units that the main
loop has still to hand out, in order; the number of elements in the channel
`workerPool`; the goroutines that have been started and whose call of
`processChunk` has not returned; the goroutines whose body has returned and
whose deferred function has not yet received from `workerPool`. -/
structure PoolState where
  pending : List ChunkUnit
  pool : Nat := 0
  executing : List ChunkUnit := []
  releasing : List ChunkUnit := []
  deriving DecidableEq, Repr

/-- What can happen next to the worker pool. -/
inductive PoolEvent where
  /-- The main loop sends into `workerPool`, which has room, and starts the
  goroutine of the next unit. -/
  | send
  /-- The body of the goroutine of a unit returns. -/
  | finish (u : ChunkUnit)
  /-- The deferred function of a goroutine receives an element of `workerPool`. -/
  | release (u : ChunkUnit)
  /-- Unbuffered channel (`maxWorkers = 0`): the send of the main loop meets the
  receive of a deferred function, and the goroutine of the next unit starts. -/
  | handoff (u : ChunkUnit)
  deriving DecidableEq, Repr

/-- One step of the worker pool with a channel of capacity `maxWorkers`, by the
rules of Go channels: a send goes through when the buffer has room or a receiver
waits, a receive when the buffer holds an element or a sender waits; `none`
when the event cannot happen in the state. -/
def PoolState.step (maxWorkers : Nat) (s : PoolState) : PoolEvent → Option PoolState
  | .send =>
    match s.pending with
    | [] => none
    | u :: rest =>
      if s.pool < maxWorkers then
        some { s with pending := rest, pool := s.pool + 1, executing := s.executing ++ [u] }
      else none
  | .finish u =>
    if u ∈ s.executing then
      some { s with executing := s.executing.erase u, releasing := s.releasing ++ [u] }
    else none
  | .release u =>
    if u ∈ s.releasing ∧ 0 < s.pool then
      some { s with pool := s.pool - 1, releasing := s.releasing.erase u }
    else none
  | .handoff u =>
    match s.pending with
    | [] => none
    | v :: rest =>
      if maxWorkers = 0 ∧ u ∈ s.releasing then
        some { s with pending := rest, executing := s.executing ++ [v],
                      releasing := s.releasing.erase u }
      else none

/-- A run of the worker pool: the events happen one after the other. -/
def PoolState.run (maxWorkers : Nat) : PoolState → List PoolEvent → Option PoolState
  | s, [] => some s
  | s, ev :: evs =>
    match s.step maxWorkers ev with
    | none => none
    | some s₁ => PoolState.run maxWorkers s₁ evs

/-! ## report.go -/

/-- Type `report.FieldReport`. -/
structure report.FieldReport where
  Name : Str
  Strategy : Str
  RowsAffected : Int
  deriving DecidableEq, Repr

/-- Type `report.TableReport`. -/
structure report.TableReport where
  Name : Str
  RowsScanned : Int
  RowsAffected : Int
  Fields : List report.FieldReport
  deriving DecidableEq, Repr

/-- Type `report.ExecutionResult`, without its `Duration`. -/
structure report.ExecutionResult where
  TableName : Str
  FieldName : Str
  RowsScanned : Int
  RowsAffected : Int
  Strategy : Str
  Error : Option Str := none
  deriving DecidableEq, Repr

/-- Field `Summary` of `report.Report`. -/
structure report.Summary where
  TotalTables : Int := 0
  TotalFields : Int := 0
  TotalRowsScanned : Int := 0
  TotalRowsAffected : Int := 0
  deriving DecidableEq, Repr

/-- Field `Errors` of `report.Report`. -/
structure report.Errors where
  Count : Int := 0
  LogFile : Str := []
  deriving DecidableEq, Repr

/-- Type `report.Report`: of the field `Execution` only the mode (the times are
not modelled). -/
structure report.Report where
  Mode : Str
  Summary : report.Summary
  Tables : List report.TableReport
  Errors : report.Errors
  deriving DecidableEq, Repr

/-- Type `report.Generator`, without its `startTime`. -/
structure report.Generator where
  dryRun : Bool
  errorLog : Str
  deriving DecidableEq, Repr

/-- The body of the first loop of `GenerateReport` for an error-free result.
The map `tableMap` is the list of its table reports, in the order in which they
were inserted; the key of a report is its `Name`. -/
def report.addResult (tableMap : List report.TableReport) (result : report.ExecutionResult) :
    List report.TableReport :=
  let field : report.FieldReport :=
    { Name := result.FieldName, Strategy := result.Strategy, RowsAffected := result.RowsAffected }
  match tableMap.find? (fun t => t.Name = result.TableName) with
  | some _ =>
    tableMap.map fun t =>
      if t.Name = result.TableName then { t with Fields := t.Fields ++ [field] } else t
  | none =>
    tableMap ++ [{ Name := result.TableName, RowsScanned := result.RowsScanned,
                   RowsAffected := result.RowsAffected, Fields := [field] }]

/-- The first loop of `GenerateReport`: the results are grouped by table and the
results that carry an error are counted. -/
def report.groupResults :
    List report.ExecutionResult → List report.TableReport → Int →
      List report.TableReport × Int
  | [], tableMap, errorCount => (tableMap, errorCount)
  | result :: rest, tableMap, errorCount =>
    if result.Error ≠ none then report.groupResults rest tableMap (errorCount + 1)
    else report.groupResults rest (report.addResult tableMap result) errorCount

/-- The last loop of `GenerateReport`: the summary of the table reports. -/
def report.summarize : List report.TableReport → report.Summary → report.Summary
  | [], summary => summary
  | table :: rest, summary =>
    report.summarize rest
      { summary with
        TotalFields := summary.TotalFields + table.Fields.length,
        TotalRowsScanned := summary.TotalRowsScanned + table.RowsScanned,
        TotalRowsAffected := summary.TotalRowsAffected + table.RowsAffected }

/-- Method `report.Generator.GenerateReport`.  Go visits the map of the table
reports in an unspecified order; here `Tables` is in the order of insertion.
The sums are taken over unbounded integers. -/
def report.Generator.GenerateReport (g : report.Generator)
    (results : List report.ExecutionResult) : report.Report :=
  let grouped := report.groupResults results [] 0
  { Mode := if g.dryRun then "dry-run".toList else "real".toList,
    Summary := report.summarize grouped.1 { TotalTables := grouped.1.length },
    Tables := grouped.1,
    Errors := { Count := grouped.2, LogFile := g.errorLog } }

/-! ## main.go -/

/-- The loop of `main` that converts the results of `Execute` into results of
the report package, field by field. -/
def reportResults (results : List ExecutionResult) : List report.ExecutionResult :=
  results.map fun result =>
    { TableName := result.TableName, FieldName := result.FieldName,
      RowsScanned := result.RowsScanned, RowsAffected := result.RowsAffected,
      Strategy := result.Strategy, Error := result.Error }

/-! ## Specification-side definitions and sample inputs -/

/-- A text in which every single quote is doubled. -/
def escapeQuotes : Str → Str
  | [] => []
  | c :: t => if c = quoteChar then quoteChar :: quoteChar :: escapeQuotes t
    else c :: escapeQuotes t

/-- Unescaping of a SQL string literal: the outer quotes are stripped and each
doubled quote is replaced by one quote. -/
def unescapeLiteral (literal : Str) : Str :=
  ReplaceAll (literal.drop 1).dropLast [quoteChar, quoteChar] [quoteChar]

/-- The assignments `c1 = e1, ..., cn = en` of a whole-table statement, column
by column. -/
def assignmentsText (tableName : Str) : List ColumnPlan → Str
  | [] => []
  | [c] => c.Name ++ " = ".toList ++ c.Strategy.GenerateSQL tableName c.Name
  | c :: cs =>
    c.Name ++ " = ".toList ++ c.Strategy.GenerateSQL tableName c.Name ++ ", ".toList
      ++ assignmentsText tableName cs

/-- The whole-table statement with each clause, and the blank before it, present
only when the clause is: `UPDATE t SET a[ WHERE w][ ORDER BY o][ LIMIT l]`. -/
def tableStatementTight (tablePlan : TablePlan) : Str :=
  "UPDATE ".toList ++ tablePlan.Name ++ " SET ".toList
    ++ assignmentsText tablePlan.Name tablePlan.Columns
    ++ (if tablePlan.Where ≠ [] then " WHERE ".toList ++ tablePlan.Where else [])
    ++ (if tablePlan.OrderBy ≠ [] then " ORDER BY ".toList ++ tablePlan.OrderBy else [])
    ++ (if tablePlan.Limit > 0 then " LIMIT ".toList ++ fmtInt tablePlan.Limit else [])

/-- The single-row statement without parentheses around the key comparison:
`UPDATE t SET a WHERE pk = v[ AND w]`. -/
def singleRowStatementFlat (tablePlan : TablePlan) (primaryKey : Str) (pkValue : Int) : Str :=
  "UPDATE ".toList ++ tablePlan.Name ++ " SET ".toList
    ++ Join ", ".toList (singleRowSetClause tablePlan pkValue)
    ++ " WHERE ".toList ++ primaryKey ++ " = ".toList ++ fmtInt pkValue
    ++ (if tablePlan.Where ≠ [] then " AND ".toList ++ tablePlan.Where else [])

/-- The text `[FAKER:` that follows the quote in the opening of a placeholder. -/
def placeholderTag : Str := "[FAKER:".toList

/-- A run of placeholder tokens, each given by the text between its delimiters
and followed by a piece of ordinary text. -/
def tokenText : List (Str × Str) → Str
  | [] => []
  | (info, piece) :: rest =>
    placeholderOpen ++ info ++ placeholderClose ++ piece ++ tokenText rest

/-- The same run with the i-th token replaced by the quoted value of the i-th
invocation of the generator, the first invocation being number `calls`. -/
def valueText (g : Generator) (calls : Nat) : List (Str × Str) → Str
  | [] => []
  | (info, piece) :: rest =>
    quoteLiteral (g.Generate calls (fakerTypeOf info)).1 ++ piece ++ valueText g (calls + 1) rest

/-- Lower case of the ASCII letters, a stand-in for `strings.ToLower` in the
sample generator. -/
def asciiLower (s : Str) : Str := s.map Char.toLower

/-- A sample generator: the library returns one address at the first invocation
and another one afterwards. -/
def sampleGenerator : Generator where
  ToLower := asciiLower
  lib := fun _ n => if n = 0 then "ann@example.org".toList else "bob@example.org".toList

/-- The table plan of `TestGenerateTableSQL`. -/
def customerPlan : TablePlan where
  Name := "customer_entity".toList
  Where := "entity_id > 1000".toList
  Columns :=
    [{ Name := "email".toList, Strategy := .FakerStrategy "email".toList },
     { Name := "firstname".toList, Strategy := .FixedValueStrategy (some (.str "John".toList)) },
     { Name := "lastname".toList, Strategy := .NullStrategy }]

/-- A table with one synthetic column. -/
def usersPlan : TablePlan where
  Name := "users".toList
  PrimaryKey := "id".toList
  Columns := [{ Name := "email".toList, Strategy := .FakerStrategy "email".toList }]

/-- A database holding two rows of `users`, with keys 1 and 2: a count is 2, a
key query returns both keys, a statement with a key comparison affects one row
and any other statement both. -/
def twoRowDatabase : Database where
  QueryRowInt := fun _ _ => (2, none)
  QueryRowRange := fun _ _ => ((1, 2), none)
  QueryInts := fun _ _ => ([1, 2], none)
  ExecContext := fun _ sql => (if (Index sql " WHERE id = ".toList).isSome then 1 else 2, none)

/-- An executor over the two-row database, not in simulation mode. -/
def twoRowExecutor : Executor where
  db := twoRowDatabase
  dryRun := false
  maxWorkers := 1
  faker := sampleGenerator

/-- Sum of the affected-row counts that the database answers to the `ExecContext`
calls among `new`, sent one after the other after the calls `before`. -/
def affectedSum (db : Database) : List DBCall → List DBCall → Int
  | _, [] => 0
  | before, .Exec sql :: rest =>
    (db.ExecContext before sql).1 + affectedSum db (before ++ [.Exec sql]) rest
  | before, .Query sql :: rest => affectedSum db (before ++ [.Query sql]) rest

/-- A database that counts 500 rows, reports the key range 5000 to 6500 and the
keys 5000 and 5001 in every window, and updates one row per statement. -/
def fiveHundredDatabase : Database where
  QueryRowInt := fun _ _ => (500, none)
  QueryRowRange := fun _ _ => ((5000, 6500), none)
  QueryInts := fun _ _ => ([5000, 5001], none)
  ExecContext := fun _ _ => (1, none)

/-- An executor in simulation mode over that database. -/
def simulationExecutor : Executor where
  db := fiveHundredDatabase
  dryRun := true
  maxWorkers := 1
  faker := sampleGenerator

/-- Whether the database answers without error to every `ExecContext` call among
`new`, sent one after the other after the calls `before`. -/
def execsSucceed (db : Database) : List DBCall → List DBCall → Bool
  | _, [] => true
  | before, .Exec sql :: rest =>
    (db.ExecContext before sql).2.isNone && execsSucceed db (before ++ [.Exec sql]) rest
  | before, .Query sql :: rest => execsSucceed db (before ++ [.Query sql]) rest

/-- Number of Synthetic columns among the columns. -/
def fakerCount : List ColumnPlan → Nat
  | [] => 0
  | c :: cs =>
    (match c.Strategy with
      | .FakerStrategy _ => 1
      | _ => 0) + fakerCount cs

/-- The `SET` assignments of a single-row statement after the substitution: the
placeholder of each Synthetic column is replaced by the literal of the value of
its own invocation, the first invocation being number `n`. -/
def singleRowValues (g : Generator) (tableName : Str) : Nat → List ColumnPlan → List Str
  | _, [] => []
  | n, c :: cs =>
    match c.Strategy with
    | .FakerStrategy t =>
      (c.Name ++ " = ".toList ++ quoteLiteral (g.Generate n t).1)
        :: singleRowValues g tableName (n + 1) cs
    | s =>
      (c.Name ++ " = ".toList ++ s.GenerateSQL tableName c.Name)
        :: singleRowValues g tableName n cs

/-- The single-row statement after the substitution by a generator that has been
invoked `n` times. -/
def substitutedSingleRowSQL (g : Generator) (n : Nat) (tablePlan : TablePlan) (primaryKey : Str)
    (pkValue : Int) : Str :=
  "UPDATE ".toList ++ tablePlan.Name ++ " SET ".toList
    ++ Join ", ".toList (singleRowValues g tablePlan.Name n tablePlan.Columns)
    ++ " WHERE ".toList
    ++ (if tablePlan.Where ≠ [] then
          "(".toList ++ (primaryKey ++ " = ".toList ++ fmtInt pkValue) ++ ") AND ".toList
            ++ tablePlan.Where
        else primaryKey ++ " = ".toList ++ fmtInt pkValue)

/-- Parts of a text, the first one preceded by `first` and every other one by a
comma and a blank. -/
def glue (first : Str) : List Str → Str
  | [] => []
  | a :: l => first ++ a ++ glue ", ".toList l

/-- A column that the substitution handles as intended: its name holds no quote;
when it is Synthetic, its generator type holds no quote and no colon, is
supported, and the generated values hold no placeholder opening and do not
start with `[FAKER:`; otherwise its rendering holds no placeholder opening. -/
def cleanColumn (g : Generator) (tableName : Str) (c : ColumnPlan) : Prop :=
  quoteChar ∉ c.Name ∧
  match c.Strategy with
  | .FakerStrategy t =>
    quoteChar ∉ t ∧ ':' ∉ t ∧ ∀ n, (g.Generate n t).2 = none ∧
      ¬ placeholderOpen <:+: (g.Generate n t).1 ∧ ¬ placeholderTag <+: (g.Generate n t).1
  | s => ¬ placeholderOpen <:+: s.GenerateSQL tableName c.Name

/-- A table with one synthetic column of the constant generator type `city`. -/
def cityPlan : TablePlan where
  Name := "users".toList
  PrimaryKey := "id".toList
  Columns := [{ Name := "city".toList, Strategy := .FakerStrategy "city".toList }]

/-- The `ExecContext` calls of a window after the substitution: one statement per
key, the statement of each key substituted by invocations of its own, the
first key starting at invocation number `n`. -/
def rowStatements (g : Generator) (tablePlan : TablePlan) : Nat → List Int → List DBCall
  | _, [] => []
  | n, k :: ks =>
    .Exec (substitutedSingleRowSQL g n tablePlan tablePlan.PrimaryKey k)
      :: rowStatements g tablePlan (n + fakerCount tablePlan.Columns) ks

/-- The generator types for which `Generate` returns a constant. -/
def constantTypes : List Str :=
  ["address", "streetaddress", "city", "state", "zipcode", "postcode", "country", "company",
   "jobtitle", "numerify", "sentence", "paragraph"].map String.toList

/-- Reading of a SQL string literal after its opening quote, by the rules of
standard SQL: a doubled quote stands for one quote of the value, and a quote
that is not followed by another one ends the literal; no other character is an
escape (the backslash escapes of some dialects are not modelled).  The result
is the value and the text after the literal; `none` when the literal is not
closed. -/
def readLiteralBody : Str → Option (Str × Str)
  | [] => none
  | [c] => if c = quoteChar then some ([], []) else none
  | c :: d :: t =>
    if c = quoteChar then
      if d = quoteChar then (readLiteralBody t).map fun r => (quoteChar :: r.1, r.2)
      else some ([], d :: t)
    else (readLiteralBody (d :: t)).map fun r => (c :: r.1, r.2)

/-- Reading of a SQL string literal at the start of a text: the value of the
literal and the text after it. -/
def readLiteral : Str → Option (Str × Str)
  | [] => none
  | c :: t => if c = quoteChar then readLiteralBody t else none

/-- Number of positions of a text at which the pattern occurs. -/
def occurrences (pat : Str) : Str → Nat
  | [] => 0
  | c :: t => (if pat.isPrefixOf (c :: t) then 1 else 0) + occurrences pat t

/-- The configuration of `TestCreatePlan`, its maps visited in the order of the
test source. -/
def testConfig : Config where
  Tables :=
    [("customer_entity".toList,
      { Where := "entity_id > 1000".toList,
        Columns :=
          [("email".toList, { Type_ := "faker.email".toList }),
           ("firstname".toList, { Value := some (.str "John".toList) }),
           ("lastname".toList, { Null := true }),
           ("description".toList, { Expr := "CONCAT(\x27Customer \x27, entity_id)".toList })] }),
     ("sales_order".toList,
      { Columns := [("customer_email".toList, { Type_ := "faker.email".toList })] })]

/-- A table whose column `note` has the Fixed string value `[FAKER:email]`. -/
def notePlan : TablePlan where
  Name := "users".toList
  Columns :=
    [{ Name := "note".toList, Strategy := .FixedValueStrategy (some (.str "[FAKER:email]".toList)) }]

/-- A configuration with one column of the generator type `bogus`, which is not
in the registry. -/
def bogusConfig : Config where
  Tables :=
    [("users".toList, { Columns := [("email".toList, { Type_ := "faker.bogus".toList })] })]

/-- The table `users` with a limit of one row. -/
def limitedPlan : TablePlan where
  Name := "users".toList
  PrimaryKey := "id".toList
  Limit := 1
  Columns := [{ Name := "email".toList, Strategy := .FakerStrategy "email".toList }]

/-- Three chunk units of the table `users`. -/
def threeUnits : List ChunkUnit :=
  [{ table := "users".toList, offset := 1 }, { table := "users".toList, offset := 1001 },
   { table := "users".toList, offset := 2001 }]

/-- A database that counts two rows and refuses every `ExecContext`. -/
def refusingDatabase : Database where
  QueryRowInt := fun _ _ => (2, none)
  QueryRowRange := fun _ _ => ((1, 2), none)
  QueryInts := fun _ _ => ([1, 2], none)
  ExecContext := fun _ _ => (0, some "connection lost".toList)

/-- An executor over the refusing database, not in simulation mode. -/
def refusingExecutor : Executor where
  db := refusingDatabase
  dryRun := false
  maxWorkers := 1
  faker := sampleGenerator

/-- A report generator outside simulation mode. -/
def sampleReporter : report.Generator where
  dryRun := false
  errorLog := "logs/error.log".toList

/-- The results of two chunks of the table `users`, which has the one column
`email`: 1000 rows in the first chunk and 500 in the second. -/
def twoChunkResults : List report.ExecutionResult :=
  [{ TableName := "users".toList, FieldName := "email".toList, RowsScanned := 1000,
     RowsAffected := 1000, Strategy := "faker".toList },
   { TableName := "users".toList, FieldName := "email".toList, RowsScanned := 500,
     RowsAffected := 500, Strategy := "faker".toList }]

/-- The first error-free result of a table in a list of results. -/
def firstResult (results : List report.ExecutionResult) (tableName : Str) :
    Option report.ExecutionResult :=
  results.find? fun r => r.Error = none ∧ r.TableName = tableName

/-- The field entries of the error-free results of a table, in order. -/
def fieldsOf (results : List report.ExecutionResult) (tableName : Str) :
    List report.FieldReport :=
  (results.filter fun r => r.Error = none ∧ r.TableName = tableName).map fun r =>
    { Name := r.FieldName, Strategy := r.Strategy, RowsAffected := r.RowsAffected }

/-- A column declaration that matches a strategy: `Null` is set, or `Expr` is
not empty, or `Value` is not nil, or `Type` starts with `faker.`. -/
def matchesStrategy (c : ColumnConfig) : Prop :=
  c.Null = true ∨ c.Expr ≠ [] ∨ c.Value ≠ none ∨ "faker.".toList <+: c.Type_

/-- What `CreatePlan` makes of one configured column. -/
def columnCompiled (cc : Str × ColumnConfig) (cp : ColumnPlan) : Prop :=
  cp.Name = cc.1 ∧ cp.Formatter = cc.2.Formatter ∧ createStrategy cc.2 = (some cp.Strategy, none)

/-- What `CreatePlan` makes of one configured table. -/
def tableCompiled (tc : Str × TableConfig) (tp : TablePlan) : Prop :=
  tp.Name = tc.1 ∧ tp.Where = tc.2.Where ∧ tp.Limit = tc.2.Limit ∧ tp.OrderBy = tc.2.OrderBy ∧
    tp.PrimaryKey = tc.2.PrimaryKey ∧ List.Forall₂ columnCompiled tc.2.Columns tp.Columns

/-- The invariant of the worker pool: every goroutine that has been started and
has not yet received from `workerPool` accounts for one element of the channel,
and the channel holds at most `maxWorkers` elements. -/
def PoolState.inv (maxWorkers : Nat) (s : PoolState) : Prop :=
  s.executing.length + s.releasing.length = s.pool ∧ s.pool ≤ maxWorkers

/-- The field entry that `GenerateReport` appends for a result. -/
def fieldOf (r : report.ExecutionResult) : report.FieldReport :=
  { Name := r.FieldName, Strategy := r.Strategy, RowsAffected := r.RowsAffected }

/-- The update of `addResult` on the table reports of the name `n`. -/
def appendField (n : Str) (f : report.FieldReport) (t : report.TableReport) :
    report.TableReport :=
  if t.Name = n then { t with Fields := t.Fields ++ [f] } else t

/-- Sum of the numbers of field entries of the table reports. -/
def fieldTotal (tables : List report.TableReport) : Int :=
  (tables.map fun t => (t.Fields.length : Int)).sum

/-- A generator whose library returns the text of a placeholder, `[FAKER:email:t:a]`,
at the first invocation and an address afterwards. -/
def tagGenerator : Generator where
  ToLower := asciiLower
  lib := fun _ n => if n = 0 then "[FAKER:email:t:a]".toList else "bob@example.org".toList

/-- A generator whose library always returns the text `[FAKER:email]`. -/
def echoGenerator : Generator where
  ToLower := asciiLower
  lib := fun _ _ => "[FAKER:email]".toList

/-- A text that holds a placeholder opening with no closing delimiter after
it. -/
def unterminated (s : Str) : Prop :=
  ∃ Y rest, s = Y ++ (placeholderOpen ++ rest) ∧ ¬ placeholderClose <:+: rest

/-- Reading of a string literal after its opening quote by the rules of MySQL in
its default mode: as in standard SQL a doubled quote stands for one quote and a
single quote ends the literal, and in addition a backslash makes the character
after it part of the value (the control characters that some letters stand for
after a backslash are not told apart). -/
def readLiteralMySQLBody : Str → Option (Str × Str)
  | [] => none
  | [c] => if c = quoteChar then some ([], []) else none
  | c :: d :: t =>
    if c = Char.ofNat 92 then (readLiteralMySQLBody t).map fun r => (d :: r.1, r.2)
    else if c = quoteChar then
      if d = quoteChar then (readLiteralMySQLBody t).map fun r => (quoteChar :: r.1, r.2)
      else some ([], d :: t)
    else (readLiteralMySQLBody (d :: t)).map fun r => (c :: r.1, r.2)

/-- Reading of a string literal at the start of a text by the rules of MySQL in
its default mode. -/
def readLiteralMySQL : Str → Option (Str × Str)
  | [] => none
  | c :: t => if c = quoteChar then readLiteralMySQLBody t else none


/-! ## Plan compiler: strategy selection -/

/-- C4: `createStrategy` selects in the priority order null, expr, value, type.
With `Null` set the result is the Null strategy whatever the other fields hold;
otherwise a non-empty `Expr` gives `Expression(Expr)`; otherwise a non-nil
`Value` gives `Fixed(Value)`; otherwise a `Type` of the form `faker.` followed
by `t` gives the Synthetic strategy with generator type `t`. -/
theorem createStrategy_priority (c : ColumnConfig) :
    (c.Null = true → createStrategy c = (some .NullStrategy, none)) ∧
    (c.Null = false → c.Expr ≠ [] →
      createStrategy c = (some (.ExpressionStrategy c.Expr), none)) ∧
    (c.Null = false → c.Expr = [] → c.Value ≠ none →
      createStrategy c = (some (.FixedValueStrategy c.Value), none)) ∧
    (c.Null = false → c.Expr = [] → c.Value = none →
      ∀ t : Str, c.Type_ = "faker.".toList ++ t →
        createStrategy c = (some (.FakerStrategy t), none)) := by
  refine ⟨?_, ?_, ?_, ?_⟩
  · intro h
    simp [createStrategy, h]
  · intro h he
    simp [createStrategy, h, he]
  · intro h he hv
    simp [createStrategy, h, he, hv]
  · intro h he hv t ht
    have hp : "faker.".toList.isPrefixOf c.Type_ = true := by
      rw [ht, List.isPrefixOf_iff_prefix]
      exact List.prefix_append _ _
    have hd : c.Type_.drop "faker.".length = t := by
      rw [ht]
      rfl
    simp only [createStrategy, h, he, hv, hp, hd]
    simp

/-- Instance of C4 on a declaration that sets all four fields: the result is the
Null strategy. -/
theorem createStrategy_priority_witness :
    createStrategy
        { Null := true, Expr := "NOW()".toList, Value := some (.str "x".toList),
          Type_ := "faker.email".toList }
      = (some .NullStrategy, none) :=
  (createStrategy_priority _).1 rfl

/-- C5: `createStrategy` returns an error exactly when `Null` is false, `Expr`
is empty, `Value` is nil and `Type` does not start with `faker.`; it returns a
strategy exactly when it returns no error.  A declaration with nothing set and
one with the type `unsupported` are both refused. -/
theorem createStrategy_error_iff (c : ColumnConfig) :
    ((createStrategy c).2 ≠ none ↔
      (c.Null = false ∧ c.Expr = [] ∧ c.Value = none ∧ ¬ "faker.".toList <+: c.Type_)) ∧
    ((createStrategy c).1 ≠ none ↔ (createStrategy c).2 = none) ∧
    (createStrategy {}).2 ≠ none ∧
    (createStrategy { Type_ := "unsupported".toList }).2 ≠ none := by
  have hp : ("faker.".toList.isPrefixOf c.Type_ = true) ↔ "faker.".toList <+: c.Type_ :=
    List.isPrefixOf_iff_prefix
  refine ⟨?_, ?_, by decide, by decide⟩
  · unfold createStrategy
    split_ifs with h1 h2 h3 h4
    · simp [h1]
    · simp_all
    · simp_all
    · simp_all
    · simp_all
  · unfold createStrategy
    split_ifs <;> simp

/-! ## SQL generator -/

/-- Joining the assignments of `setClause` gives the assignments column by
column. -/
theorem Join_setClause_aux (tableName : Str) (cols : List ColumnPlan) :
    Join ", ".toList (cols.map fun column =>
      column.Name ++ " = ".toList ++ column.Strategy.GenerateSQL tableName column.Name)
      = assignmentsText tableName cols := by
  induction cols with
  | nil => rfl
  | cons c cs ih =>
    cases cs with
    | nil => rfl
    | cons d ds =>
      simp only [List.map_cons, Join, assignmentsText] at ih ⊢
      rw [ih]

/-- Every part occurs in the joined text. -/
theorem infix_Join (sep : Str) (parts : List Str) (x : Str) (hx : x ∈ parts) :
    x <:+: Join sep parts := by
  induction parts with
  | nil => simp at hx
  | cons p ps ih =>
    cases ps with
    | nil =>
      simp only [List.mem_singleton] at hx
      subst hx
      exact List.infix_refl _
    | cons r rs =>
      simp only [Join]
      rcases List.mem_cons.mp hx with h | h
      · subst h
        exact ⟨[], sep ++ Join sep (r :: rs), by simp⟩
      · obtain ⟨a, b, hab⟩ := ih h
        exact ⟨p ++ sep ++ a, b, by simp [← hab, List.append_assoc]⟩

/-- C6, as stated, fails on the plan of `TestGenerateTableSQL` (three columns,
where `entity_id > 1000`, no order, limit 0): the statement is not the text with
absent clauses left out, and it does not end with `WHERE entity_id > 1000`. -/
theorem GenerateTableSQL_not_tight :
    (GenerateTableSQL customerPlan).1 ≠ tableStatementTight customerPlan ∧
    ¬ ("WHERE entity_id > 1000".toList <:+ (GenerateTableSQL customerPlan).1) := by
  decide

/-- C6, amended: for a plan with at least one column `GenerateTableSQL` returns
`UPDATE <table> SET <c1> = <e1>, ..., <cn> = <en>`, a blank, the where clause, a
blank, the order clause, a blank and the limit clause, where the where clause
is `WHERE <where>` or empty, the order clause `ORDER BY <orderBy>` or empty and
the limit clause `LIMIT <limit>` (for limit > 0) or empty.  The three blanks are
always there: with a where text, no order and limit 0 the statement ends with
`WHERE <where>` and two blanks. -/
theorem GenerateTableSQL_text (p : TablePlan) (h : p.Columns ≠ []) :
    GenerateTableSQL p =
      ("UPDATE ".toList ++ p.Name ++ " SET ".toList ++ assignmentsText p.Name p.Columns
        ++ " ".toList ++ (if p.Where ≠ [] then "WHERE ".toList ++ p.Where else [])
        ++ " ".toList ++ (if p.OrderBy ≠ [] then "ORDER BY ".toList ++ p.OrderBy else [])
        ++ " ".toList ++ (if p.Limit > 0 then "LIMIT ".toList ++ fmtInt p.Limit else []),
        none) ∧
    (p.Where ≠ [] → p.OrderBy = [] → p.Limit = 0 →
      ("WHERE ".toList ++ p.Where ++ "  ".toList) <:+ (GenerateTableSQL p).1) := by
  have hlen : ¬ p.Columns.length = 0 := by
    intro h0
    exact h (List.length_eq_zero.mp h0)
  have hj : Join ", ".toList (setClause p) = assignmentsText p.Name p.Columns :=
    Join_setClause_aux p.Name p.Columns
  constructor
  · simp only [GenerateTableSQL, hlen, if_false, hj]
  · intro hw ho hl
    simp only [GenerateTableSQL, hlen, if_false, hw, ho, hl]
    exact ⟨"UPDATE ".toList ++ p.Name ++ " SET ".toList ++ Join ", ".toList (setClause p)
      ++ " ".toList, by simp [List.append_assoc, hw]⟩

/-- Instance of C6 amended on the plan of `TestGenerateTableSQL`. -/
theorem GenerateTableSQL_text_witness :
    (GenerateTableSQL customerPlan).1 =
      ("UPDATE customer_entity SET email = \x27[FAKER:email:customer_entity:email]\x27, "
        ++ "firstname = \x27John\x27, lastname = NULL WHERE entity_id > 1000  ").toList := by
  rw [(GenerateTableSQL_text customerPlan (by decide)).1]
  decide

/-- C7: `GenerateTableSQL` returns an error exactly when the plan has no column,
the text returned with the error is empty, and a plan with at least one column
gives no error. -/
theorem GenerateTableSQL_error_iff (p : TablePlan) :
    ((GenerateTableSQL p).2 ≠ none ↔ p.Columns = []) ∧
    ((GenerateTableSQL p).2 ≠ none → (GenerateTableSQL p).1 = []) ∧
    (p.Columns ≠ [] → (GenerateTableSQL p).2 = none) := by
  unfold GenerateTableSQL
  by_cases h : p.Columns = []
  · simp [h]
  · have hlen : ¬ p.Columns.length = 0 := fun h0 => h (List.length_eq_zero.mp h0)
    simp [h, hlen]

/-- Instance of C7: the plan of `TestGenerateTableSQL` gives no error and the
same plan without columns gives one. -/
theorem GenerateTableSQL_error_iff_witness :
    (GenerateTableSQL customerPlan).2 = none ∧
    GenerateTableSQL { customerPlan with Columns := [] } =
      ([], some "no columns to anonymize in table customer_entity".toList) :=
  ⟨(GenerateTableSQL_error_iff customerPlan).2.2 (by decide), by decide⟩

/-- C8, as stated, fails on the plan of `TestGenerateTableSQL` with the key
`entity_id` and the value 42: the call succeeds and the statement is not the
text `... WHERE entity_id = 42 AND entity_id > 1000`. -/
theorem GenerateSingleRowSQL_not_flat :
    (GenerateSingleRowSQL customerPlan "entity_id".toList 42).2 = none ∧
    (GenerateSingleRowSQL customerPlan "entity_id".toList 42).1
      ≠ singleRowStatementFlat customerPlan "entity_id".toList 42 := by
  decide

/-- C8, amended: `GenerateSingleRowSQL` fails exactly when the plan has no
column or the primary key name is empty; otherwise it returns
`UPDATE <table> SET <assignments> WHERE <pk> = <pkValue>` when where is empty
and `UPDATE <table> SET <assignments> WHERE (<pk> = <pkValue>) AND <where>`,
the key comparison between parentheses, when where is not empty. -/
theorem GenerateSingleRowSQL_text (p : TablePlan) (pk : Str) (v : Int) :
    ((GenerateSingleRowSQL p pk v).2 ≠ none ↔ (p.Columns = [] ∨ pk = [])) ∧
    (p.Columns ≠ [] → pk ≠ [] → p.Where = [] →
      GenerateSingleRowSQL p pk v =
        ("UPDATE ".toList ++ p.Name ++ " SET ".toList
          ++ Join ", ".toList (singleRowSetClause p v)
          ++ " WHERE ".toList ++ pk ++ " = ".toList ++ fmtInt v, none)) ∧
    (p.Columns ≠ [] → pk ≠ [] → p.Where ≠ [] →
      GenerateSingleRowSQL p pk v =
        ("UPDATE ".toList ++ p.Name ++ " SET ".toList
          ++ Join ", ".toList (singleRowSetClause p v)
          ++ " WHERE (".toList ++ pk ++ " = ".toList ++ fmtInt v ++ ") AND ".toList ++ p.Where,
          none)) := by
  unfold GenerateSingleRowSQL
  by_cases h : p.Columns = []
  · simp [h]
  · have hlen : ¬ p.Columns.length = 0 := fun h0 => h (List.length_eq_zero.mp h0)
    by_cases hk : pk = []
    · simp [h, hlen, hk]
    · by_cases hw : p.Where = []
      · simp [h, hlen, hk, hw, List.append_assoc]
      · simp [h, hlen, hk, hw, List.append_assoc]

/-- Instance of C8 amended on the plan of `TestGenerateTableSQL`. -/
theorem GenerateSingleRowSQL_text_witness :
    (GenerateSingleRowSQL customerPlan "entity_id".toList 42).1 =
      ("UPDATE customer_entity SET email = \x27[FAKER:email:customer_entity:email:42]\x27, "
        ++ "firstname = \x27John\x27, lastname = NULL "
        ++ "WHERE (entity_id = 42) AND entity_id > 1000").toList := by
  rw [(GenerateSingleRowSQL_text customerPlan "entity_id".toList 42).2.2
    (by decide) (by decide) (by decide)]
  decide

/-- C10: at the inputs of the tests of the repository the code does not return
what they assert.  For the generator type `email`, the table `table` and the
column `column` the rendering is `'[FAKER:email:table:column]'` and not
`FAKER('email')`, and the whole-table statement of the plan of
`TestGenerateTableSQL` does not contain `email = FAKER('email')`
(`strings.Index` finds no occurrence). -/
theorem FakerStrategy_GenerateSQL_not_call :
    FakerStrategy.GenerateSQL "email".toList "table".toList "column".toList
      = "\x27[FAKER:email:table:column]\x27".toList ∧
    FakerStrategy.GenerateSQL "email".toList "table".toList "column".toList
      ≠ "FAKER(\x27email\x27)".toList ∧
    Index (GenerateTableSQL customerPlan).1 "email = FAKER(\x27email\x27)".toList = none := by
  decide

/-- The rendering of a Synthetic strategy, for every generator type, table and
column: `FakerStrategy.GenerateSQL` returns the placeholder token
`'[FAKER:<t>:<table>:<column>]'`, and the whole-table statement of a plan with
a Synthetic email column named `email` contains
`email = '[FAKER:email:<table>:email]'`. -/
theorem FakerStrategy_GenerateSQL_text (t tableName columnName : Str) :
    FakerStrategy.GenerateSQL t tableName columnName =
      "\x27[FAKER:".toList ++ t ++ ":".toList ++ tableName ++ ":".toList ++ columnName
        ++ "]\x27".toList ∧
    ∀ p : TablePlan, ∀ c ∈ p.Columns, c.Name = "email".toList →
      c.Strategy = .FakerStrategy "email".toList →
      ("email = \x27[FAKER:email:".toList ++ p.Name ++ ":email]\x27".toList)
        <:+: (GenerateTableSQL p).1 := by
  constructor
  · rfl
  · intro p c hc hn hs
    have hne : p.Columns ≠ [] := List.ne_nil_of_mem hc
    have hlen : ¬ p.Columns.length = 0 := fun h0 => hne (List.length_eq_zero.mp h0)
    have hmem : ("email = \x27[FAKER:email:".toList ++ p.Name ++ ":email]\x27".toList)
        ∈ setClause p := by
      refine List.mem_map.mpr ⟨c, hc, ?_⟩
      rw [hn, hs]
      simp [AnonymizationStrategy.GenerateSQL, FakerStrategy.GenerateSQL, quoteChar]
    have hj : Join ", ".toList (setClause p) <:+: (GenerateTableSQL p).1 := by
      simp only [GenerateTableSQL, hlen, if_false, List.append_assoc]
      exact (List.infix_append' _ _ _).trans
        ((List.suffix_append _ _).isInfix.trans (List.suffix_append _ _).isInfix)
    exact (infix_Join ", ".toList _ _ hmem).trans hj

/-- Instance of the rendering: the statement of the plan of `TestGenerateTableSQL`
contains the placeholder assignment of its email column. -/
theorem FakerStrategy_GenerateSQL_text_witness :
    "email = \x27[FAKER:email:customer_entity:email]\x27".toList
      <:+: (GenerateTableSQL customerPlan).1 :=
  (FakerStrategy_GenerateSQL_text [] [] []).2 customerPlan
    { Name := "email".toList, Strategy := .FakerStrategy "email".toList }
    (by decide) rfl rfl

/-! ## Quote escaping -/

/-- On the one-character pattern `'`, the worker of `ReplaceAll` doubles every
quote. -/
theorem replaceAllAux_quote (fuel : Nat) :
    ∀ s : Str, s.length < fuel →
      replaceAllAux fuel s [quoteChar] [quoteChar, quoteChar] = escapeQuotes s := by
  induction fuel with
  | zero => intro s h; omega
  | succ n ih =>
    intro s h
    cases s with
    | nil => simp [replaceAllAux, escapeQuotes]
    | cons c t =>
      have ht : t.length < n := by simpa using h
      by_cases hc : c = quoteChar
      · simp [replaceAllAux, escapeQuotes, hc, ih t ht]
      · have hc' : ¬ quoteChar = c := fun e => hc e.symm
        simp [replaceAllAux, escapeQuotes, hc, hc', ih t ht]

/-- The call `strings.ReplaceAll(v, "'", "''")` doubles every quote. -/
theorem ReplaceAll_quote (s : Str) :
    ReplaceAll s [quoteChar] [quoteChar, quoteChar] = escapeQuotes s :=
  replaceAllAux_quote (s.length + 1) s (Nat.lt_succ_self _)

/-- Replacing the doubled quotes of an escaped text by single ones gives the
text back. -/
theorem replaceAllAux_unquote (v : Str) :
    ∀ fuel : Nat, (escapeQuotes v).length < fuel →
      replaceAllAux fuel (escapeQuotes v) [quoteChar, quoteChar] [quoteChar] = v := by
  induction v with
  | nil =>
    intro fuel h
    cases fuel with
    | zero => simp at h
    | succ n => simp [replaceAllAux, escapeQuotes]
  | cons c t ih =>
    intro fuel h
    cases fuel with
    | zero => simp at h
    | succ n =>
      by_cases hc : c = quoteChar
      · have ht : (escapeQuotes t).length < n := by
          simp [escapeQuotes, hc] at h
          omega
        simp [replaceAllAux, escapeQuotes, hc, ih n ht]
      · have ht : (escapeQuotes t).length < n := by
          simpa [escapeQuotes, hc] using h
        have hc' : ¬ quoteChar = c := fun e => hc e.symm
        simp [replaceAllAux, escapeQuotes, hc, hc', ih n ht]

/-- C2: for every string `v` the Fixed strategy renders `v` between single
quotes with every single quote of `v` doubled, and unescaping that literal
(outer quotes stripped, doubled quotes replaced by one) gives `v` back;
`O'Reilly` renders as `'O''Reilly'`. -/
theorem FixedValueStrategy_GenerateSQL_roundtrip (v tableName columnName : Str) :
    FixedValueStrategy.GenerateSQL (some (.str v)) tableName columnName
      = [quoteChar] ++ escapeQuotes v ++ [quoteChar] ∧
    unescapeLiteral (FixedValueStrategy.GenerateSQL (some (.str v)) tableName columnName) = v ∧
    FixedValueStrategy.GenerateSQL (some (.str "O\x27Reilly".toList)) tableName columnName
      = "\x27O\x27\x27Reilly\x27".toList := by
  refine ⟨?_, ?_, by rfl⟩
  · simp [FixedValueStrategy.GenerateSQL, ReplaceAll_quote]
  · simp only [FixedValueStrategy.GenerateSQL, ReplaceAll_quote, unescapeLiteral]
    have h : (([quoteChar] ++ escapeQuotes v ++ [quoteChar]).drop 1).dropLast
        = escapeQuotes v := by
      simp
    rw [h]
    exact replaceAllAux_unquote v _ (Nat.lt_succ_self _)

/-! ## The verb `%d` -/

/-- Every decimal digit is below ten. -/
theorem decDigits_lt (fuel : Nat) : ∀ n : Nat, ∀ d ∈ decDigits fuel n, d < 10 := by
  induction fuel with
  | zero => intro n d hd; simp [decDigits] at hd
  | succ f ih =>
    intro n d hd
    unfold decDigits at hd
    split_ifs at hd with h
    · simp at hd
      omega
    · rcases List.mem_cons.mp hd with h1 | h1
      · omega
      · exact ih _ d h1

/-- The digits determine the number. -/
theorem decDigits_foldr (fuel : Nat) :
    ∀ n : Nat, n < fuel → (decDigits fuel n).foldr (fun d acc => d + 10 * acc) 0 = n := by
  induction fuel with
  | zero => intro n h; omega
  | succ f ih =>
    intro n h
    unfold decDigits
    split_ifs with h10
    · simp
    · have hlt : n / 10 < f := by omega
      simp only [List.foldr_cons, ih _ hlt]
      omega

/-- The digit characters of different digits differ. -/
theorem digitChar_inj : ∀ a < 10, ∀ b < 10, digitChar a = digitChar b → a = b := by
  decide

/-- No digit character is the minus sign. -/
theorem digitChar_ne_minus (d : Nat) : digitChar d ≠ '-' := by
  unfold digitChar
  split <;> decide

/-- Mapping digits below ten to characters loses nothing. -/
theorem map_digitChar_inj :
    ∀ l₁ l₂ : List Nat, (∀ d ∈ l₁, d < 10) → (∀ d ∈ l₂, d < 10) →
      l₁.map digitChar = l₂.map digitChar → l₁ = l₂ := by
  intro l₁
  induction l₁ with
  | nil =>
    intro l₂ _ _ h
    cases l₂ with
    | nil => rfl
    | cons b bs => simp at h
  | cons a as ih =>
    intro l₂ h₁ h₂ h
    cases l₂ with
    | nil => simp at h
    | cons b bs =>
      simp only [List.map_cons, List.cons.injEq] at h
      have hab : a = b :=
        digitChar_inj a (h₁ a (List.mem_cons_self _ _)) b (h₂ b (List.mem_cons_self _ _)) h.1
      have hrest : as = bs :=
        ih bs (fun d hd => h₁ d (List.mem_cons_of_mem _ hd))
          (fun d hd => h₂ d (List.mem_cons_of_mem _ hd)) h.2
      rw [hab, hrest]

/-- Different natural numbers have different decimal renderings. -/
theorem fmtNat_inj (n m : Nat) (h : fmtNat n = fmtNat m) : n = m := by
  unfold fmtNat at h
  have h' : (decDigits (n + 1) n).reverse = (decDigits (m + 1) m).reverse :=
    map_digitChar_inj _ _
      (fun d hd => decDigits_lt _ _ d (List.mem_reverse.mp hd))
      (fun d hd => decDigits_lt _ _ d (List.mem_reverse.mp hd)) h
  have h'' : decDigits (n + 1) n = decDigits (m + 1) m := List.reverse_injective h'
  have hn := decDigits_foldr (n + 1) n (Nat.lt_succ_self _)
  have hm := decDigits_foldr (m + 1) m (Nat.lt_succ_self _)
  rw [h''] at hn
  omega

/-- The rendering of a natural number does not start with a minus sign. -/
theorem fmtNat_ne_minus_cons (n : Nat) (t : Str) : fmtNat n ≠ '-' :: t := by
  intro h
  have hmem : '-' ∈ fmtNat n := by
    rw [h]
    exact List.mem_cons_self _ _
  obtain ⟨d, _, hd⟩ := List.mem_map.mp hmem
  exact digitChar_ne_minus d hd

/-- Different integers have different `%d` renderings. -/
theorem fmtInt_inj (p q : Int) (h : fmtInt p = fmtInt q) : p = q := by
  cases p with
  | ofNat n =>
    cases q with
    | ofNat m =>
      simp only [fmtInt] at h
      rw [fmtNat_inj n m h]
    | negSucc m =>
      simp only [fmtInt] at h
      exact absurd h (fmtNat_ne_minus_cons _ _)
  | negSucc n =>
    cases q with
    | ofNat m =>
      simp only [fmtInt] at h
      exact absurd h.symm (fmtNat_ne_minus_cons _ _)
    | negSucc m =>
      simp only [fmtInt, List.cons.injEq, true_and] at h
      have := fmtNat_inj _ _ h
      have hnm : n = m := by omega
      rw [hnm]

/-! ## Single-row placeholders -/

/-- C9: for a plan with a Synthetic column and two different primary key values
`p` and `q`, the assignment that `GenerateSingleRowSQL` emits for that column in
the statement of row `p` is `<column> = <placeholder>`, the placeholder ends
with `:<p>]'`, and the placeholders of `p` and of `q` differ although generator
type, table and column coincide. -/
theorem singleRow_placeholders_differ (tablePlan : TablePlan) (column : ColumnPlan)
    (fakerType primaryKey : Str) (p q : Int) (hcol : column ∈ tablePlan.Columns)
    (hs : column.Strategy = .FakerStrategy fakerType) (hk : primaryKey ≠ []) (hpq : p ≠ q) :
    singleRowAssignment tablePlan.Name p column
      = column.Name ++ " = ".toList
        ++ singleRowPlaceholder fakerType tablePlan.Name column.Name p ∧
    singleRowAssignment tablePlan.Name p column
      <:+: (GenerateSingleRowSQL tablePlan primaryKey p).1 ∧
    (":".toList ++ fmtInt p ++ [']', quoteChar])
      <:+ singleRowPlaceholder fakerType tablePlan.Name column.Name p ∧
    singleRowPlaceholder fakerType tablePlan.Name column.Name p
      ≠ singleRowPlaceholder fakerType tablePlan.Name column.Name q := by
  have hne : tablePlan.Columns ≠ [] := List.ne_nil_of_mem hcol
  have hlen : ¬ tablePlan.Columns.length = 0 := fun h0 => hne (List.length_eq_zero.mp h0)
  refine ⟨?_, ?_, ?_, ?_⟩
  · simp [singleRowAssignment, hs]
  · have hmem : singleRowAssignment tablePlan.Name p column ∈ singleRowSetClause tablePlan p :=
      List.mem_map.mpr ⟨column, hcol, rfl⟩
    have hj : Join ", ".toList (singleRowSetClause tablePlan p)
        <:+: (GenerateSingleRowSQL tablePlan primaryKey p).1 := by
      simp only [GenerateSingleRowSQL, hlen, hk, if_false, List.append_assoc]
      exact (List.infix_append' _ _ _).trans
        ((List.suffix_append _ _).isInfix.trans (List.suffix_append _ _).isInfix)
    exact (infix_Join ", ".toList _ _ hmem).trans hj
  · refine ⟨quoteChar :: "[FAKER:".toList ++ fakerType ++ ":".toList ++ tablePlan.Name
      ++ ":".toList ++ column.Name, ?_⟩
    simp [singleRowPlaceholder, List.append_assoc]
  · intro h
    unfold singleRowPlaceholder at h
    simp only [List.cons_append, List.append_assoc, List.cons.injEq, true_and,
      List.append_cancel_left_eq] at h
    exact hpq (fmtInt_inj p q (List.append_cancel_right h))

/-- Instance of C9 on the plan of `TestGenerateTableSQL`, rows 1 and 2. -/
theorem singleRow_placeholders_differ_witness :
    "\x27[FAKER:email:customer_entity:email:1]\x27".toList
      ≠ "\x27[FAKER:email:customer_entity:email:2]\x27".toList :=
  (singleRow_placeholders_differ customerPlan
    { Name := "email".toList, Strategy := .FakerStrategy "email".toList }
    "email".toList "entity_id".toList 1 2 (by decide) rfl (by decide) (by decide)).2.2.2

/-! ## Occurrences of a pattern -/

/-- The search `strings.Index` finds nothing exactly when the pattern does not
occur in the text. -/
theorem Index_eq_none_iff (pat : Str) : ∀ s : Str, Index s pat = none ↔ ¬ pat <:+: s := by
  intro s
  induction s with
  | nil =>
    cases pat with
    | nil => simp [Index]
    | cons a as => simp [Index]
  | cons c t ih =>
    rw [List.infix_cons_iff]
    unfold Index
    by_cases hp : pat.isPrefixOf (c :: t) = true
    · have hp' : pat <+: c :: t := List.isPrefixOf_iff_prefix.mp hp
      simp [hp, hp']
    · have hp' : ¬ pat <+: c :: t := fun h => hp (List.isPrefixOf_iff_prefix.mpr h)
      simp [hp, hp', ih]

/-- A text without the character `x` that starts a text in which `x` follows `A`
lies within `A`. -/
theorem prefix_of_prefix_append_cons (x : Char) (b : Str) (hx : x ∉ b) :
    ∀ A Y : Str, b <+: A ++ x :: Y → b <+: A := by
  induction b with
  | nil => intro A Y _; exact List.nil_prefix
  | cons y b' ih =>
    intro A Y h
    have hxy : x ≠ y := fun e => hx (e ▸ List.mem_cons_self _ _)
    have hxb : x ∉ b' := fun hm => hx (List.mem_cons_of_mem _ hm)
    cases A with
    | nil =>
      simp only [List.nil_append, List.cons_prefix_cons] at h
      exact absurd h.1.symm hxy
    | cons a A' =>
      simp only [List.cons_append, List.cons_prefix_cons] at h
      exact List.cons_prefix_cons.mpr ⟨h.1, ih hxb A' Y h.2⟩

/-- First occurrence: when the pattern `x :: b`, with no `x` in `b`, does not
occur in `A`, a text that starts with the pattern is found right after `A`. -/
theorem Index_first (x : Char) (b : Str) (hx : x ∉ b) :
    ∀ A Z Y : Str, ¬ (x :: b) <:+: A →
      Index (A ++ ((x :: b) ++ Z) ++ Y) ((x :: b) ++ Z) = some A.length := by
  intro A
  induction A with
  | nil =>
    intro Z Y _
    have hp : ((x :: b) ++ Z).isPrefixOf ([] ++ ((x :: b) ++ Z) ++ Y) = true :=
      List.isPrefixOf_iff_prefix.mpr (by simp)
    simp only [List.nil_append, List.cons_append] at hp ⊢
    simp [Index, hp]
  | cons a A' ih =>
    intro Z Y hA
    have hA' : ¬ (x :: b) <:+: A' := fun h => hA (List.infix_cons_iff.mpr (Or.inr h))
    have hnp : ¬ ((x :: b) ++ Z).isPrefixOf ((a :: A') ++ ((x :: b) ++ Z) ++ Y) = true := by
      intro hp
      have h1 : (x :: b) ++ Z <+: (a :: A') ++ ((x :: b) ++ Z) ++ Y :=
        List.isPrefixOf_iff_prefix.mp hp
      have h2 : x :: b <+: a :: (A' ++ x :: (b ++ Z ++ Y)) := by
        have := (List.prefix_append (x :: b) Z).trans h1
        simpa [List.append_assoc] using this
      have h3 := List.cons_prefix_cons.mp h2
      have h4 : b <+: A' := prefix_of_prefix_append_cons x b hx A' _ h3.2
      exact hA (List.cons_prefix_cons.mpr ⟨h3.1, h4⟩).isInfix
    have hnp' : ¬ ((x :: b) ++ Z).isPrefixOf (a :: (A' ++ ((x :: b) ++ Z) ++ Y)) = true := hnp
    show Index (a :: (A' ++ ((x :: b) ++ Z) ++ Y)) ((x :: b) ++ Z) = some (A'.length + 1)
    rw [Index, if_neg hnp', ih Z Y hA']
    rfl

/-- The pattern `x :: b`, with no `x` in `b`, does not occur in `A ++ x :: Z`
when it occurs neither in `A` nor in `x :: Z`. -/
theorem not_infix_append_cons (x : Char) (b : Str) (hx : x ∉ b) :
    ∀ A Z : Str, ¬ (x :: b) <:+: A → ¬ (x :: b) <:+: x :: Z → ¬ (x :: b) <:+: A ++ x :: Z := by
  intro A
  induction A with
  | nil => intro Z _ h; simpa using h
  | cons a A' ih =>
    intro Z hA hZ h
    have hA' : ¬ (x :: b) <:+: A' := fun h => hA (List.infix_cons_iff.mpr (Or.inr h))
    rw [List.cons_append, List.infix_cons_iff] at h
    rcases h with h | h
    · have h3 := List.cons_prefix_cons.mp h
      have h4 : b <+: A' := prefix_of_prefix_append_cons x b hx A' _ h3.2
      exact hA (List.cons_prefix_cons.mpr ⟨h3.1, h4⟩).isInfix
    · exact ih Z hA' hZ h

/-! ## Placeholder substitution -/

/-- The quote does not occur in the text `[FAKER:`. -/
theorem quoteChar_not_mem_placeholderTag : quoteChar ∉ placeholderTag := by decide

/-- The bracket that starts the closing delimiter is not the quote. -/
theorem bracket_not_mem_quote : ']' ∉ [quoteChar] := by decide

/-- The literal put in place of a placeholder is the escaped value between
quotes. -/
theorem quoteLiteral_eq (v : Str) :
    quoteLiteral v = quoteChar :: (escapeQuotes v ++ [quoteChar]) := by
  simp [quoteLiteral, ReplaceAll_quote]

/-- A quote-free text that starts the escaped form of `v` followed by a quote
starts `v` itself. -/
theorem prefix_of_prefix_escapeQuotes (b : Str) (hq : quoteChar ∉ b) :
    ∀ v t : Str, b <+: escapeQuotes v ++ quoteChar :: t → b <+: v := by
  induction b with
  | nil => intro v t _; exact List.nil_prefix
  | cons y b' ih =>
    intro v t h
    have hqy : quoteChar ≠ y := fun e => hq (e ▸ List.mem_cons_self _ _)
    have hqb : quoteChar ∉ b' := fun hm => hq (List.mem_cons_of_mem _ hm)
    cases v with
    | nil =>
      simp only [escapeQuotes, List.nil_append, List.cons_prefix_cons] at h
      exact absurd h.1.symm hqy
    | cons c v' =>
      by_cases hc : c = quoteChar
      · simp only [escapeQuotes, hc, if_true, List.cons_append, List.cons_prefix_cons] at h
        exact absurd h.1.symm hqy
      · simp only [escapeQuotes, hc, if_false, List.cons_append, List.cons_prefix_cons] at h
        exact List.cons_prefix_cons.mpr ⟨h.1, ih hqb v' t h.2⟩

/-- Escaping a value brings in no placeholder opening: when the opening occurs
neither in `v` nor in the text `quote :: t` that follows, it does not occur in
the escaped form of `v` followed by that text. -/
theorem not_open_infix_escapeQuotes (t : Str) (ht : ¬ placeholderOpen <:+: quoteChar :: t) :
    ∀ v : Str, ¬ placeholderOpen <:+: v →
      ¬ placeholderOpen <:+: escapeQuotes v ++ quoteChar :: t := by
  intro v
  induction v with
  | nil => intro _; simpa [escapeQuotes] using ht
  | cons c v' ih =>
    intro hv
    have hv' : ¬ placeholderOpen <:+: v' := fun h => hv (List.infix_cons_iff.mpr (Or.inr h))
    have hrest := ih hv'
    by_cases hc : c = quoteChar
    · subst hc
      simp only [escapeQuotes, if_true, List.cons_append]
      intro h
      rcases List.infix_cons_iff.mp h with h | h
      · have h1 := (List.cons_prefix_cons.mp h).2
        have h2 : '[' = quoteChar := (List.cons_prefix_cons.mp h1).1
        exact absurd h2 (by decide)
      · rcases List.infix_cons_iff.mp h with h | h
        · have h1 : placeholderTag <+: escapeQuotes v' ++ quoteChar :: t :=
            (List.cons_prefix_cons.mp h).2
          have h2 : placeholderTag <+: v' :=
            prefix_of_prefix_escapeQuotes _ quoteChar_not_mem_placeholderTag v' t h1
          exact hv (List.cons_prefix_cons.mpr ⟨rfl, h2⟩).isInfix
        · exact hrest h
    · simp only [escapeQuotes, hc, if_false, List.cons_append]
      intro h
      rcases List.infix_cons_iff.mp h with h | h
      · exact hc (List.cons_prefix_cons.mp h).1.symm
      · exact hrest h

/-- The literal of a value followed by a piece of text holds no placeholder
opening, when the opening occurs neither in the value nor in the piece and
neither of them starts with `[FAKER:`. -/
theorem not_open_infix_literal (v t : Str) (hv : ¬ placeholderOpen <:+: v)
    (hv₀ : ¬ placeholderTag <+: v) (ht : ¬ placeholderOpen <:+: t)
    (ht₀ : ¬ placeholderTag <+: t) :
    ¬ placeholderOpen <:+: quoteLiteral v ++ t := by
  have hqt : ¬ placeholderOpen <:+: quoteChar :: t := by
    intro h
    rcases List.infix_cons_iff.mp h with h | h
    · exact ht₀ (List.cons_prefix_cons.mp h).2
    · exact ht h
  rw [quoteLiteral_eq]
  simp only [List.cons_append, List.append_assoc, List.nil_append]
  intro h
  rcases List.infix_cons_iff.mp h with h | h
  · exact hv₀ (prefix_of_prefix_escapeQuotes _ quoteChar_not_mem_placeholderTag v t
      (List.cons_prefix_cons.mp h).2)
  · exact not_open_infix_escapeQuotes t hqt v hv h

/-- The closing delimiter does not occur in the opening followed by a text in
which it does not occur. -/
theorem not_close_infix_open_append (info : Str) (h : ¬ placeholderClose <:+: info) :
    ¬ placeholderClose <:+: placeholderOpen ++ info := by
  intro hc
  apply h
  simp only [placeholderOpen, placeholderClose, String.toList, List.cons_append] at hc
  simp only [List.infix_cons_iff, List.cons_prefix_cons] at hc
  simpa [quoteChar] using hc

/-- The slice of a text between the end of `X` and the end of `P` is `P`. -/
theorem slice_mid (X P W : Str) (i j : Nat) (hi : i = X.length)
    (hj : j = X.length + P.length) : slice (X ++ (P ++ W)) i j = P := by
  unfold slice
  have h1 : (X ++ (P ++ W)).take j = X ++ P := by
    rw [← List.append_assoc]
    exact List.take_left' (by simp [hj])
  rw [h1]
  exact List.drop_left' hi.symm

/-- The opening is first found right after a text in which it does not occur. -/
theorem Index_open_at (X Y : Str) (h : ¬ placeholderOpen <:+: X) :
    Index (X ++ (placeholderOpen ++ Y)) placeholderOpen = some X.length := by
  have h' := Index_first quoteChar placeholderTag quoteChar_not_mem_placeholderTag X [] Y h
  rw [List.append_nil] at h'
  rw [← List.append_assoc]
  exact h'

/-- A token is first found right after a text in which the opening does not
occur. -/
theorem Index_token_at (X Z Y : Str) (h : ¬ placeholderOpen <:+: X) :
    Index (X ++ ((placeholderOpen ++ Z) ++ Y)) (placeholderOpen ++ Z) = some X.length := by
  have h' := Index_first quoteChar placeholderTag quoteChar_not_mem_placeholderTag X Z Y h
  rw [← List.append_assoc]
  exact h'

/-- The closing delimiter is first found right after a text in which it does
not occur. -/
theorem Index_close_at (A Y : Str) (h : ¬ placeholderClose <:+: A) :
    Index (A ++ (placeholderClose ++ Y)) placeholderClose = some A.length := by
  have h' := Index_first ']' [quoteChar] bracket_not_mem_quote A [] Y h
  rw [List.append_nil] at h'
  rw [← List.append_assoc]
  exact h'

/-- One iteration of the loop of `ReplaceFakerPlaceholders` on a text whose
first placeholder follows `X`: the placeholder is replaced by the literal of the
generated value and the loop goes on. -/
theorem replaceLoop_step (g : Generator) (sql X info W : Str) (calls fuel : Nat)
    (hX : ¬ placeholderOpen <:+: X) (hinfo : ¬ placeholderClose <:+: info)
    (hsupp : (g.Generate calls (fakerTypeOf info)).2 = none) :
    replaceLoop g sql (fuel + 1)
        (X ++ (placeholderOpen ++ (info ++ (placeholderClose ++ W)))) calls
      = replaceLoop g sql fuel
        (X ++ (quoteLiteral (g.Generate calls (fakerTypeOf info)).1 ++ W)) (calls + 1) := by
  have h1 := Index_open_at X (info ++ (placeholderClose ++ W)) hX
  have hdrop : (X ++ (placeholderOpen ++ (info ++ (placeholderClose ++ W)))).drop X.length
      = placeholderOpen ++ (info ++ (placeholderClose ++ W)) := List.drop_left _ _
  have h2 : Index (placeholderOpen ++ (info ++ (placeholderClose ++ W))) placeholderClose
      = some (8 + info.length) := by
    have := Index_close_at (placeholderOpen ++ info) W (not_close_infix_open_append info hinfo)
    rw [List.append_assoc] at this
    rw [this]
    simp [placeholderOpen]
    omega
  have h3 : slice (X ++ (placeholderOpen ++ (info ++ (placeholderClose ++ W)))) X.length
      (8 + info.length + X.length + 2) = placeholderOpen ++ (info ++ placeholderClose) := by
    have hre : X ++ (placeholderOpen ++ (info ++ (placeholderClose ++ W)))
        = X ++ ((placeholderOpen ++ (info ++ placeholderClose)) ++ W) := by
      simp [List.append_assoc]
    rw [hre]
    apply slice_mid _ _ _ _ _ rfl
    simp [placeholderOpen, placeholderClose]
    omega
  have h4 : slice (X ++ (placeholderOpen ++ (info ++ (placeholderClose ++ W)))) (X.length + 8)
      (8 + info.length + X.length) = info := by
    have hre : X ++ (placeholderOpen ++ (info ++ (placeholderClose ++ W)))
        = (X ++ placeholderOpen) ++ (info ++ (placeholderClose ++ W)) := by
      simp [List.append_assoc]
    rw [hre]
    apply slice_mid
    · simp [placeholderOpen]
    · simp [placeholderOpen]
      omega
  have h5 : g.Generate calls (fakerTypeOf info)
      = ((g.Generate calls (fakerTypeOf info)).1, none) := by
    rw [← hsupp]
  have h6 : ReplaceFirst (X ++ (placeholderOpen ++ (info ++ (placeholderClose ++ W))))
      (placeholderOpen ++ (info ++ placeholderClose))
      (quoteLiteral (g.Generate calls (fakerTypeOf info)).1)
      = X ++ (quoteLiteral (g.Generate calls (fakerTypeOf info)).1 ++ W) := by
    have hre : X ++ (placeholderOpen ++ (info ++ (placeholderClose ++ W)))
        = X ++ ((placeholderOpen ++ (info ++ placeholderClose)) ++ W) := by
      simp [List.append_assoc]
    have hidx := Index_token_at X (info ++ placeholderClose) W hX
    unfold ReplaceFirst
    rw [hre, hidx]
    simp only []
    rw [List.take_left, List.drop_append, List.drop_left]
    simp [List.append_assoc]
  rw [replaceLoop]
  simp only [h1, hdrop, h2, h3, h4]
  rw [h5]
  simp only [h6]

/-- The loop of `ReplaceFakerPlaceholders` on a text made of `X`, in which no
opening occurs, and a run of tokens: after one iteration per token, and one
more that finds no opening, every token is replaced by the literal of its own
generated value. -/
theorem replaceLoop_tokens (g : Generator) (sql : Str) :
    ∀ (toks : List (Str × Str)) (X : Str) (calls fuel : Nat),
      toks.length < fuel →
      ¬ placeholderOpen <:+: X →
      (∀ x ∈ toks, ¬ placeholderClose <:+: x.1) →
      (∀ x ∈ toks, ¬ placeholderOpen <:+: x.2 ∧ ¬ placeholderTag <+: x.2) →
      (∀ x ∈ toks, ∀ n, (g.Generate n (fakerTypeOf x.1)).2 = none) →
      (∀ x ∈ toks, ∀ n, ¬ placeholderOpen <:+: (g.Generate n (fakerTypeOf x.1)).1 ∧
        ¬ placeholderTag <+: (g.Generate n (fakerTypeOf x.1)).1) →
      replaceLoop g sql fuel (X ++ tokenText toks) calls
        = some ((X ++ valueText g calls toks, none), calls + toks.length) := by
  intro toks
  induction toks with
  | nil =>
    intro X calls fuel hfuel hX _ _ _ _
    cases fuel with
    | zero => simp at hfuel
    | succ f =>
      have h0 : Index X placeholderOpen = none := (Index_eq_none_iff _ X).mpr hX
      simp [replaceLoop, tokenText, valueText, h0]
  | cons tok rest ih =>
    intro X calls fuel hfuel hX hinfo hpiece hsupp hval
    obtain ⟨info, piece⟩ := tok
    cases fuel with
    | zero => simp at hfuel
    | succ f =>
      have hf : rest.length < f := by simpa using hfuel
      have hi := hinfo (info, piece) (List.mem_cons_self _ _)
      have hp := hpiece (info, piece) (List.mem_cons_self _ _)
      have hs := hsupp (info, piece) (List.mem_cons_self _ _) calls
      have hv := hval (info, piece) (List.mem_cons_self _ _) calls
      have hre : X ++ tokenText ((info, piece) :: rest)
          = X ++ (placeholderOpen ++ (info ++ (placeholderClose ++ (piece ++ tokenText rest)))) := by
        simp [tokenText, List.append_assoc]
      rw [hre, replaceLoop_step g sql X info (piece ++ tokenText rest) calls f hX hi hs]
      have hlit : ¬ placeholderOpen <:+: quoteLiteral (g.Generate calls (fakerTypeOf info)).1
          ++ piece :=
        not_open_infix_literal _ piece hv.1 hv.2 hp.1 hp.2
      have hX' : ¬ placeholderOpen <:+:
          X ++ (quoteLiteral (g.Generate calls (fakerTypeOf info)).1 ++ piece) := by
        have hq : quoteLiteral (g.Generate calls (fakerTypeOf info)).1 ++ piece
            = quoteChar :: (escapeQuotes (g.Generate calls (fakerTypeOf info)).1
              ++ [quoteChar] ++ piece) := by
          rw [quoteLiteral_eq]
          simp [List.append_assoc]
        rw [hq] at hlit ⊢
        exact not_infix_append_cons quoteChar placeholderTag quoteChar_not_mem_placeholderTag
          X _ hX hlit
      have hrec := ih (X ++ (quoteLiteral (g.Generate calls (fakerTypeOf info)).1 ++ piece))
        (calls + 1) f hf hX'
        (fun x hx => hinfo x (List.mem_cons_of_mem _ hx))
        (fun x hx => hpiece x (List.mem_cons_of_mem _ hx))
        (fun x hx => hsupp x (List.mem_cons_of_mem _ hx))
        (fun x hx => hval x (List.mem_cons_of_mem _ hx))
      have hre2 : X ++ (quoteLiteral (g.Generate calls (fakerTypeOf info)).1
            ++ (piece ++ tokenText rest))
          = X ++ (quoteLiteral (g.Generate calls (fakerTypeOf info)).1 ++ piece)
            ++ tokenText rest := by
        simp [List.append_assoc]
      rw [hre2, hrec]
      simp only [valueText, List.length_cons, List.append_assoc]
      congr 2
      omega

/-- C3, amended: on a SQL text made of ordinary pieces and `k` placeholder tokens, each
token holding no closing delimiter before its own and naming a supported
generator type, `ReplaceFakerPlaceholders` (given more than `k` iterations)
succeeds, invokes the generator exactly `k` times and returns the text in which
the i-th token from the left is replaced by the literal of the i-th generated
value and the pieces are unchanged; two identical tokens get two invocations.
The pieces hold no other placeholder opening (none contains the opening, and the
closing quote of a token is not followed by `[FAKER:`), and neither do the
generated values: none contains the opening or starts with `[FAKER:`, which is
so when no value contains `[FAKER:`. -/
theorem ReplaceFakerPlaceholders_tokens (g : Generator) (calls fuel : Nat) (t₀ : Str)
    (toks : List (Str × Str)) (hfuel : toks.length < fuel)
    (ht₀ : ¬ placeholderOpen <:+: t₀)
    (hinfo : ∀ x ∈ toks, ¬ placeholderClose <:+: x.1)
    (hpiece : ∀ x ∈ toks, ¬ placeholderOpen <:+: x.2 ∧ ¬ placeholderTag <+: x.2)
    (hsupp : ∀ x ∈ toks, ∀ n, (g.Generate n (fakerTypeOf x.1)).2 = none)
    (hval : ∀ x ∈ toks, ∀ n, ¬ placeholderOpen <:+: (g.Generate n (fakerTypeOf x.1)).1 ∧
      ¬ placeholderTag <+: (g.Generate n (fakerTypeOf x.1)).1) :
    ReplaceFakerPlaceholders g fuel calls (t₀ ++ tokenText toks)
      = some ((t₀ ++ valueText g calls toks, none), calls + toks.length) :=
  replaceLoop_tokens g _ toks t₀ calls fuel hfuel ht₀ hinfo hpiece hsupp hval

/-- The sample generator supports the type of the token `email:t:a`, and its
values hold no placeholder opening. -/
theorem sampleGenerator_email (n : Nat) :
    (sampleGenerator.Generate n (fakerTypeOf "email:t:a".toList)).2 = none ∧
    ¬ placeholderOpen <:+: (sampleGenerator.Generate n (fakerTypeOf "email:t:a".toList)).1 ∧
    ¬ placeholderTag <+: (sampleGenerator.Generate n (fakerTypeOf "email:t:a".toList)).1 := by
  have hv : (sampleGenerator.Generate n (fakerTypeOf "email:t:a".toList)).1
      = if n = 0 then "ann@example.org".toList else "bob@example.org".toList := rfl
  refine ⟨rfl, ?_, ?_⟩
  · rw [hv]
    split <;> decide
  · rw [hv]
    split <;> decide

/-- Instance of C3 amended: two identical tokens in one statement get the values of two
invocations. -/
theorem ReplaceFakerPlaceholders_tokens_witness :
    ReplaceFakerPlaceholders sampleGenerator 3 0
        ("UPDATE t SET a = \x27[FAKER:email:t:a]\x27, b = \x27[FAKER:email:t:a]\x27 "
          ++ "WHERE id = 1").toList
      = some ((("UPDATE t SET a = \x27ann@example.org\x27, b = \x27bob@example.org\x27 "
          ++ "WHERE id = 1").toList, none), 2) :=
  ReplaceFakerPlaceholders_tokens sampleGenerator 0 3 "UPDATE t SET a = ".toList
    [("email:t:a".toList, ", b = ".toList), ("email:t:a".toList, " WHERE id = 1".toList)]
    (by decide) (by decide) (by decide) (by decide)
    (by
      intro x hx n
      simp only [List.mem_cons, List.mem_singleton, List.not_mem_nil, or_false] at hx
      rcases hx with rfl | rfl <;> exact (sampleGenerator_email n).1)
    (by
      intro x hx n
      simp only [List.mem_cons, List.mem_singleton, List.not_mem_nil, or_false] at hx
      rcases hx with rfl | rfl <;> exact (sampleGenerator_email n).2)

/-- C3, as stated, fails when a generated value or the text after a placeholder
starts with `[FAKER:`, although neither holds the opening `'[FAKER:`.  With a
generator whose first value is `[FAKER:email:t:a]` the one placeholder of the
text costs two invocations and gets the second value; and in a text whose one
placeholder is followed by `[FAKER:email:t:b]'` the closing quote of the inserted
literal opens a second placeholder, which costs a second invocation and changes
the text outside the placeholder. -/
theorem ReplaceFakerPlaceholders_tokens_restart :
    ¬ placeholderOpen <:+: "[FAKER:email:t:a]".toList ∧
    ReplaceFakerPlaceholders tagGenerator 3 0
        "UPDATE t SET a = \x27[FAKER:email:t:a]\x27 WHERE id = 1".toList
      = some (("UPDATE t SET a = \x27bob@example.org\x27 WHERE id = 1".toList, none), 2) ∧
    ¬ placeholderOpen <:+: "[FAKER:email:t:b]\x27 WHERE id = 1".toList ∧
    ReplaceFakerPlaceholders sampleGenerator 3 0
        "UPDATE t SET a = \x27[FAKER:email:t:a]\x27[FAKER:email:t:b]\x27 WHERE id = 1".toList
      = some (("UPDATE t SET a = \x27ann@example.org\x27bob@example.org\x27 WHERE id = 1".toList,
          none), 2) := by
  decide

/-! ## Whole-table mode and chunked mode -/

/-- C1 does not hold in whole-table mode.  On a `users` table of two rows with
one Synthetic column, `processTable` invokes the generator once and sends one
`UPDATE` that carries that one value and affects both rows, so the two rows
share it; on the same two rows `processChunk` invokes the generator twice and
sends one `UPDATE` per row, each with its own value. -/
theorem processTable_shares_value :
    twoRowExecutor.processTable 2 {} usersPlan
      = some ((columnResults usersPlan 2 2, none),
          { log := [.Query "SELECT COUNT(*) FROM users ".toList,
                    .Exec "UPDATE users SET email = \x27ann@example.org\x27   ".toList],
            genCalls := 1 }) ∧
    twoRowExecutor.processChunk 2 {} usersPlan 1 1000
      = some ((columnResults usersPlan 2 2, none),
          { log := [.Query "SELECT id FROM users WHERE id >= 1 AND id < 1001".toList,
                    .Exec "UPDATE users SET email = \x27ann@example.org\x27 WHERE id = 1".toList,
                    .Exec "UPDATE users SET email = \x27bob@example.org\x27 WHERE id = 2".toList],
            genCalls := 2 }) := by
  decide

/-! ## Placeholder tokens and the triples they encode -/

/-- A text without `x`, followed by `x`, determines where it ends. -/
theorem append_cons_inj (x : Char) :
    ∀ a a' r r' : Str, x ∉ a → x ∉ a' → a ++ x :: r = a' ++ x :: r' → a = a' ∧ r = r' := by
  intro a
  induction a with
  | nil =>
    intro a' r r' _ ha' h
    cases a' with
    | nil => simpa using h
    | cons c cs =>
      simp only [List.nil_append, List.cons_append, List.cons.injEq] at h
      exact absurd (h.1 ▸ List.mem_cons_self _ _) ha'
  | cons b bs ih =>
    intro a' r r' ha ha' h
    cases a' with
    | nil =>
      simp only [List.nil_append, List.cons_append, List.cons.injEq] at h
      exact absurd (h.1 ▸ List.mem_cons_self _ _) ha
    | cons c cs =>
      simp only [List.cons_append, List.cons.injEq] at h
      have hb : x ∉ bs := fun hm => ha (List.mem_cons_of_mem _ hm)
      have hc : x ∉ cs := fun hm => ha' (List.mem_cons_of_mem _ hm)
      obtain ⟨h1, h2⟩ := ih cs r r' hb hc h.2
      exact ⟨by rw [h.1, h1], h2⟩

/-- A text without `x`, preceded by `x`, determines where it starts. -/
theorem append_cons_inj_right (x : Char) (a a' r r' : Str) (hr : x ∉ r) (hr' : x ∉ r')
    (h : a ++ x :: r = a' ++ x :: r') : a = a' ∧ r = r' := by
  have h' : r.reverse ++ x :: a.reverse = r'.reverse ++ x :: a'.reverse := by
    have := congrArg List.reverse h
    simpa using this
  obtain ⟨h1, h2⟩ := append_cons_inj x _ _ _ _
    (fun hm => hr (List.mem_reverse.mp hm)) (fun hm => hr' (List.mem_reverse.mp hm)) h'
  exact ⟨List.reverse_injective h2, List.reverse_injective h1⟩

/-- C11: the token does not identify its triple when a name holds a colon.  The
triples (`a:b`, `c`, `d`) and (`a`, `b:c`, `d`) differ and
`FakerStrategy.GenerateSQL` renders the same token `'[FAKER:a:b:c:d]'` for
both: the names are joined by colons and a colon inside a name is not
escaped. -/
theorem FakerStrategy_GenerateSQL_collision :
    (("a:b".toList, "c".toList, "d".toList) : Str × Str × Str)
      ≠ ("a".toList, "b:c".toList, "d".toList) ∧
    FakerStrategy.GenerateSQL "a:b".toList "c".toList "d".toList
      = "\x27[FAKER:a:b:c:d]\x27".toList ∧
    FakerStrategy.GenerateSQL "a:b".toList "c".toList "d".toList
      = FakerStrategy.GenerateSQL "a".toList "b:c".toList "d".toList := by
  decide

/-- Tokens of names without colon: two triples (generator type, table name,
column name) that are not equal are rendered by `FakerStrategy.GenerateSQL` as two different
placeholder tokens, provided that the table names and the column names hold no
colon, or that the generator types and the table names hold none. -/
theorem FakerStrategy_GenerateSQL_injective (t tb c t' tb' c' : Str)
    (hcolon : (':' ∉ tb ∧ ':' ∉ c ∧ ':' ∉ tb' ∧ ':' ∉ c') ∨
      (':' ∉ t ∧ ':' ∉ tb ∧ ':' ∉ t' ∧ ':' ∉ tb'))
    (hne : (t, tb, c) ≠ (t', tb', c')) :
    FakerStrategy.GenerateSQL t tb c ≠ FakerStrategy.GenerateSQL t' tb' c' := by
  intro h
  apply hne
  unfold FakerStrategy.GenerateSQL at h
  simp only [List.cons_append, List.append_assoc, List.cons.injEq, true_and,
    List.append_cancel_left_eq] at h
  have h1 : (t ++ ':' :: (tb ++ ':' :: c)) ++ [']', quoteChar]
      = (t' ++ ':' :: (tb' ++ ':' :: c')) ++ [']', quoteChar] := by
    simpa using h
  have h2 : t ++ ':' :: (tb ++ ':' :: c) = t' ++ ':' :: (tb' ++ ':' :: c') :=
    List.append_cancel_right h1
  rcases hcolon with ⟨htb, hc, htb', hc'⟩ | ⟨ht, htb, ht', htb'⟩
  · have h3 : (t ++ ':' :: tb) ++ ':' :: c = (t' ++ ':' :: tb') ++ ':' :: c' := by
      simpa using h2
    obtain ⟨h4, e3⟩ := append_cons_inj_right ':' _ _ _ _ hc hc' h3
    obtain ⟨e1, e2⟩ := append_cons_inj_right ':' _ _ _ _ htb htb' h4
    rw [e1, e2, e3]
  · obtain ⟨e1, h3⟩ := append_cons_inj ':' _ _ _ _ ht ht' h2
    obtain ⟨e2, e3⟩ := append_cons_inj ':' _ _ _ _ htb htb' h3
    rw [e1, e2, e3]

/-- Instance for names without colon: the columns `email` and `name` of the table `users`
get different tokens for the same generator type. -/
theorem FakerStrategy_GenerateSQL_injective_witness :
    FakerStrategy.GenerateSQL "name".toList "users".toList "email".toList
      ≠ FakerStrategy.GenerateSQL "name".toList "users".toList "name".toList :=
  FakerStrategy_GenerateSQL_injective _ _ _ _ _ _
    (Or.inl ⟨by decide, by decide, by decide, by decide⟩) (by decide)

/-! ## Chunk windows and the choice of the mode -/

/-- An integer in the range of Go's `int` is not changed by the wrap-around. -/
theorem wrapInt_eq (x : Int) (h₁ : -9223372036854775808 ≤ x) (h₂ : x ≤ 9223372036854775807) :
    wrapInt x = x := by
  unfold wrapInt
  omega

/-- The wrap-around gives an integer in the range of Go's `int`. -/
theorem wrapInt_le (x : Int) : wrapInt x ≤ 9223372036854775807 := by
  unfold wrapInt
  omega

/-- With enough iterations, and when no sum `offset + 1000` leaves the range of
Go's `int`, the loop over the offsets ends, and it has visited exactly the
offsets `lo + 1000 * j` that are at most `hi`, in increasing order, each window
ending where the next one starts or before. -/
theorem chunkOffsets_spec (fuel : Nat) :
    ∀ lo hi : Int, 0 < fuel → hi - lo + 1000 < 1000 * fuel →
      -9223372036854775808 ≤ lo → hi + 1000 ≤ 9223372036854775807 →
      ∃ offs, chunkOffsets fuel lo hi 1000 = some offs ∧
        (∀ o, o ∈ offs ↔ ∃ j : Nat, o = lo + 1000 * j ∧ o ≤ hi) ∧
        offs.Pairwise (fun a b => a + 1000 ≤ b) := by
  induction fuel with
  | zero => intro lo hi h; omega
  | succ f ih =>
    intro lo hi _ hf hlo hhi
    unfold chunkOffsets
    by_cases hle : lo ≤ hi
    · have hf0 : 0 < f := by omega
      have hf' : hi - (lo + 1000) + 1000 < 1000 * (f : Int) := by push_cast at hf; omega
      have hw : wrapInt (lo + 1000) = lo + 1000 := wrapInt_eq _ (by omega) (by omega)
      obtain ⟨offs, he, hm, hp⟩ := ih (lo + 1000) hi hf0 hf' (by omega) hhi
      refine ⟨lo :: offs, ?_, ?_, ?_⟩
      · simp [hle, hw, he]
      · intro o
        constructor
        · intro ho
          rcases List.mem_cons.mp ho with h | h
          · exact ⟨0, by simp [h], by omega⟩
          · obtain ⟨j, hj, hjle⟩ := (hm o).mp h
            exact ⟨j + 1, by push_cast; omega, hjle⟩
        · rintro ⟨j, hj, hjle⟩
          cases j with
          | zero => simp at hj; simp [hj]
          | succ j' =>
            refine List.mem_cons_of_mem _ ((hm o).mpr ⟨j', ?_, hjle⟩)
            push_cast at hj
            omega
      · refine List.pairwise_cons.mpr ⟨?_, hp⟩
        intro b hb
        obtain ⟨j, hj, _⟩ := (hm b).mp hb
        omega
    · exact ⟨[], by simp [hle], by
        intro o
        constructor
        · intro h; simp at h
        · rintro ⟨j, hj, hjle⟩
          omega, List.Pairwise.nil⟩

/-- When the largest key is the largest value of Go's `int`, the condition
`offset <= maxPK` of the loop over the offsets holds for every offset: the loop
does not end. -/
theorem chunkOffsets_endless (fuel : Nat) :
    ∀ offset : Int, offset ≤ 9223372036854775807 →
      chunkOffsets fuel offset 9223372036854775807 1000 = none := by
  induction fuel with
  | zero => intro offset _; rfl
  | succ f ih =>
    intro offset h
    rw [chunkOffsets, if_pos h, ih _ (wrapInt_le _)]
    rfl

/-- C13, as stated, fails at the upper end of Go's `int`.  For
`minPK = maxPK = 9223372036854775807` the sum `offset + 1000` wraps around to
`-9223372036854774809`: the loop over the offsets never ends, and the window of
the first offset, whose key query is
`id >= 9223372036854775807 AND id < -9223372036854774809`, holds no key, so the
key 9223372036854775807 lies in no window. -/
theorem chunkOffsets_overflow :
    (∀ fuel, chunkOffsets fuel 9223372036854775807 9223372036854775807 1000 = none) ∧
    wrapInt (9223372036854775807 + 1000) = -9223372036854774809 ∧
    (twoRowExecutor.getPrimaryKeysInRange {} usersPlan 9223372036854775807 1000).2.log
      = [.Query ("SELECT id FROM users WHERE id >= 9223372036854775807 "
          ++ "AND id < -9223372036854774809").toList] :=
  ⟨fun fuel => chunkOffsets_endless fuel _ (Int.le_refl _), by decide, by decide⟩

/-- C13, amended: for all integers `minPK ≤ maxPK` of Go's `int` with
`maxPK + 1000` still in its range, the loop of `Execute` over the offsets ends
(given enough iterations) and the windows `[offset, offset + 1000)` it hands
out, for `offset = minPK, minPK + 1000, ...` up to `maxPK`, are disjoint (each
ends where the next starts, or before) and every key `k` with
`minPK ≤ k ≤ maxPK` lies in exactly one of them; for 5000 and 6500 the offsets
are 5000 and 6000.  The key query of `getPrimaryKeysInRange` has the same
half-open bounds for each of these offsets:
`pk >= offset AND pk < offset + 1000`. -/
theorem chunkOffsets_partition (minPK maxPK : Int) (fuel : Nat) (h : minPK ≤ maxPK)
    (hmin : -9223372036854775808 ≤ minPK) (hmax : maxPK + 1000 ≤ 9223372036854775807)
    (hfuel : maxPK - minPK + 1000 < 1000 * fuel) :
    ∃ offsets, chunkOffsets fuel minPK maxPK 1000 = some offsets ∧
      offsets.Pairwise (fun a b => a + 1000 ≤ b) ∧
      (∀ o ∈ offsets, minPK ≤ o ∧ o ≤ maxPK) ∧
      (∀ k, minPK ≤ k → k ≤ maxPK → ∃! o, o ∈ offsets ∧ o ≤ k ∧ k < o + 1000) ∧
      chunkOffsets 3 5000 6500 1000 = some [5000, 6000] ∧
      ∀ (e : Executor) (w : World) (tablePlan : TablePlan), ∀ o ∈ offsets,
        (e.getPrimaryKeysInRange w tablePlan o 1000).2.log = w.log ++
          [.Query ("SELECT ".toList ++ tablePlan.PrimaryKey ++ " FROM ".toList ++ tablePlan.Name
            ++ " WHERE ".toList ++ tablePlan.PrimaryKey ++ " >= ".toList ++ fmtInt o
            ++ " AND ".toList ++ tablePlan.PrimaryKey ++ " < ".toList ++ fmtInt (o + 1000)
            ++ (if tablePlan.Where ≠ [] then " AND ".toList ++ tablePlan.Where else []))] := by
  have hpos : 0 < fuel := by omega
  obtain ⟨offs, he, hm, hp⟩ := chunkOffsets_spec fuel minPK maxPK hpos hfuel hmin hmax
  have hrange : ∀ o ∈ offs, minPK ≤ o ∧ o ≤ maxPK := by
    intro o ho
    obtain ⟨j, hj, hjle⟩ := (hm o).mp ho
    omega
  refine ⟨offs, he, hp, hrange, ?_, by decide, ?_⟩
  · intro k hk1 hk2
    refine ⟨minPK + 1000 * (((k - minPK) / 1000).toNat : Int), ⟨?_, ?_, ?_⟩, ?_⟩
    · refine (hm _).mpr ⟨((k - minPK) / 1000).toNat, rfl, ?_⟩
      omega
    · omega
    · omega
    · rintro o ⟨ho, ho1, ho2⟩
      obtain ⟨j, hj, _⟩ := (hm o).mp ho
      omega
  · intro e w tablePlan o ho
    have hw : wrapInt (o + 1000) = o + 1000 :=
      wrapInt_eq _ (by have := hrange o ho; omega) (by have := hrange o ho; omega)
    unfold Executor.getPrimaryKeysInRange
    rw [hw]
    by_cases hwh : tablePlan.Where = []
    · simp only [hwh, ne_eq, not_true_eq_false, if_false]
      split <;> simp [World.sent]
    · simp only [hwh, ne_eq, not_false_eq_true, if_true]
      split <;> simp [World.sent, List.append_assoc]

/-- Instance of C13 amended for the keys 5000 to 6500. -/
theorem chunkOffsets_partition_witness :
    ∃ offsets, chunkOffsets 3 5000 6500 1000 = some offsets ∧
      ∀ k, (5000 : Int) ≤ k → k ≤ 6500 → ∃! o, o ∈ offsets ∧ o ≤ k ∧ k < o + 1000 :=
  let ⟨offsets, h₁, _, _, h₄, _⟩ :=
    chunkOffsets_partition 5000 6500 3 (by decide) (by decide) (by decide) (by decide)
  ⟨offsets, h₁, h₄⟩

/-- The primary key is never empty after its resolution, and the resolution
changes no other field. -/
theorem resolvePrimaryKey_some (e : Executor) (tables : List TablePlan) (t : TablePlan) :
    ∃ tp, e.resolvePrimaryKey tables t = some tp ∧ tp.PrimaryKey ≠ [] ∧
      tp.Name = t.Name ∧ tp.Where = t.Where ∧ tp.Columns = t.Columns := by
  unfold Executor.resolvePrimaryKey
  by_cases h : t.PrimaryKey = []
  · simp only [h, if_true, Executor.getPrimaryKey]
    cases hf : tables.find? (fun tablePlan => tablePlan.Name = t.Name ∧ tablePlan.PrimaryKey ≠ [])
      with
    | none => exact ⟨_, rfl, (by decide : "id".toList ≠ []), rfl, rfl, rfl⟩
    | some r =>
      have hr := List.find?_some hf
      simp only [decide_eq_true_eq] at hr
      exact ⟨_, rfl, hr.2, rfl, rfl, rfl⟩
  · simp only [h, if_false]
    exact ⟨t, rfl, h, rfl, rfl, rfl⟩

/-- C17: in an iteration of `Execute` whose count query answers `c`, the primary
key is resolved to a non-empty name; with `c ≤ 1000` the table is handed to a
single `processTable` call; with `c > 1000` the key range is read and, the
range query answering (with bounds whose sums stay in the range of Go's `int`),
one `processChunk` per offset of the range is handed out; and the iteration does not hand the table to `processTable` if and only if
the primary key name is not empty and `c > 1000`. -/
theorem dispatchTable_mode (e : Executor) (fuel : Nat) (tables : List TablePlan) (w : World)
    (t : TablePlan) (c : Int)
    (hcount : e.db.QueryRowInt w.log (GenerateCountSQL t) = (c, none)) :
    ∃ tp, e.resolvePrimaryKey tables t = some tp ∧ tp.PrimaryKey ≠ [] ∧
      (c ≤ 1000 →
        e.dispatchTable fuel tables w t
          = some (.table tp, w.sent (.Query (GenerateCountSQL t)))) ∧
      (1000 < c → ∀ lo hi,
        e.db.QueryRowRange (w.sent (.Query (GenerateCountSQL t))).log
          (GeneratePrimaryKeyRangeSQL tp.Name tp.PrimaryKey tp.Where) = ((lo, hi), none) →
        0 < fuel → hi - lo + 1000 < 1000 * fuel →
        -9223372036854775808 ≤ lo → hi + 1000 ≤ 9223372036854775807 →
        ∃ offsets, chunkOffsets fuel lo hi 1000 = some offsets ∧
          (e.dispatchTable fuel tables w t).map Prod.fst = some (.chunks tp offsets 1000)) ∧
      (∀ d w', e.dispatchTable fuel tables w t = some (d, w') →
        ((¬ ∃ r, d = .table r) ↔ (tp.PrimaryKey ≠ [] ∧ 1000 < c))) := by
  obtain ⟨tp, hres, hpk, hname, hwhere, _⟩ := resolvePrimaryKey_some e tables t
  have hsql : GenerateCountSQL tp = GenerateCountSQL t := by
    simp [GenerateCountSQL, hname, hwhere]
  have hcr : e.countRows w tp = ((c, none), w.sent (.Query (GenerateCountSQL t))) := by
    simp [Executor.countRows, hsql, hcount]
  have hdisp : e.dispatchTable fuel tables w t =
      if tp.PrimaryKey ≠ [] ∧ c > 1000 then
        match e.getPrimaryKeyRange (w.sent (.Query (GenerateCountSQL t))) tp with
        | ((_, some _), w₂) => some (.skip, w₂)
        | (((minPK, maxPK), none), w₂) =>
          match chunkOffsets fuel minPK maxPK 1000 with
          | none => none
          | some offsets => some (.chunks tp offsets 1000, w₂)
      else some (.table tp, w.sent (.Query (GenerateCountSQL t))) := by
    simp only [Executor.dispatchTable, hres, hcr]
  refine ⟨tp, hres, hpk, ?_, ?_, ?_⟩
  · intro hc
    have hn : ¬ (tp.PrimaryKey ≠ [] ∧ c > 1000) := by
      intro h
      omega
    rw [hdisp, if_neg hn]
  · intro hc lo hi hrange hf0 hf hlo hhi
    obtain ⟨offs, he, _, _⟩ := chunkOffsets_spec fuel lo hi hf0 hf hlo hhi
    have hy : tp.PrimaryKey ≠ [] ∧ c > 1000 := ⟨hpk, hc⟩
    refine ⟨offs, he, ?_⟩
    rw [hdisp, if_pos hy]
    simp only [Executor.getPrimaryKeyRange, hrange, he, Option.map]
  · intro d w' hd
    rw [hdisp] at hd
    by_cases hc : 1000 < c
    · have hy : tp.PrimaryKey ≠ [] ∧ c > 1000 := ⟨hpk, hc⟩
      rw [if_pos hy] at hd
      constructor
      · intro _
        exact ⟨hpk, hc⟩
      · intro _
        rintro ⟨r, hr⟩
        subst hr
        split at hd
        · simp at hd
        · split at hd
          · simp at hd
          · simp at hd
    · have hn : ¬ (tp.PrimaryKey ≠ [] ∧ c > 1000) := fun h => hc h.2
      rw [if_neg hn] at hd
      simp only [Option.some.injEq, Prod.mk.injEq] at hd
      constructor
      · intro h
        exact absurd ⟨tp, hd.1.symm⟩ h
      · intro h
        exact absurd h.2 hc

/-- Instance of C17: a table of 500 rows is handed to one `processTable` call. -/
theorem dispatchTable_mode_witness :
    ∃ tp, simulationExecutor.dispatchTable 1 [] {} customerPlan
      = some (.table tp, ({} : World).sent (.Query (GenerateCountSQL customerPlan))) :=
  let ⟨tp, _, _, h, _⟩ := dispatchTable_mode simulationExecutor 1 [] {} customerPlan 500 rfl
  ⟨tp, h (by decide)⟩

/-! ## The count statement -/

/-- A pattern whose first character does not occur in `A` occurs in `A ++ S`
only inside `S`. -/
theorem infix_of_infix_append_left (x : Char) (b : Str) :
    ∀ A S : Str, x ∉ A → (x :: b) <:+: A ++ S → (x :: b) <:+: S := by
  intro A
  induction A with
  | nil => intro S _ h; simpa using h
  | cons a A' ih =>
    intro S hx h
    have hxa : x ≠ a := fun e => hx (e ▸ List.mem_cons_self _ _)
    have hxA : x ∉ A' := fun hm => hx (List.mem_cons_of_mem _ hm)
    rw [List.cons_append, List.infix_cons_iff] at h
    rcases h with h | h
    · exact absurd (List.cons_prefix_cons.mp h).1 hxa
    · exact ih S hxA h

/-- A pattern without the character `x` occurs in `A ++ [x]` only inside `A`. -/
theorem infix_of_infix_append_singleton (x : Char) (b : Str) (hx : x ∉ b) :
    ∀ A : Str, b <:+: A ++ [x] → b <:+: A := by
  intro A
  induction A with
  | nil =>
    intro h
    rw [List.nil_append, List.infix_cons_iff] at h
    rcases h with h | h
    · exact (prefix_of_prefix_append_cons x b hx [] [] h).isInfix
    · exact h
  | cons a A' ih =>
    intro h
    rw [List.cons_append, List.infix_cons_iff] at h
    rcases h with h | h
    · exact (prefix_of_prefix_append_cons x b hx (a :: A') [] h).isInfix
    · exact List.infix_cons_iff.mpr (Or.inr (ih h))

/-- C18: `GenerateCountSQL` returns `SELECT COUNT(*) FROM <table> WHERE <where>`
when where is not empty, and `SELECT COUNT(*) FROM <table> ` (ending with one
blank, the text asserted by the test) when where is empty; the latter holds no
`WHERE` keyword unless the table name does. -/
theorem GenerateCountSQL_text (p : TablePlan) :
    (p.Where ≠ [] →
      GenerateCountSQL p
        = "SELECT COUNT(*) FROM ".toList ++ p.Name ++ " WHERE ".toList ++ p.Where) ∧
    (p.Where = [] →
      GenerateCountSQL p = "SELECT COUNT(*) FROM ".toList ++ p.Name ++ " ".toList) ∧
    (p.Where = [] → ¬ "WHERE".toList <:+: p.Name →
      ¬ "WHERE".toList <:+: GenerateCountSQL p) ∧
    GenerateCountSQL
        { Name := "customer_entity".toList, Where := "is_active = 1".toList, Columns := [] }
      = "SELECT COUNT(*) FROM customer_entity WHERE is_active = 1".toList ∧
    GenerateCountSQL { Name := "customer_entity".toList, Where := [], Columns := [] }
      = "SELECT COUNT(*) FROM customer_entity ".toList := by
  refine ⟨?_, ?_, ?_, by decide, by decide⟩
  · intro hw
    simp [GenerateCountSQL, hw, List.append_assoc]
  · intro hw
    simp [GenerateCountSQL, hw]
  · intro hw hn h
    apply hn
    have he : GenerateCountSQL p = "SELECT COUNT(*) FROM ".toList ++ (p.Name ++ [' ']) := by
      simp [GenerateCountSQL, hw]
    rw [he] at h
    have h1 : "WHERE".toList <:+: p.Name ++ [' '] :=
      infix_of_infix_append_left 'W' "HERE".toList "SELECT COUNT(*) FROM ".toList _
        (by decide) h
    exact infix_of_infix_append_singleton ' ' "WHERE".toList (by decide) p.Name h1

/-! ## Errors of the generator and of the substitution -/

/-- On a name whose lower case is not in the registry `Generate` returns the
unsupported-type error. -/
theorem Generate_unsupported (g : Generator) (n : Nat) (t : Str)
    (hs : g.ToLower t ∉ GetSupportedTypes) :
    g.Generate n t = ([], some ("unsupported faker type: ".toList ++ t)) := by
  have hne : ∀ c ∈ GetSupportedTypes, g.ToLower t ≠ c := fun c hc e => hs (e ▸ hc)
  have h0 : g.ToLower t ≠ "name".toList := hne _ (by decide)
  have h1 : g.ToLower t ≠ "firstname".toList := hne _ (by decide)
  have h2 : g.ToLower t ≠ "lastname".toList := hne _ (by decide)
  have h3 : g.ToLower t ≠ "email".toList := hne _ (by decide)
  have h4 : g.ToLower t ≠ "phone".toList := hne _ (by decide)
  have h5 : g.ToLower t ≠ "phonenumber".toList := hne _ (by decide)
  have h6 : g.ToLower t ≠ "address".toList := hne _ (by decide)
  have h7 : g.ToLower t ≠ "streetaddress".toList := hne _ (by decide)
  have h8 : g.ToLower t ≠ "city".toList := hne _ (by decide)
  have h9 : g.ToLower t ≠ "state".toList := hne _ (by decide)
  have h10 : g.ToLower t ≠ "zipcode".toList := hne _ (by decide)
  have h11 : g.ToLower t ≠ "postcode".toList := hne _ (by decide)
  have h12 : g.ToLower t ≠ "country".toList := hne _ (by decide)
  have h13 : g.ToLower t ≠ "company".toList := hne _ (by decide)
  have h14 : g.ToLower t ≠ "jobtitle".toList := hne _ (by decide)
  have h15 : g.ToLower t ≠ "creditcard".toList := hne _ (by decide)
  have h16 : g.ToLower t ≠ "uuid".toList := hne _ (by decide)
  have h17 : g.ToLower t ≠ "ipv4".toList := hne _ (by decide)
  have h18 : g.ToLower t ≠ "ipv6".toList := hne _ (by decide)
  have h19 : g.ToLower t ≠ "url".toList := hne _ (by decide)
  have h20 : g.ToLower t ≠ "username".toList := hne _ (by decide)
  have h21 : g.ToLower t ≠ "password".toList := hne _ (by decide)
  have h22 : g.ToLower t ≠ "numerify".toList := hne _ (by decide)
  have h23 : g.ToLower t ≠ "sentence".toList := hne _ (by decide)
  have h24 : g.ToLower t ≠ "paragraph".toList := hne _ (by decide)
  simp only [Generator.Generate, h0, h1, h2, h3, h4, h5, h6, h7, h8, h9, h10, h11, h12, h13, h14, h15, h16, h17, h18, h19, h20, h21, h22, h23, h24, if_false, or_self]

/-- On a name whose lower case is in the registry `Generate` returns no
error. -/
theorem Generate_supported (g : Generator) (n : Nat) (t : Str)
    (hs : g.ToLower t ∈ GetSupportedTypes) : (g.Generate n t).2 = none := by
  have hm : ∀ s : Str, s ∈ GetSupportedTypes →
      ∀ t' : Str, g.ToLower t' = s → (g.Generate n t').2 = none := by
    intro s hs
    simp only [GetSupportedTypes, List.map, List.mem_cons, List.mem_singleton,
      List.not_mem_nil, or_false] at hs
    intro t' ht'
    rcases hs with h | h | h | h | h | h | h | h | h | h | h | h | h | h | h | h | h | h | h
      | h | h | h | h | h | h <;>
    · subst h
      simp only [Generator.Generate, ht']
      rfl
  exact hm _ hs t rfl

/-- One iteration of the loop of `ReplaceFakerPlaceholders` on a text whose
first placeholder follows `X`, when the generator refuses the type of the
placeholder: the loop ends with the error of the generator and no text. -/
theorem replaceLoop_step_error (g : Generator) (sql X info W : Str) (calls fuel : Nat)
    (hX : ¬ placeholderOpen <:+: X) (hinfo : ¬ placeholderClose <:+: info) (err : Str)
    (hgen : (g.Generate calls (fakerTypeOf info)).2 = some err) :
    replaceLoop g sql (fuel + 1)
        (X ++ (placeholderOpen ++ (info ++ (placeholderClose ++ W)))) calls
      = some (([], some err), calls + 1) := by
  have h1 := Index_open_at X (info ++ (placeholderClose ++ W)) hX
  have hdrop : (X ++ (placeholderOpen ++ (info ++ (placeholderClose ++ W)))).drop X.length
      = placeholderOpen ++ (info ++ (placeholderClose ++ W)) := List.drop_left _ _
  have h2 : Index (placeholderOpen ++ (info ++ (placeholderClose ++ W))) placeholderClose
      = some (8 + info.length) := by
    have := Index_close_at (placeholderOpen ++ info) W (not_close_infix_open_append info hinfo)
    rw [List.append_assoc] at this
    rw [this]
    simp [placeholderOpen]
    omega
  have h4 : slice (X ++ (placeholderOpen ++ (info ++ (placeholderClose ++ W)))) (X.length + 8)
      (8 + info.length + X.length) = info := by
    have hre : X ++ (placeholderOpen ++ (info ++ (placeholderClose ++ W)))
        = (X ++ placeholderOpen) ++ (info ++ (placeholderClose ++ W)) := by
      simp [List.append_assoc]
    rw [hre]
    apply slice_mid
    · simp [placeholderOpen]
    · simp [placeholderOpen]
      omega
  have h5 : g.Generate calls (fakerTypeOf info)
      = ((g.Generate calls (fakerTypeOf info)).1, some err) := by
    rw [← hgen]
  rw [replaceLoop]
  simp only [h1, hdrop, h2, h4]
  rw [h5]

/-- One iteration of the loop of `ReplaceFakerPlaceholders` on a text whose
first opening follows `X` and has no closing delimiter after it: the loop ends
with the format error, which quotes the original text, and returns no text. -/
theorem replaceLoop_unterminated (g : Generator) (sql X rest : Str) (calls fuel : Nat)
    (hX : ¬ placeholderOpen <:+: X) (hrest : ¬ placeholderClose <:+: rest) :
    replaceLoop g sql (fuel + 1) (X ++ (placeholderOpen ++ rest)) calls
      = some (([], some ("invalid faker placeholder format in SQL: ".toList ++ sql)), calls) := by
  have h1 := Index_open_at X rest hX
  have hdrop : (X ++ (placeholderOpen ++ rest)).drop X.length = placeholderOpen ++ rest :=
    List.drop_left _ _
  have h2 : Index (placeholderOpen ++ rest) placeholderClose = none :=
    (Index_eq_none_iff _ _).mpr (not_close_infix_open_append rest hrest)
  rw [replaceLoop]
  simp only [h1, hdrop, h2]

/-- The literals of the generated values and the pieces between them bring in
no placeholder opening. -/
theorem not_open_infix_valueText (g : Generator) :
    ∀ (toks : List (Str × Str)) (X : Str) (calls : Nat),
      ¬ placeholderOpen <:+: X →
      (∀ x ∈ toks, ¬ placeholderOpen <:+: x.2 ∧ ¬ placeholderTag <+: x.2) →
      (∀ x ∈ toks, ∀ n, ¬ placeholderOpen <:+: (g.Generate n (fakerTypeOf x.1)).1 ∧
        ¬ placeholderTag <+: (g.Generate n (fakerTypeOf x.1)).1) →
      ¬ placeholderOpen <:+: X ++ valueText g calls toks := by
  intro toks
  induction toks with
  | nil => intro X calls hX _ _; simpa [valueText] using hX
  | cons tok rest ih =>
    intro X calls hX hpiece hval
    obtain ⟨info, piece⟩ := tok
    have hp := hpiece (info, piece) (List.mem_cons_self _ _)
    have hv := hval (info, piece) (List.mem_cons_self _ _) calls
    have hlit : ¬ placeholderOpen <:+: quoteLiteral (g.Generate calls (fakerTypeOf info)).1
        ++ piece :=
      not_open_infix_literal _ piece hv.1 hv.2 hp.1 hp.2
    have hX' : ¬ placeholderOpen <:+:
        X ++ (quoteLiteral (g.Generate calls (fakerTypeOf info)).1 ++ piece) := by
      have hq : quoteLiteral (g.Generate calls (fakerTypeOf info)).1 ++ piece
          = quoteChar :: (escapeQuotes (g.Generate calls (fakerTypeOf info)).1
            ++ [quoteChar] ++ piece) := by
        rw [quoteLiteral_eq]
        simp [List.append_assoc]
      rw [hq] at hlit ⊢
      exact not_infix_append_cons quoteChar placeholderTag quoteChar_not_mem_placeholderTag
        X _ hX hlit
    have hrec := ih (X ++ (quoteLiteral (g.Generate calls (fakerTypeOf info)).1 ++ piece))
      (calls + 1) hX'
      (fun x hx => hpiece x (List.mem_cons_of_mem _ hx))
      (fun x hx => hval x (List.mem_cons_of_mem _ hx))
    simpa [valueText, List.append_assoc] using hrec

/-- The loop of `ReplaceFakerPlaceholders` on a text that starts with `X`, in
which no opening occurs, and a run of tokens: after one iteration per token the
tokens are replaced by the literals of their values and the loop goes on with
what follows. -/
theorem replaceLoop_tokens_then (g : Generator) (sql tail : Str) :
    ∀ (toks : List (Str × Str)) (X : Str) (calls fuel : Nat),
      ¬ placeholderOpen <:+: X →
      (∀ x ∈ toks, ¬ placeholderClose <:+: x.1) →
      (∀ x ∈ toks, ¬ placeholderOpen <:+: x.2 ∧ ¬ placeholderTag <+: x.2) →
      (∀ x ∈ toks, ∀ n, (g.Generate n (fakerTypeOf x.1)).2 = none) →
      (∀ x ∈ toks, ∀ n, ¬ placeholderOpen <:+: (g.Generate n (fakerTypeOf x.1)).1 ∧
        ¬ placeholderTag <+: (g.Generate n (fakerTypeOf x.1)).1) →
      replaceLoop g sql (fuel + toks.length) (X ++ (tokenText toks ++ tail)) calls
        = replaceLoop g sql fuel (X ++ (valueText g calls toks ++ tail))
            (calls + toks.length) := by
  intro toks
  induction toks with
  | nil => intro X calls fuel _ _ _ _ _; simp [tokenText, valueText]
  | cons tok rest ih =>
    intro X calls fuel hX hinfo hpiece hsupp hval
    obtain ⟨info, piece⟩ := tok
    have hi := hinfo (info, piece) (List.mem_cons_self _ _)
    have hs := hsupp (info, piece) (List.mem_cons_self _ _) calls
    have hX' : ¬ placeholderOpen <:+:
        X ++ (quoteLiteral (g.Generate calls (fakerTypeOf info)).1 ++ piece) := by
      have := not_open_infix_valueText g [(info, piece)] X calls hX
        (fun x hx => hpiece x (by simp at hx; simp [hx]))
        (fun x hx => hval x (by simp at hx; simp [hx]))
      simpa [valueText] using this
    have hre : X ++ (tokenText ((info, piece) :: rest) ++ tail)
        = X ++ (placeholderOpen ++ (info ++ (placeholderClose
            ++ (piece ++ (tokenText rest ++ tail))))) := by
      simp [tokenText, List.append_assoc]
    have hfuel : fuel + ((info, piece) :: rest).length = (fuel + rest.length) + 1 := by
      simp
      omega
    rw [hre, hfuel, replaceLoop_step g sql X info _ calls _ hX hi hs]
    have hrec := ih (X ++ (quoteLiteral (g.Generate calls (fakerTypeOf info)).1 ++ piece))
      (calls + 1) fuel hX'
      (fun x hx => hinfo x (List.mem_cons_of_mem _ hx))
      (fun x hx => hpiece x (List.mem_cons_of_mem _ hx))
      (fun x hx => hsupp x (List.mem_cons_of_mem _ hx))
      (fun x hx => hval x (List.mem_cons_of_mem _ hx))
    have hre2 : X ++ (quoteLiteral (g.Generate calls (fakerTypeOf info)).1
          ++ (piece ++ (tokenText rest ++ tail)))
        = X ++ (quoteLiteral (g.Generate calls (fakerTypeOf info)).1 ++ piece)
          ++ (tokenText rest ++ tail) := by
      simp [List.append_assoc]
    rw [hre2, hrec]
    have hre3 : X ++ (quoteLiteral (g.Generate calls (fakerTypeOf info)).1 ++ piece)
          ++ (valueText g (calls + 1) rest ++ tail)
        = X ++ (valueText g calls ((info, piece) :: rest) ++ tail) := by
      simp [valueText, List.append_assoc]
    have hcalls : calls + 1 + rest.length = calls + ((info, piece) :: rest).length := by
      simp
      omega
    rw [hre3, hcalls]

/-- The type segment of a placeholder: the text before the first colon. -/
theorem fakerTypeOf_segment (t : Str) (ht : ':' ∉ t) (r : Str) :
    fakerTypeOf (t ++ ':' :: r) = t := by
  unfold fakerTypeOf
  induction t with
  | nil => simp [Split]
  | cons c t' ih =>
    have hc : c ≠ ':' := fun e => ht (e ▸ List.mem_cons_self _ _)
    have ht' : ':' ∉ t' := fun hm => ht (List.mem_cons_of_mem _ hm)
    have h := ih ht'
    simp only [List.cons_append, Split, hc, if_false]
    cases hs : Split ':' (t' ++ ':' :: r) with
    | nil =>
      rw [hs] at h
      simp only [List.headD_nil] at h
      simp [← h]
    | cons p ps =>
      rw [hs] at h
      simp only [List.headD_cons] at h
      simp [h]

/-- An opening with no closing delimiter after `k` well-formed tokens: the
routine returns the format error, which quotes the original text, and the empty
text, nothing of what it has substituted so far, after the `k` invocations that
the tokens cost.  A text without any opening, such as `t₀`, is returned as it
is, without error and without invocation. -/
theorem ReplaceFakerPlaceholders_tokens_unterminated (g : Generator) (calls fuel : Nat) (t₀ : Str)
    (toks : List (Str × Str)) (rest : Str) (hfuel : toks.length < fuel)
    (ht₀ : ¬ placeholderOpen <:+: t₀)
    (hinfo : ∀ x ∈ toks, ¬ placeholderClose <:+: x.1)
    (hpiece : ∀ x ∈ toks, ¬ placeholderOpen <:+: x.2 ∧ ¬ placeholderTag <+: x.2)
    (hsupp : ∀ x ∈ toks, ∀ n, (g.Generate n (fakerTypeOf x.1)).2 = none)
    (hval : ∀ x ∈ toks, ∀ n, ¬ placeholderOpen <:+: (g.Generate n (fakerTypeOf x.1)).1 ∧
      ¬ placeholderTag <+: (g.Generate n (fakerTypeOf x.1)).1)
    (hrest : ¬ placeholderClose <:+: rest) :
    ReplaceFakerPlaceholders g fuel calls (t₀ ++ (tokenText toks ++ (placeholderOpen ++ rest)))
      = some (([], some ("invalid faker placeholder format in SQL: ".toList
          ++ (t₀ ++ (tokenText toks ++ (placeholderOpen ++ rest))))), calls + toks.length) ∧
    ReplaceFakerPlaceholders g fuel calls t₀ = some ((t₀, none), calls) := by
  obtain ⟨f, hf⟩ : ∃ f, fuel = (f + 1) + toks.length := ⟨fuel - toks.length - 1, by omega⟩
  constructor
  · unfold ReplaceFakerPlaceholders
    rw [hf, replaceLoop_tokens_then g _ _ toks t₀ calls (f + 1) ht₀ hinfo hpiece hsupp hval]
    have hX := not_open_infix_valueText g toks t₀ calls ht₀ hpiece hval
    have hre : t₀ ++ (valueText g calls toks ++ (placeholderOpen ++ rest))
        = (t₀ ++ valueText g calls toks) ++ (placeholderOpen ++ rest) := by
      simp [List.append_assoc]
    rw [hre]
    exact replaceLoop_unterminated g _ _ rest _ f hX hrest
  · have h0 : Index t₀ placeholderOpen = none := (Index_eq_none_iff _ t₀).mpr ht₀
    have hf' : fuel = (f + toks.length) + 1 := by omega
    unfold ReplaceFakerPlaceholders
    rw [hf', replaceLoop]
    simp only [h0]

/-- C20: `Generate` returns no error exactly when the lower-cased type name is
one of the names of `GetSupportedTypes`, and it returns the unsupported-type
error, which quotes the name, otherwise; `ReplaceFakerPlaceholders` returns
that very error, and no text, for a placeholder whose type segment (the text
between the opening and the first colon) is not in the registry, whatever
well-formed tokens precede it. -/
theorem Generate_registry (g : Generator) (n : Nat) (t : Str) :
    ((g.Generate n t).2 = none ↔ g.ToLower t ∈ GetSupportedTypes) ∧
    (g.ToLower t ∉ GetSupportedTypes →
      g.Generate n t = ([], some ("unsupported faker type: ".toList ++ t))) ∧
    (g.ToLower t ∉ GetSupportedTypes → ':' ∉ t →
      ∀ (fuel calls : Nat) (t₀ r W : Str) (toks : List (Str × Str)),
        toks.length < fuel →
        ¬ placeholderOpen <:+: t₀ →
        (∀ x ∈ toks, ¬ placeholderClose <:+: x.1) →
        (∀ x ∈ toks, ¬ placeholderOpen <:+: x.2 ∧ ¬ placeholderTag <+: x.2) →
        (∀ x ∈ toks, ∀ m, (g.Generate m (fakerTypeOf x.1)).2 = none) →
        (∀ x ∈ toks, ∀ m, ¬ placeholderOpen <:+: (g.Generate m (fakerTypeOf x.1)).1 ∧
          ¬ placeholderTag <+: (g.Generate m (fakerTypeOf x.1)).1) →
        ¬ placeholderClose <:+: t ++ ':' :: r →
        ReplaceFakerPlaceholders g fuel calls
            (t₀ ++ (tokenText toks
              ++ (placeholderOpen ++ ((t ++ ':' :: r) ++ (placeholderClose ++ W)))))
          = some (([], some ("unsupported faker type: ".toList ++ t)),
              calls + toks.length + 1)) := by
  refine ⟨⟨?_, Generate_supported g n t⟩, Generate_unsupported g n t, ?_⟩
  · intro h
    by_contra hs
    rw [Generate_unsupported g n t hs] at h
    simp at h
  · intro hs ht fuel calls t₀ r W toks hfuel ht₀ hinfo hpiece hsupp hval hclose
    obtain ⟨f, hf⟩ : ∃ f, fuel = (f + 1) + toks.length := ⟨fuel - toks.length - 1, by omega⟩
    unfold ReplaceFakerPlaceholders
    rw [hf, replaceLoop_tokens_then g _ _ toks t₀ calls (f + 1) ht₀ hinfo hpiece hsupp hval]
    have hX := not_open_infix_valueText g toks t₀ calls ht₀ hpiece hval
    have hre : t₀ ++ (valueText g calls toks
          ++ (placeholderOpen ++ ((t ++ ':' :: r) ++ (placeholderClose ++ W))))
        = (t₀ ++ valueText g calls toks)
          ++ (placeholderOpen ++ ((t ++ ':' :: r) ++ (placeholderClose ++ W))) := by
      simp [List.append_assoc]
    have hgen : (g.Generate (calls + toks.length) (fakerTypeOf (t ++ ':' :: r))).2
        = some ("unsupported faker type: ".toList ++ t) := by
      rw [fakerTypeOf_segment t ht r, Generate_unsupported g _ t hs]
    rw [hre]
    exact replaceLoop_step_error g _ _ _ W _ f hX hclose _ hgen

/-- Instance of C20: the type `bogus` is refused and the substitution returns
the error of the generator. -/
theorem Generate_registry_witness :
    ReplaceFakerPlaceholders sampleGenerator 1 0
        "UPDATE t SET c = \x27[FAKER:bogus:t:c]\x27".toList
      = some (([], some "unsupported faker type: bogus".toList), 1) :=
  (Generate_registry sampleGenerator 0 "bogus".toList).2.2 (by decide) (by decide)
    1 0 "UPDATE t SET c = ".toList "t:c".toList [] []
    (by decide) (by decide) (by simp) (by simp) (by simp) (by simp) (by decide)

/-! ## Results of the processing routines -/

/-- The loop of `processChunk` over the keys: what it sends and what it sums.
It sends `ExecContext` calls only, none in simulation mode; when it ends without
error it has counted one row per key in simulation mode, and otherwise it has
sent one call per key and summed the affected rows of these calls. -/
theorem processRows_spec (e : Executor) (fuel : Nat) (tablePlan : TablePlan) :
    ∀ (keys : List Int) (w : World) (total : Int) (r : Int × Option Str) (w' : World),
      e.processRows fuel tablePlan keys w total = some (r, w') →
      ∃ new, w'.log = w.log ++ new ∧ (∀ c ∈ new, ∃ sql, c = .Exec sql) ∧
        (e.dryRun = true → new = []) ∧
        (r.2 = none →
          (e.dryRun = true → r.1 = total + keys.length) ∧
          (e.dryRun = false →
            new.length = keys.length ∧ r.1 = total + affectedSum e.db w.log new)) := by
  intro keys
  induction keys with
  | nil =>
    intro w total r w' h
    simp only [Executor.processRows, Option.some.injEq, Prod.mk.injEq] at h
    obtain ⟨hr, hw⟩ := h
    subst hr hw
    exact ⟨[], by simp, by simp, fun _ => rfl, fun _ => ⟨fun _ => by simp, fun _ => by
      simp [affectedSum]⟩⟩
  | cons k rest ih =>
    intro w total r w' h
    rw [Executor.processRows] at h
    rcases hg : GenerateSingleRowSQL tablePlan tablePlan.PrimaryKey k with ⟨s₀, _ | gerr⟩
    · rw [hg] at h
      simp only at h
      rcases hs : ReplaceFakerPlaceholders e.faker fuel w.genCalls s₀ with _ | ⟨⟨sql, _ | serr⟩, n⟩
      · rw [hs] at h
        simp at h
      · rw [hs] at h
        simp only at h
        by_cases hd : e.dryRun = true
        · simp only [hd, Bool.not_true, Bool.false_eq_true, if_false] at h
          obtain ⟨new, hlog, hex, hdry, hres⟩ := ih _ _ _ _ h
          refine ⟨new, hlog, hex, hdry, ?_⟩
          intro hr
          obtain ⟨h1, h2⟩ := hres hr
          refine ⟨fun hd' => ?_, fun hd' => ?_⟩
          · rw [h1 hd']
            simp
            omega
          · rw [hd] at hd'
            exact absurd hd' (by decide)
        · have hd' : e.dryRun = false := by simpa using hd
          simp only [hd', Bool.not_false, if_true] at h
          rcases hx : e.db.ExecContext w.log sql with ⟨ra, _ | xerr⟩
          · rw [hx] at h
            simp only at h
            obtain ⟨new, hlog, hex, hdry, hres⟩ := ih _ _ _ _ h
            refine ⟨.Exec sql :: new, ?_, ?_, ?_, ?_⟩
            · rw [hlog]
              simp [World.sent]
            · intro c hc
              rcases List.mem_cons.mp hc with h1 | h1
              · exact ⟨sql, h1⟩
              · exact hex c h1
            · intro hdt
              rw [hd'] at hdt
              exact absurd hdt (by decide)
            · intro hr
              obtain ⟨_, h2⟩ := hres hr
              refine ⟨fun hdt => ?_, fun _ => ?_⟩
              · rw [hd'] at hdt
                exact absurd hdt (by decide)
              · obtain ⟨hl, hsum⟩ := h2 hd'
                refine ⟨by simp [hl], ?_⟩
                rw [hsum]
                simp only [affectedSum, World.sent, hx]
                omega
          · rw [hx] at h
            simp only [Option.some.injEq, Prod.mk.injEq] at h
            obtain ⟨hr, hw⟩ := h
            subst hr hw
            refine ⟨[.Exec sql], by simp [World.sent], ?_, ?_, ?_⟩
            · intro c hc
              exact ⟨sql, by simpa using hc⟩
            · intro hdt
              rw [hd'] at hdt
              exact absurd hdt (by decide)
            · intro hr
              simp at hr
      · rw [hs] at h
        simp only [Option.some.injEq, Prod.mk.injEq] at h
        obtain ⟨hr, hw⟩ := h
        subst hr hw
        exact ⟨[], by simp, by simp, fun _ => rfl, fun hr => by simp at hr⟩
    · rw [hg] at h
      simp only [Option.some.injEq, Prod.mk.injEq] at h
      obtain ⟨hr, hw⟩ := h
      subst hr hw
      exact ⟨[], by simp, by simp, fun _ => rfl, fun hr => by simp at hr⟩

/-- The key query of `getPrimaryKeysInRange` is one `SELECT` statement. -/
theorem getPrimaryKeysInRange_world (e : Executor) (w : World) (tablePlan : TablePlan)
    (offset chunkSize : Int) :
    ∃ sql, "SELECT ".toList <+: sql ∧
      (e.getPrimaryKeysInRange w tablePlan offset chunkSize).2 = w.sent (.Query sql) := by
  have key : ∀ sql : Str,
      (match e.db.QueryInts w.log sql with
        | (_, some err) => ((([] : List Int), some err), w.sent (.Query sql))
        | (primaryKeys, none) => ((primaryKeys, none), w.sent (.Query sql))).2
        = w.sent (.Query sql) := by
    intro sql
    split <;> rfl
  unfold Executor.getPrimaryKeysInRange
  by_cases hw : tablePlan.Where = []
  · simp only [hw, ne_eq, not_true_eq_false, if_false]
    refine ⟨_, ?_, key _⟩
    simp only [List.append_assoc]
    exact List.prefix_append _ _
  · simp only [hw, ne_eq, not_false_eq_true, if_true]
    refine ⟨_, ?_, key _⟩
    simp only [List.append_assoc]
    exact List.prefix_append _ _

/-- The count query is a `SELECT` statement. -/
theorem GenerateCountSQL_select (tablePlan : TablePlan) :
    "SELECT ".toList <+: GenerateCountSQL tablePlan :=
  ⟨"COUNT(*) FROM ".toList ++ tablePlan.Name ++ " ".toList
    ++ (if tablePlan.Where ≠ [] then "WHERE ".toList ++ tablePlan.Where else []), by
    simp [GenerateCountSQL, List.append_assoc]⟩

/-- C14: in simulation mode neither `processTable` nor `processChunk` calls
`ExecContext`, whatever the table plan and the answers of the database:
whenever they return, the statements they have sent are queries that start with
`SELECT`; and when they return results, the affected rows reported are the
counted stand-in: the answer of the count query in whole-table mode, the number
of keys of the window in chunked mode. -/
theorem dryRun_sends_only_select (e : Executor) (fuel : Nat) (w : World) (tablePlan : TablePlan)
    (offset chunkSize : Int) (hdry : e.dryRun = true) :
    (∀ r w', e.processTable fuel w tablePlan = some (r, w') →
      (∃ new, w'.log = w.log ++ new ∧
        ∀ c ∈ new, ∃ sql, c = .Query sql ∧ "SELECT ".toList <+: sql) ∧
      (r.2 = none → ∃ c, e.db.QueryRowInt w.log (GenerateCountSQL tablePlan) = (c, none) ∧
        r.1 = columnResults tablePlan c c)) ∧
    (∀ r w', e.processChunk fuel w tablePlan offset chunkSize = some (r, w') →
      (∃ new, w'.log = w.log ++ new ∧
        ∀ c ∈ new, ∃ sql, c = .Query sql ∧ "SELECT ".toList <+: sql) ∧
      (r.2 = none → ∃ keys,
        (e.getPrimaryKeysInRange w tablePlan offset chunkSize).1 = (keys, none) ∧
        r.1 = columnResults tablePlan keys.length keys.length)) := by
  constructor
  · intro r w' h
    unfold Executor.processTable at h
    rcases hg : GenerateTableSQL tablePlan with ⟨s₀, _ | gerr⟩
    · rw [hg] at h
      simp only at h
      rcases hs : ReplaceFakerPlaceholders e.faker fuel w.genCalls s₀
        with _ | ⟨⟨sql, _ | serr⟩, n⟩
      · rw [hs] at h
        simp at h
      · rw [hs] at h
        simp only [Executor.countRows] at h
        rcases hc : e.db.QueryRowInt w.log (GenerateCountSQL tablePlan) with ⟨c, _ | cerr⟩
        · rw [hc] at h
          simp only [hdry, Bool.not_true, Bool.false_eq_true, if_false, Option.some.injEq,
            Prod.mk.injEq] at h
          obtain ⟨hr, hw⟩ := h
          subst hr hw
          refine ⟨⟨[.Query (GenerateCountSQL tablePlan)], by simp [World.sent], ?_⟩, ?_⟩
          · intro x hx
            exact ⟨_, by simpa using hx, GenerateCountSQL_select tablePlan⟩
          · intro _
            exact ⟨c, rfl, rfl⟩
        · rw [hc] at h
          simp only [Option.some.injEq, Prod.mk.injEq] at h
          obtain ⟨hr, hw⟩ := h
          subst hr hw
          refine ⟨⟨[.Query (GenerateCountSQL tablePlan)], by simp [World.sent], ?_⟩, ?_⟩
          · intro x hx
            exact ⟨_, by simpa using hx, GenerateCountSQL_select tablePlan⟩
          · intro hr
            simp at hr
      · rw [hs] at h
        simp only [Option.some.injEq, Prod.mk.injEq] at h
        obtain ⟨hr, hw⟩ := h
        subst hr hw
        exact ⟨⟨[], by simp, by simp⟩, fun hr => by simp at hr⟩
    · rw [hg] at h
      simp only [Option.some.injEq, Prod.mk.injEq] at h
      obtain ⟨hr, hw⟩ := h
      subst hr hw
      exact ⟨⟨[], by simp, by simp⟩, fun hr => by simp at hr⟩
  · intro r w' h
    unfold Executor.processChunk at h
    obtain ⟨ksql, hsel, hworld⟩ := getPrimaryKeysInRange_world e w tablePlan offset chunkSize
    rcases hk : e.getPrimaryKeysInRange w tablePlan offset chunkSize with ⟨⟨keys, _ | kerr⟩, w₁⟩
    · rw [hk] at h hworld
      simp only at h hworld
      rcases hp : e.processRows fuel tablePlan keys w₁ 0 with _ | ⟨⟨total, _ | perr⟩, w₂⟩
      · rw [hp] at h
        simp at h
      · rw [hp] at h
        simp only [Option.some.injEq, Prod.mk.injEq] at h
        obtain ⟨hr, hw⟩ := h
        subst hr hw
        obtain ⟨new, hlog, _, hnew, hres⟩ := processRows_spec e fuel tablePlan keys w₁ 0 _ _ hp
        have hn := hnew hdry
        subst hn
        have ht : total = keys.length := by
          have := (hres rfl).1 hdry
          simpa using this
        refine ⟨⟨[.Query ksql], ?_, ?_⟩, ?_⟩
        · rw [hlog, hworld]
          simp [World.sent]
        · intro x hx
          exact ⟨_, by simpa using hx, hsel⟩
        · intro _
          exact ⟨keys, rfl, by rw [ht]⟩
      · rw [hp] at h
        simp only [Option.some.injEq, Prod.mk.injEq] at h
        obtain ⟨hr, hw⟩ := h
        subst hr hw
        obtain ⟨new, hlog, _, hnew, _⟩ := processRows_spec e fuel tablePlan keys w₁ 0 _ _ hp
        have hn := hnew hdry
        subst hn
        refine ⟨⟨[.Query ksql], ?_, ?_⟩, fun hr => by simp at hr⟩
        · rw [hlog, hworld]
          simp [World.sent]
        · intro x hx
          exact ⟨_, by simpa using hx, hsel⟩
    · rw [hk] at h hworld
      simp only [Option.some.injEq, Prod.mk.injEq] at h hworld
      obtain ⟨hr, hw⟩ := h
      subst hr hw
      refine ⟨⟨[.Query ksql], ?_, ?_⟩, fun hr => by simp at hr⟩
      · rw [hworld]
        simp [World.sent]
      · intro x hx
        exact ⟨_, by simpa using hx, hsel⟩

/-- Instance of C14: the simulation of the plan of `TestGenerateTableSQL` sends
the count query only. -/
theorem dryRun_sends_only_select_witness :
    ∃ new, [DBCall.Query (GenerateCountSQL customerPlan)] = ([] : List DBCall) ++ new ∧
      ∀ c ∈ new, ∃ sql, c = .Query sql ∧ "SELECT ".toList <+: sql :=
  ((dryRun_sends_only_select simulationExecutor 2 {} customerPlan 5000 1000 rfl).1
    (columnResults customerPlan 500 500, none)
    { log := [.Query (GenerateCountSQL customerPlan)], genCalls := 1 } (by decide)).1

/-- The strategy tag is one of the four tags. -/
theorem GetType_mem (s : AnonymizationStrategy) :
    s.GetType ∈ ["fixed".toList, "null".toList, "expr".toList, "faker".toList] := by
  cases s <;> simp [AnonymizationStrategy.GetType]

/-- The results built for the columns: one per column, in column order, all
with the given row counts and no error. -/
theorem columnResults_spec (tablePlan : TablePlan) (scanned affected : Int) :
    (columnResults tablePlan scanned affected).length = tablePlan.Columns.length ∧
    (columnResults tablePlan scanned affected).map (·.FieldName)
      = tablePlan.Columns.map (·.Name) ∧
    (columnResults tablePlan scanned affected).map (·.Strategy)
      = tablePlan.Columns.map (·.Strategy.GetType) ∧
    ∀ r ∈ columnResults tablePlan scanned affected,
      r.TableName = tablePlan.Name ∧ r.RowsScanned = scanned ∧ r.RowsAffected = affected ∧
      r.Error = none ∧
      r.Strategy ∈ ["fixed".toList, "null".toList, "expr".toList, "faker".toList] := by
  refine ⟨by simp [columnResults], by simp [columnResults], by simp [columnResults], ?_⟩
  intro r hr
  obtain ⟨c, _, hc⟩ := List.mem_map.mp hr
  subst hc
  exact ⟨rfl, rfl, rfl, rfl, GetType_mem _⟩

/-- C15: for a table plan with at least one column whose statement is substituted
without error, `processTable` in simulation mode, the count query answering `c`,
returns without error one result per column, in column order, each with the
table name, the column name, the strategy tag of the column (one of `fixed`,
`null`, `expr`, `faker`) and `c` as rows scanned and as rows affected; for the
plan of `TestGenerateTableSQL` and `c = 500` these are the three results of
`email`, `firstname` and `lastname`, each with 500 and 500. -/
theorem processTable_dryRun_results (e : Executor) (fuel : Nat) (w : World)
    (tablePlan : TablePlan) (sql : Str) (n : Nat) (c : Int) (hdry : e.dryRun = true)
    (hcols : tablePlan.Columns ≠ [])
    (hsub : ReplaceFakerPlaceholders e.faker fuel w.genCalls (GenerateTableSQL tablePlan).1
      = some ((sql, none), n))
    (hcount : e.db.QueryRowInt w.log (GenerateCountSQL tablePlan) = (c, none)) :
    ∃ rs w', e.processTable fuel w tablePlan = some ((rs, none), w') ∧
      rs.length = tablePlan.Columns.length ∧
      rs.map (·.FieldName) = tablePlan.Columns.map (·.Name) ∧
      rs.map (·.Strategy) = tablePlan.Columns.map (·.Strategy.GetType) ∧
      (∀ r ∈ rs, r.TableName = tablePlan.Name ∧ r.RowsScanned = c ∧ r.RowsAffected = c ∧
        r.Error = none ∧
        r.Strategy ∈ ["fixed".toList, "null".toList, "expr".toList, "faker".toList]) ∧
      (simulationExecutor.processTable 2 {} customerPlan).map (·.1.1.map fun r =>
          (r.FieldName, r.Strategy, r.RowsScanned, r.RowsAffected))
        = some [("email".toList, "faker".toList, 500, 500),
            ("firstname".toList, "fixed".toList, 500, 500),
            ("lastname".toList, "null".toList, 500, 500)] := by
  have hlen : ¬ tablePlan.Columns.length = 0 := fun h0 => hcols (List.length_eq_zero.mp h0)
  have hg : GenerateTableSQL tablePlan = ((GenerateTableSQL tablePlan).1, none) := by
    simp [GenerateTableSQL, hlen]
  obtain ⟨h1, h2, h3, h4⟩ := columnResults_spec tablePlan c c
  refine ⟨columnResults tablePlan c c,
    ({ w with genCalls := n } : World).sent (.Query (GenerateCountSQL tablePlan)),
    ?_, h1, h2, h3, h4, by decide⟩
  unfold Executor.processTable
  rw [hg]
  simp only [hsub, Executor.countRows, hcount, hdry, Bool.not_true, Bool.false_eq_true,
    if_false]

/-- Instance of C15 on the plan of `TestGenerateTableSQL` with 500 counted rows. -/
theorem processTable_dryRun_results_witness :
    ∃ rs w', simulationExecutor.processTable 2 {} customerPlan = some ((rs, none), w') ∧
      rs.length = 3 ∧ ∀ r ∈ rs, r.RowsScanned = 500 ∧ r.RowsAffected = 500 :=
  let ⟨rs, w', h, hl, _, _, hr, _⟩ :=
    processTable_dryRun_results simulationExecutor 2 {} customerPlan
      ("UPDATE customer_entity SET email = \x27ann@example.org\x27, firstname = \x27John\x27, "
        ++ "lastname = NULL WHERE entity_id > 1000  ").toList 1 500 rfl (by decide) (by decide)
      rfl
  ⟨rs, w', h, hl, fun r hm => ⟨(hr r hm).2.1, (hr r hm).2.2.1⟩⟩

/-- When the loop of `processChunk` over the keys ends without error, the
statement of every key has been generated and substituted without error, and
every `ExecContext` call it has sent has been answered without error. -/
theorem processRows_rows_ok (e : Executor) (fuel : Nat) (tablePlan : TablePlan) :
    ∀ (keys : List Int) (w : World) (total total' : Int) (w' : World),
      e.processRows fuel tablePlan keys w total = some ((total', none), w') →
      (∀ k ∈ keys, (GenerateSingleRowSQL tablePlan tablePlan.PrimaryKey k).2 = none ∧
        ∃ m sql n, ReplaceFakerPlaceholders e.faker fuel m
          (GenerateSingleRowSQL tablePlan tablePlan.PrimaryKey k).1 = some ((sql, none), n)) ∧
      (∀ new, w'.log = w.log ++ new → execsSucceed e.db w.log new = true) := by
  intro keys
  induction keys with
  | nil =>
    intro w total total' w' h
    simp only [Executor.processRows, Option.some.injEq, Prod.mk.injEq] at h
    obtain ⟨_, hw⟩ := h
    subst hw
    refine ⟨by simp, ?_⟩
    intro new hnew
    have : new = [] := by simpa using hnew
    subst this
    rfl
  | cons k rest ih =>
    intro w total total' w' h
    rw [Executor.processRows] at h
    rcases hg : GenerateSingleRowSQL tablePlan tablePlan.PrimaryKey k with ⟨s₀, _ | gerr⟩
    · rw [hg] at h
      simp only at h
      rcases hs : ReplaceFakerPlaceholders e.faker fuel w.genCalls s₀ with _ | ⟨⟨sql, _ | serr⟩, n⟩
      · rw [hs] at h
        simp at h
      · rw [hs] at h
        simp only at h
        have hk : (GenerateSingleRowSQL tablePlan tablePlan.PrimaryKey k).2 = none ∧
            ∃ m sql n, ReplaceFakerPlaceholders e.faker fuel m
              (GenerateSingleRowSQL tablePlan tablePlan.PrimaryKey k).1
                = some ((sql, none), n) := by
          rw [hg]
          exact ⟨rfl, w.genCalls, sql, n, hs⟩
        by_cases hd : e.dryRun = true
        · simp only [hd, Bool.not_true, Bool.false_eq_true, if_false] at h
          obtain ⟨hall, hex⟩ := ih _ _ _ _ h
          refine ⟨?_, ?_⟩
          · intro k' hk'
            rcases List.mem_cons.mp hk' with h1 | h1
            · rw [h1]
              exact hk
            · exact hall k' h1
          · intro new hnew
            exact hex new hnew
        · have hd' : e.dryRun = false := by simpa using hd
          simp only [hd', Bool.not_false, if_true] at h
          rcases hx : e.db.ExecContext w.log sql with ⟨ra, _ | xerr⟩
          · rw [hx] at h
            simp only at h
            obtain ⟨hall, hex⟩ := ih _ _ _ _ h
            refine ⟨?_, ?_⟩
            · intro k' hk'
              rcases List.mem_cons.mp hk' with h1 | h1
              · rw [h1]
                exact hk
              · exact hall k' h1
            · intro new hnew
              obtain ⟨new', hlog, _⟩ := processRows_spec e fuel tablePlan rest _ _ _ _ h
              have hn : new = .Exec sql :: new' := by
                have h2 : w.log ++ new = w.log ++ (.Exec sql :: new') := by
                  rw [← hnew, hlog]
                  simp [World.sent]
                exact List.append_cancel_left h2
              subst hn
              have h3 := hex new' (by rw [hlog])
              simp only [World.sent] at h3
              simp [execsSucceed, hx, h3]
          · rw [hx] at h
            simp at h
      · rw [hs] at h
        simp at h
    · rw [hg] at h
      simp at h

/-- C16: when `processChunk` returns with an error it returns no result; when
it returns without error, the results are those of the columns, one per column,
all with the number of keys fetched for the window as rows scanned and with the
same total as rows affected; in simulation mode the total is the number of keys
and nothing has been executed; otherwise one statement per key has been
executed, every one without error, and the total is the sum of the affected rows
that the database answered to them.  In either case the statement of every key
was generated and substituted without error: the failure for a single row of
the generation, of the substitution or of the execution leaves the window
without results. -/
theorem processChunk_results (e : Executor) (fuel : Nat) (w : World) (tablePlan : TablePlan)
    (offset chunkSize : Int) (rs : List ExecutionResult) (err : Option Str) (w' : World)
    (h : e.processChunk fuel w tablePlan offset chunkSize = some ((rs, err), w')) :
    (err ≠ none → rs = []) ∧
    (err = none → ∃ keys total new,
      (e.getPrimaryKeysInRange w tablePlan offset chunkSize).1 = (keys, none) ∧
      rs = columnResults tablePlan keys.length total ∧
      rs.length = tablePlan.Columns.length ∧
      (∀ r ∈ rs, r.RowsScanned = keys.length ∧ r.RowsAffected = total) ∧
      w'.log = (e.getPrimaryKeysInRange w tablePlan offset chunkSize).2.log ++ new ∧
      (e.dryRun = true → new = [] ∧ total = keys.length) ∧
      (e.dryRun = false → new.length = keys.length ∧ (∀ c ∈ new, ∃ sql, c = .Exec sql) ∧
        execsSucceed e.db (e.getPrimaryKeysInRange w tablePlan offset chunkSize).2.log new
          = true ∧
        total = affectedSum e.db
          (e.getPrimaryKeysInRange w tablePlan offset chunkSize).2.log new) ∧
      (∀ k ∈ keys, (GenerateSingleRowSQL tablePlan tablePlan.PrimaryKey k).2 = none ∧
        ∃ m sql n, ReplaceFakerPlaceholders e.faker fuel m
          (GenerateSingleRowSQL tablePlan tablePlan.PrimaryKey k).1
            = some ((sql, none), n))) := by
  unfold Executor.processChunk at h
  rcases hk : e.getPrimaryKeysInRange w tablePlan offset chunkSize with ⟨⟨keys, _ | kerr⟩, w₁⟩
  · rw [hk] at h
    simp only at h
    rcases hp : e.processRows fuel tablePlan keys w₁ 0 with _ | ⟨⟨total, _ | perr⟩, w₂⟩
    · rw [hp] at h
      simp at h
    · rw [hp] at h
      simp only [Option.some.injEq, Prod.mk.injEq] at h
      obtain ⟨⟨hr, he⟩, hw⟩ := h
      subst hr he hw
      obtain ⟨new, hlog, hex, hnew, hres⟩ := processRows_spec e fuel tablePlan keys w₁ 0 _ _ hp
      obtain ⟨hall, hok⟩ := processRows_rows_ok e fuel tablePlan keys w₁ 0 _ _ hp
      obtain ⟨h1, _, _, h4⟩ := columnResults_spec tablePlan keys.length total
      refine ⟨fun hne => absurd rfl hne, fun _ => ⟨keys, total, new, rfl, rfl, h1,
        fun r hr => ⟨(h4 r hr).2.1, (h4 r hr).2.2.1⟩, hlog, ?_, ?_, hall⟩⟩
      · intro hd
        refine ⟨hnew hd, ?_⟩
        have := (hres rfl).1 hd
        simpa using this
      · intro hd
        obtain ⟨hl, hs⟩ := (hres rfl).2 hd
        exact ⟨hl, hex, hok new hlog, by simpa using hs⟩
    · rw [hp] at h
      simp only [Option.some.injEq, Prod.mk.injEq] at h
      obtain ⟨⟨hr, he⟩, hw⟩ := h
      subst hr he hw
      exact ⟨fun _ => rfl, fun hn => by simp at hn⟩
  · rw [hk] at h
    simp only [Option.some.injEq, Prod.mk.injEq] at h
    obtain ⟨⟨hr, he⟩, hw⟩ := h
    subst hr he hw
    exact ⟨fun _ => rfl, fun hn => by simp at hn⟩

/-- Instance of C16: the window of the two rows of `users`, both updated. -/
theorem processChunk_results_witness :
    ∃ keys total,
      (twoRowExecutor.getPrimaryKeysInRange {} usersPlan 1 1000).1 = (keys, none) ∧
      columnResults usersPlan 2 2 = columnResults usersPlan keys.length total :=
  let ⟨keys, total, _, hk, hrs, _⟩ :=
    (processChunk_results twoRowExecutor 2 {} usersPlan 1 1000 (columnResults usersPlan 2 2)
      none
      { log := [.Query "SELECT id FROM users WHERE id >= 1 AND id < 1001".toList,
                .Exec "UPDATE users SET email = \x27ann@example.org\x27 WHERE id = 1".toList,
                .Exec "UPDATE users SET email = \x27bob@example.org\x27 WHERE id = 2".toList],
        genCalls := 2 } (by decide)).2 rfl
  ⟨keys, total, hk, hrs⟩

/-! ## Row-by-row substitution in a chunk -/

/-- A pattern does not occur in a text that lacks its first character. -/
theorem not_infix_of_not_mem (x : Char) (b s : Str) (hx : x ∉ s) : ¬ (x :: b) <:+: s :=
  fun h => hx (h.mem (List.mem_cons_self _ _))

/-- The pattern `x :: b` does not occur in `Y ++ c :: s` when it does not occur in
`Y`, the text `c :: s` holds no `x`, and `c` is not a character of `b`. -/
theorem not_infix_append_plain (x : Char) (b : Str) (c : Char) (s : Str) (hc : c ∉ b)
    (hx : x ∉ c :: s) :
    ∀ Y : Str, ¬ (x :: b) <:+: Y → ¬ (x :: b) <:+: Y ++ c :: s := by
  intro Y
  induction Y with
  | nil => intro _; simpa using not_infix_of_not_mem x b (c :: s) hx
  | cons a Y' ih =>
    intro hY h
    have hY' : ¬ (x :: b) <:+: Y' := fun h => hY (List.infix_cons_iff.mpr (Or.inr h))
    rw [List.cons_append, List.infix_cons_iff] at h
    rcases h with h | h
    · have h3 := List.cons_prefix_cons.mp h
      have h4 : b <+: Y' := prefix_of_prefix_append_cons c b hc Y' s h3.2
      exact hY (List.cons_prefix_cons.mpr ⟨h3.1, h4⟩).isInfix
    · exact ih hY' h

/-- The pattern `x :: b` does not occur in `Y ++ c :: Z` when it occurs neither in
`Y ++ [c]` nor in `Z` and `c` is not one of its characters. -/
theorem not_infix_append_after (x : Char) (b : Str) (c : Char) (Z : Str) (hcx : c ≠ x)
    (hc : c ∉ b) (hZ : ¬ (x :: b) <:+: Z) :
    ∀ Y : Str, ¬ (x :: b) <:+: Y ++ [c] → ¬ (x :: b) <:+: Y ++ c :: Z := by
  intro Y
  induction Y with
  | nil =>
    intro _ h
    rw [List.nil_append, List.infix_cons_iff] at h
    rcases h with h | h
    · exact hcx (List.cons_prefix_cons.mp h).1.symm
    · exact hZ h
  | cons a Y' ih =>
    intro hY h
    have hY' : ¬ (x :: b) <:+: Y' ++ [c] := fun h => hY (List.infix_cons_iff.mpr (Or.inr h))
    rw [List.cons_append, List.infix_cons_iff] at h
    rcases h with h | h
    · have h3 := List.cons_prefix_cons.mp h
      have h4 : b <+: Y' := prefix_of_prefix_append_cons c b hc Y' Z h3.2
      have h5 : x :: b <+: a :: (Y' ++ [c]) :=
        List.cons_prefix_cons.mpr ⟨h3.1, h4.trans (List.prefix_append _ _)⟩
      exact hY h5.isInfix
    · exact ih hY' h

/-- The `%d` rendering of an integer holds no quote. -/
theorem quoteChar_not_mem_fmtInt (i : Int) : quoteChar ∉ fmtInt i := by
  have hd : ∀ d : Nat, digitChar d ≠ quoteChar := by
    intro d
    unfold digitChar
    split <;> decide
  have hn : ∀ n : Nat, quoteChar ∉ fmtNat n := by
    intro n hm
    obtain ⟨d, _, hd'⟩ := List.mem_map.mp hm
    exact hd d hd'
  cases i with
  | ofNat n => exact hn n
  | negSucc n =>
    intro hm
    rcases List.mem_cons.mp hm with h | h
    · exact absurd h (by decide)
    · exact hn _ h

/-- The opening of a placeholder does not occur in `Y ++ s` when it does not occur
in `Y` and `s` is a text without quote that starts with a blank or a comma. -/
theorem not_open_infix_append_plain (Y : Str) (c : Char) (s : Str)
    (hY : ¬ placeholderOpen <:+: Y) (hc : c = ' ' ∨ c = ',') (hs : quoteChar ∉ c :: s) :
    ¬ placeholderOpen <:+: Y ++ c :: s := by
  have hcb : c ∉ placeholderTag := by
    rcases hc with h | h <;> subst h <;> decide
  exact not_infix_append_plain quoteChar placeholderTag c s hcb hs Y hY

/-- The opening of a placeholder does not occur in `Y ++ ' ' :: Z` when it occurs
neither in `Y ++ [' ']` nor in `Z`. -/
theorem not_open_infix_append_after_blank (Y Z : Str)
    (hY : ¬ placeholderOpen <:+: Y ++ [' ']) (hZ : ¬ placeholderOpen <:+: Z) :
    ¬ placeholderOpen <:+: Y ++ ' ' :: Z :=
  not_infix_append_after quoteChar placeholderTag ' ' Z (by decide) (by decide) hZ Y hY

/-- Joining non-empty parts with commas, after a first separator. -/
theorem glue_Join (first : Str) :
    ∀ l : List Str, l ≠ [] → first ++ Join ", ".toList l = glue first l := by
  intro l
  induction l generalizing first with
  | nil => intro h; exact absurd rfl h
  | cons a l ih =>
    intro _
    cases l with
    | nil => simp [Join, glue]
    | cons b l' =>
      have h := ih ", ".toList (List.cons_ne_nil _ _)
      simp only [Join, glue] at h ⊢
      rw [← h]
      simp [Join, List.append_assoc]

/-- The placeholder of a single-row statement, as an opening, the text between
the delimiters, and the closing delimiter. -/
theorem singleRowPlaceholder_eq (t T name : Str) (p : Int) :
    singleRowPlaceholder t T name p
      = placeholderOpen ++ ((t ++ ':' :: (T ++ ':' :: (name ++ ':' :: fmtInt p)))
          ++ placeholderClose) := by
  simp [singleRowPlaceholder, placeholderOpen, placeholderClose, List.append_assoc]

/-- The text between the delimiters of the placeholder of a single-row statement
holds no closing delimiter when the names hold no quote. -/
theorem not_close_infix_info (t T name : Str) (p : Int) (ht : quoteChar ∉ t)
    (hT : quoteChar ∉ T) (hn : quoteChar ∉ name) :
    ¬ placeholderClose <:+: t ++ ':' :: (T ++ ':' :: (name ++ ':' :: fmtInt p)) := by
  intro h
  have hq : quoteChar ∈ t ++ ':' :: (T ++ ':' :: (name ++ ':' :: fmtInt p)) :=
    h.mem (by simp [placeholderClose])
  simp only [List.mem_append, List.mem_cons] at hq
  have hc : quoteChar ≠ ':' := by decide
  have hp := quoteChar_not_mem_fmtInt p
  tauto

/-- The loop of `ReplaceFakerPlaceholders` over the assignments of a single-row
statement: after one iteration per Synthetic column the placeholders are
replaced by the literals of the values of successive invocations, and no
opening is left in the text up to there. -/
theorem replaceLoop_columns (g : Generator) (sql T : Str) (p : Int) (hT : quoteChar ∉ T) :
    ∀ (cols : List ColumnPlan) (sep X tail : Str) (n fuel : Nat),
      (sep = " ".toList ∨ sep = ", ".toList) →
      ¬ placeholderOpen <:+: X →
      (∀ c ∈ cols, cleanColumn g T c) →
      replaceLoop g sql (fuel + fakerCount cols)
          (X ++ (glue sep (cols.map (singleRowAssignment T p)) ++ tail)) n
        = replaceLoop g sql fuel (X ++ (glue sep (singleRowValues g T n cols) ++ tail))
            (n + fakerCount cols) ∧
      ¬ placeholderOpen <:+: X ++ glue sep (singleRowValues g T n cols) := by
  intro cols
  induction cols with
  | nil =>
    intro sep X tail n fuel _ hX _
    simpa [glue, singleRowValues, fakerCount] using hX
  | cons c cs ih =>
    intro sep X tail n fuel hsep hX hclean
    have hc := hclean c (List.mem_cons_self _ _)
    have hcs : ∀ c' ∈ cs, cleanColumn g T c' := fun c' h => hclean c' (List.mem_cons_of_mem _ h)
    obtain ⟨hname, hstrat⟩ := hc
    -- the text up to the value of the column holds no opening
    have hX₁ : ¬ placeholderOpen <:+: (X ++ (sep ++ c.Name ++ " =".toList)) ++ [' '] := by
      have hq : quoteChar ∉ sep ++ c.Name ++ " = ".toList := by
        rcases hsep with h | h <;> subst h <;>
          simp only [List.mem_append, not_or] <;>
          exact ⟨⟨by decide, hname⟩, by decide⟩
      rcases hsep with h | h
      · subst h
        have := not_open_infix_append_plain X ' ' (c.Name ++ " = ".toList) hX (Or.inl rfl)
          (by simpa using hq)
        simpa [List.append_assoc] using this
      · subst h
        have := not_open_infix_append_plain X ',' (' ' :: (c.Name ++ " = ".toList)) hX
          (Or.inr rfl) (by simpa using hq)
        simpa [List.append_assoc] using this
    have plain : ∀ render : Str, ¬ placeholderOpen <:+: render →
        singleRowAssignment T p c = c.Name ++ " = ".toList ++ render →
        singleRowValues g T n (c :: cs)
          = (c.Name ++ " = ".toList ++ render) :: singleRowValues g T n cs →
        fakerCount (c :: cs) = fakerCount cs →
        replaceLoop g sql (fuel + fakerCount (c :: cs))
            (X ++ (glue sep ((c :: cs).map (singleRowAssignment T p)) ++ tail)) n
          = replaceLoop g sql fuel (X ++ (glue sep (singleRowValues g T n (c :: cs)) ++ tail))
              (n + fakerCount (c :: cs)) ∧
        ¬ placeholderOpen <:+: X ++ glue sep (singleRowValues g T n (c :: cs)) := by
      intro render hr hassign hval hcount
      have hX₂ : ¬ placeholderOpen <:+: (X ++ (sep ++ c.Name ++ " =".toList)) ++ ' ' :: render :=
        not_open_infix_append_after_blank _ render hX₁ hr
      obtain ⟨ih₁, ih₂⟩ := ih ", ".toList _ tail n fuel (Or.inr rfl) hX₂ hcs
      have hre₁ : X ++ (glue sep ((c :: cs).map (singleRowAssignment T p)) ++ tail)
          = ((X ++ (sep ++ c.Name ++ " =".toList)) ++ ' ' :: render)
            ++ (glue ", ".toList (cs.map (singleRowAssignment T p)) ++ tail) := by
        simp only [List.map_cons, glue, hassign]
        simp [List.append_assoc]
      have hre₃ : ((X ++ (sep ++ c.Name ++ " =".toList)) ++ ' ' :: render)
            ++ glue ", ".toList (singleRowValues g T n cs)
          = X ++ glue sep (singleRowValues g T n (c :: cs)) := by
        rw [hval]
        simp [glue, List.append_assoc]
      have hre₄ : ((X ++ (sep ++ c.Name ++ " =".toList)) ++ ' ' :: render)
            ++ (glue ", ".toList (singleRowValues g T n cs) ++ tail)
          = X ++ (glue sep (singleRowValues g T n (c :: cs)) ++ tail) := by
        rw [hval]
        simp [glue, List.append_assoc]
      refine ⟨?_, ?_⟩
      · rw [hre₁, hcount, ih₁, hre₄]
      · rw [← hre₃]
        exact ih₂
    cases hs : c.Strategy with
    | FakerStrategy t =>
      rw [hs] at hstrat
      obtain ⟨ht, htc, hgen⟩ := hstrat
      have hft : fakerTypeOf (t ++ ':' :: (T ++ ':' :: (c.Name ++ ':' :: fmtInt p))) = t :=
        fakerTypeOf_segment t htc _
      have hinfo := not_close_infix_info t T c.Name p ht hT hname
      have hassign : singleRowAssignment T p c
          = c.Name ++ " = ".toList ++ (placeholderOpen
              ++ ((t ++ ':' :: (T ++ ':' :: (c.Name ++ ':' :: fmtInt p))) ++ placeholderClose)) := by
        simp only [singleRowAssignment, hs, singleRowPlaceholder_eq]
      have hval : singleRowValues g T n (c :: cs)
          = (c.Name ++ " = ".toList ++ quoteLiteral (g.Generate n t).1)
            :: singleRowValues g T (n + 1) cs := by
        simp only [singleRowValues, hs]
      have hcount : fakerCount (c :: cs) = fakerCount cs + 1 := by
        simp only [fakerCount, hs]
        omega
      have hsupp : (g.Generate n (fakerTypeOf
          (t ++ ':' :: (T ++ ':' :: (c.Name ++ ':' :: fmtInt p))))).2 = none := by
        rw [hft]
        exact (hgen n).1
      -- the text after the literal of the value holds no opening
      have hX₂ : ¬ placeholderOpen <:+:
          ((X ++ (sep ++ c.Name ++ " =".toList)) ++ [' ']) ++ quoteLiteral (g.Generate n t).1 := by
        have hlit := not_open_infix_literal (g.Generate n t).1 [] (hgen n).2.1 (hgen n).2.2
          (by simp [placeholderOpen]) (by simp [placeholderTag])
        rw [List.append_nil, quoteLiteral_eq] at hlit
        rw [quoteLiteral_eq]
        exact not_infix_append_cons quoteChar placeholderTag quoteChar_not_mem_placeholderTag
          _ _ hX₁ hlit
      obtain ⟨ih₁, ih₂⟩ := ih ", ".toList _ tail (n + 1) fuel (Or.inr rfl) hX₂ hcs
      have hstep := replaceLoop_step g sql ((X ++ (sep ++ c.Name ++ " =".toList)) ++ [' '])
        (t ++ ':' :: (T ++ ':' :: (c.Name ++ ':' :: fmtInt p)))
        (glue ", ".toList (cs.map (singleRowAssignment T p)) ++ tail) n (fuel + fakerCount cs)
        hX₁ hinfo hsupp
      rw [hft] at hstep
      have hre₁ : X ++ (glue sep ((c :: cs).map (singleRowAssignment T p)) ++ tail)
          = ((X ++ (sep ++ c.Name ++ " =".toList)) ++ [' ']) ++ (placeholderOpen
              ++ ((t ++ ':' :: (T ++ ':' :: (c.Name ++ ':' :: fmtInt p)))
              ++ (placeholderClose
                ++ (glue ", ".toList (cs.map (singleRowAssignment T p)) ++ tail)))) := by
        simp only [List.map_cons, glue, hassign]
        simp [List.append_assoc]
      have hre₂ : ((X ++ (sep ++ c.Name ++ " =".toList)) ++ [' '])
            ++ (quoteLiteral (g.Generate n t).1
              ++ (glue ", ".toList (cs.map (singleRowAssignment T p)) ++ tail))
          = (((X ++ (sep ++ c.Name ++ " =".toList)) ++ [' ']) ++ quoteLiteral (g.Generate n t).1)
            ++ (glue ", ".toList (cs.map (singleRowAssignment T p)) ++ tail) := by
        simp [List.append_assoc]
      have hre₃ : (((X ++ (sep ++ c.Name ++ " =".toList)) ++ [' '])
            ++ quoteLiteral (g.Generate n t).1)
            ++ glue ", ".toList (singleRowValues g T (n + 1) cs)
          = X ++ glue sep (singleRowValues g T n (c :: cs)) := by
        rw [hval]
        simp [glue, List.append_assoc]
      have hre₄ : (((X ++ (sep ++ c.Name ++ " =".toList)) ++ [' '])
            ++ quoteLiteral (g.Generate n t).1)
            ++ (glue ", ".toList (singleRowValues g T (n + 1) cs) ++ tail)
          = X ++ (glue sep (singleRowValues g T n (c :: cs)) ++ tail) := by
        rw [hval]
        simp [glue, List.append_assoc]
      refine ⟨?_, ?_⟩
      · rw [hre₁, hcount, ← Nat.add_assoc, hstep, hre₂, ih₁, hre₄]
        congr 1
        omega
      · rw [← hre₃]
        exact ih₂
    | FixedValueStrategy v =>
      rw [hs] at hstrat
      exact plain _ hstrat (by simp only [singleRowAssignment, hs])
        (by simp only [singleRowValues, hs]) (by simp only [fakerCount, hs]; omega)
    | NullStrategy =>
      rw [hs] at hstrat
      exact plain _ hstrat (by simp only [singleRowAssignment, hs])
        (by simp only [singleRowValues, hs]) (by simp only [fakerCount, hs]; omega)
    | ExpressionStrategy x =>
      rw [hs] at hstrat
      exact plain _ hstrat (by simp only [singleRowAssignment, hs])
        (by simp only [singleRowValues, hs]) (by simp only [fakerCount, hs]; omega)


/-- The substituted assignments are as many as the columns. -/
theorem singleRowValues_ne_nil (g : Generator) (T : Str) (n : Nat) (cols : List ColumnPlan)
    (h : cols ≠ []) : singleRowValues g T n cols ≠ [] := by
  cases cols with
  | nil => exact absurd rfl h
  | cons c cs =>
    unfold singleRowValues
    split <;> simp

/-- The substitution of a single-row statement: when the names hold no quote,
the where text and the renderings of the other columns hold no placeholder
opening, and the Synthetic columns are of supported types whose values hold
no placeholder opening, `ReplaceFakerPlaceholders` returns the statement in
which the placeholder of every Synthetic column is replaced by the literal of the
value of its own invocation, after one invocation per Synthetic column. -/
theorem ReplaceFakerPlaceholders_singleRow (g : Generator) (tablePlan : TablePlan)
    (primaryKey : Str) (p : Int) (n fuel : Nat) (hcols : tablePlan.Columns ≠ [])
    (hpk : primaryKey ≠ []) (hT : quoteChar ∉ tablePlan.Name) (hpkq : quoteChar ∉ primaryKey)
    (hwhere : ¬ placeholderOpen <:+: tablePlan.Where)
    (hclean : ∀ c ∈ tablePlan.Columns, cleanColumn g tablePlan.Name c)
    (hfuel : fakerCount tablePlan.Columns < fuel) :
    ReplaceFakerPlaceholders g fuel n (GenerateSingleRowSQL tablePlan primaryKey p).1
      = some ((substitutedSingleRowSQL g n tablePlan primaryKey p, none),
          n + fakerCount tablePlan.Columns) := by
  obtain ⟨f, hf⟩ : ∃ f, fuel = (f + 1) + fakerCount tablePlan.Columns :=
    ⟨fuel - fakerCount tablePlan.Columns - 1, by omega⟩
  have hlen : ¬ tablePlan.Columns.length = 0 := fun h0 => hcols (List.length_eq_zero.mp h0)
  have hmap : tablePlan.Columns.map (singleRowAssignment tablePlan.Name p) ≠ [] := by
    simpa using hcols
  have hvals := singleRowValues_ne_nil g tablePlan.Name n tablePlan.Columns hcols
  have hX₀ : ¬ placeholderOpen <:+: "UPDATE ".toList ++ tablePlan.Name ++ " SET".toList := by
    apply not_infix_of_not_mem
    simp only [List.mem_append, not_or]
    exact ⟨⟨by decide, hT⟩, by decide⟩
  have hfmt := quoteChar_not_mem_fmtInt p
  -- the tail of the statement, from the blank before `WHERE`
  obtain ⟨tail, htail, hgen, hsub⟩ : ∃ tail : Str,
      (∀ Y : Str, ¬ placeholderOpen <:+: Y → ¬ placeholderOpen <:+: Y ++ tail) ∧
      (GenerateSingleRowSQL tablePlan primaryKey p).1
        = ("UPDATE ".toList ++ tablePlan.Name ++ " SET".toList)
          ++ (" ".toList ++ Join ", ".toList (singleRowSetClause tablePlan p) ++ tail) ∧
      substitutedSingleRowSQL g n tablePlan primaryKey p
        = ("UPDATE ".toList ++ tablePlan.Name ++ " SET".toList)
          ++ (" ".toList ++ Join ", ".toList
            (singleRowValues g tablePlan.Name n tablePlan.Columns) ++ tail) := by
    by_cases hw : tablePlan.Where = []
    · refine ⟨" WHERE ".toList ++ (primaryKey ++ " = ".toList ++ fmtInt p), ?_, ?_, ?_⟩
      · intro Y hY
        have := not_open_infix_append_plain Y ' '
          ("WHERE ".toList ++ (primaryKey ++ " = ".toList ++ fmtInt p)) hY (Or.inl rfl)
          (by
            simp only [List.mem_cons, List.mem_append, not_or]
            repeat' constructor
            all_goals first
              | exact hpkq
              | exact hfmt
              | decide)
        simpa using this
      · simp [GenerateSingleRowSQL, hlen, hpk, hw, List.append_assoc]
      · simp [substitutedSingleRowSQL, hw, List.append_assoc]
    · refine ⟨(" WHERE (".toList ++ (primaryKey ++ " = ".toList ++ fmtInt p) ++ ") AND".toList)
          ++ ' ' :: tablePlan.Where, ?_, ?_, ?_⟩
      · intro Y hY
        have h1 := not_open_infix_append_plain Y ' '
          ("WHERE (".toList ++ (primaryKey ++ " = ".toList ++ fmtInt p) ++ ") AND ".toList)
          hY (Or.inl rfl)
          (by
            simp only [List.mem_cons, List.mem_append, not_or]
            repeat' constructor
            all_goals first
              | exact hpkq
              | exact hfmt
              | decide)
        have h2 : ¬ placeholderOpen <:+: (Y ++ (" WHERE (".toList
            ++ (primaryKey ++ " = ".toList ++ fmtInt p) ++ ") AND".toList)) ++ [' '] := by
          simpa [List.append_assoc] using h1
        have h3 := not_open_infix_append_after_blank _ tablePlan.Where h2 hwhere
        simpa [List.append_assoc] using h3
      · simp [GenerateSingleRowSQL, hlen, hpk, hw, List.append_assoc]
      · simp [substitutedSingleRowSQL, hw, List.append_assoc]
  have key : ∀ sql₀ : Str,
      replaceLoop g sql₀ fuel (GenerateSingleRowSQL tablePlan primaryKey p).1 n
        = some ((substitutedSingleRowSQL g n tablePlan primaryKey p, none),
            n + fakerCount tablePlan.Columns) := by
    intro sql₀
    obtain ⟨hloop, hXf⟩ := replaceLoop_columns g sql₀ tablePlan.Name p hT tablePlan.Columns
      " ".toList ("UPDATE ".toList ++ tablePlan.Name ++ " SET".toList) tail n (f + 1)
      (Or.inl rfl) hX₀ hclean
    have hfinal := htail _ hXf
    have h0 : Index (("UPDATE ".toList ++ tablePlan.Name ++ " SET".toList)
        ++ (glue " ".toList (singleRowValues g tablePlan.Name n tablePlan.Columns) ++ tail))
        placeholderOpen = none := by
      apply (Index_eq_none_iff _ _).mpr
      simpa [List.append_assoc] using hfinal
    rw [hsub, glue_Join _ _ hvals, hf, hgen, singleRowSetClause, glue_Join _ _ hmap, hloop,
      replaceLoop]
    simp only [h0]
  exact key _

/-- The loop of `processChunk` over the keys of a window, outside simulation mode
and with a database that answers every execution without error: it sends one
statement per key, each substituted by invocations of its own. -/
theorem processRows_statements (e : Executor) (fuel : Nat) (tablePlan : TablePlan)
    (hdry : e.dryRun = false) (hexec : ∀ log sql, (e.db.ExecContext log sql).2 = none)
    (hcols : tablePlan.Columns ≠ []) (hpk : tablePlan.PrimaryKey ≠ [])
    (hT : quoteChar ∉ tablePlan.Name) (hpkq : quoteChar ∉ tablePlan.PrimaryKey)
    (hwhere : ¬ placeholderOpen <:+: tablePlan.Where)
    (hclean : ∀ c ∈ tablePlan.Columns, cleanColumn e.faker tablePlan.Name c)
    (hfuel : fakerCount tablePlan.Columns < fuel) :
    ∀ (keys : List Int) (w : World) (total : Int),
      ∃ total', e.processRows fuel tablePlan keys w total
        = some ((total', none),
            { log := w.log ++ rowStatements e.faker tablePlan w.genCalls keys,
              genCalls := w.genCalls + fakerCount tablePlan.Columns * keys.length }) := by
  have hlen : ¬ tablePlan.Columns.length = 0 := fun h0 => hcols (List.length_eq_zero.mp h0)
  intro keys
  induction keys with
  | nil =>
    intro w total
    exact ⟨total, by simp [Executor.processRows, rowStatements]⟩
  | cons k rest ih =>
    intro w total
    have hg : GenerateSingleRowSQL tablePlan tablePlan.PrimaryKey k
        = ((GenerateSingleRowSQL tablePlan tablePlan.PrimaryKey k).1, none) := by
      simp [GenerateSingleRowSQL, hlen, hpk]
    have hs := ReplaceFakerPlaceholders_singleRow e.faker tablePlan tablePlan.PrimaryKey k
      w.genCalls fuel hcols hpk hT hpkq hwhere hclean hfuel
    have hx : e.db.ExecContext w.log
        (substitutedSingleRowSQL e.faker w.genCalls tablePlan tablePlan.PrimaryKey k)
        = ((e.db.ExecContext w.log
            (substitutedSingleRowSQL e.faker w.genCalls tablePlan tablePlan.PrimaryKey k)).1,
          none) := by
      rw [← hexec w.log _]
    obtain ⟨total', hrec⟩ := ih
      (({ w with genCalls := w.genCalls + fakerCount tablePlan.Columns } : World).sent
        (.Exec (substitutedSingleRowSQL e.faker w.genCalls tablePlan tablePlan.PrimaryKey k)))
      (total + (e.db.ExecContext w.log
        (substitutedSingleRowSQL e.faker w.genCalls tablePlan tablePlan.PrimaryKey k)).1)
    refine ⟨total', ?_⟩
    rw [Executor.processRows, hg]
    simp only [hs, hdry, Bool.not_false, if_true]
    rw [hx]
    simp only [World.sent] at hrec
    simp only [World.sent, rowStatements, List.length_cons, Nat.mul_succ]
    rw [hrec]
    simp only [List.append_assoc, List.singleton_append, Nat.add_assoc, Nat.add_comm]

/-- The literal of a Synthetic column in the substituted assignments: the value
of the invocation that follows those of the Synthetic columns before it. -/
theorem mem_singleRowValues (g : Generator) (T : Str) (c : ColumnPlan) (t : Str)
    (hs : c.Strategy = .FakerStrategy t) :
    ∀ (pre post : List ColumnPlan) (n : Nat),
      c.Name ++ " = ".toList ++ quoteLiteral (g.Generate (n + fakerCount pre) t).1
        ∈ singleRowValues g T n (pre ++ c :: post) := by
  intro pre
  induction pre with
  | nil =>
    intro post n
    simp [singleRowValues, hs, fakerCount]
  | cons d ds ih =>
    intro post n
    cases hd : d.Strategy with
    | FakerStrategy u =>
      have h := ih post (n + 1)
      have he : n + 1 + fakerCount ds = n + fakerCount (d :: ds) := by
        simp only [fakerCount, hd]
        omega
      rw [he] at h
      simp only [List.cons_append, singleRowValues, hd]
      exact List.mem_cons_of_mem _ h
    | FixedValueStrategy v =>
      have h := ih post n
      have he : n + fakerCount ds = n + fakerCount (d :: ds) := by
        simp only [fakerCount, hd]
        omega
      rw [he] at h
      simp only [List.cons_append, singleRowValues, hd]
      exact List.mem_cons_of_mem _ h
    | NullStrategy =>
      have h := ih post n
      have he : n + fakerCount ds = n + fakerCount (d :: ds) := by
        simp only [fakerCount, hd]
        omega
      rw [he] at h
      simp only [List.cons_append, singleRowValues, hd]
      exact List.mem_cons_of_mem _ h
    | ExpressionStrategy x =>
      have h := ih post n
      have he : n + fakerCount ds = n + fakerCount (d :: ds) := by
        simp only [fakerCount, hd]
        omega
      rw [he] at h
      simp only [List.cons_append, singleRowValues, hd]
      exact List.mem_cons_of_mem _ h

/-- Escaping loses nothing: two values with the same literal are equal. -/
theorem quoteLiteral_inj (v v' : Str) (h : quoteLiteral v = quoteLiteral v') : v = v' := by
  rw [quoteLiteral_eq, quoteLiteral_eq] at h
  have h1 : escapeQuotes v = escapeQuotes v' :=
    List.append_cancel_right (List.cons.inj h).2
  have h2 := replaceAllAux_unquote v ((escapeQuotes v).length + 1) (Nat.lt_succ_self _)
  have h3 := replaceAllAux_unquote v' ((escapeQuotes v').length + 1) (Nat.lt_succ_self _)
  rw [h1] at h2
  exact h2.symm.trans h3

/-- For a constant generator type the value does not depend on the invocation. -/
theorem Generate_constant (g : Generator) (t : Str) (ht : g.ToLower t ∈ constantTypes)
    (a b : Nat) : g.Generate a t = g.Generate b t := by
  have hm : ∀ s : Str, s ∈ constantTypes → g.ToLower t = s →
      g.Generate a t = g.Generate b t := by
    intro s hs
    simp only [constantTypes, List.map, List.mem_cons, List.mem_singleton,
      List.not_mem_nil, or_false] at hs
    intro ht'
    rcases hs with h | h | h | h | h | h | h | h | h | h | h | h <;>
    · subst h
      simp only [Generator.Generate, ht']
      rfl
  exact hm _ ht rfl


/-- C12: the rows of a chunk do not get values of their own for every supported
generator type.  `city` is a supported type whose value is the constant
`New York`: on a chunk with the two keys 1 and 2, `processChunk` substitutes the
two single-row statements by two invocations and both statements carry the same
literal for the column. -/
theorem processChunk_city_identical :
    "city".toList ∈ GetSupportedTypes ∧
    twoRowExecutor.processChunk 2 {} cityPlan 1 1000
      = some ((columnResults cityPlan 2 2, none),
          { log := [.Query "SELECT id FROM users WHERE id >= 1 AND id < 1001".toList,
                    .Exec "UPDATE users SET city = \x27New York\x27 WHERE id = 1".toList,
                    .Exec "UPDATE users SET city = \x27New York\x27 WHERE id = 2".toList],
            genCalls := 2 }) := by
  decide

/-- The literals of a chunk: for a chunk with the keys `keys` and a Synthetic strategy of
type `t` on column `c`, outside simulation mode, with executions that succeed
and a plan whose names hold no quote and whose other texts hold no placeholder
opening, `processChunk` sends one substituted statement per key, each
substituted by invocations of its own (`rowStatements`); the literal for `c` in
the statement of a row is the quoted value of one of the invocations of that
row; the literals of two rows are identical exactly when the values of their two
invocations are, so the literals are not all identical as soon as two
invocations return different values; and for the constant generator types the
value is the same at every invocation, so the literals are always identical. -/
theorem processChunk_literals (e : Executor) (fuel : Nat) (w : World) (tablePlan : TablePlan)
    (offset chunkSize : Int) (keys : List Int) (pre post : List ColumnPlan) (c : ColumnPlan)
    (t : Str) (hdry : e.dryRun = false)
    (hexec : ∀ log sql, (e.db.ExecContext log sql).2 = none)
    (hkeys : (e.getPrimaryKeysInRange w tablePlan offset chunkSize).1 = (keys, none))
    (hcolumns : tablePlan.Columns = pre ++ c :: post)
    (hstrategy : c.Strategy = .FakerStrategy t)
    (hpk : tablePlan.PrimaryKey ≠ [])
    (hT : quoteChar ∉ tablePlan.Name) (hpkq : quoteChar ∉ tablePlan.PrimaryKey)
    (hwhere : ¬ placeholderOpen <:+: tablePlan.Where)
    (hclean : ∀ d ∈ tablePlan.Columns, cleanColumn e.faker tablePlan.Name d)
    (hfuel : fakerCount tablePlan.Columns < fuel) :
    (∃ total, e.processChunk fuel w tablePlan offset chunkSize
      = some ((columnResults tablePlan keys.length total, none),
          { log := (e.getPrimaryKeysInRange w tablePlan offset chunkSize).2.log
              ++ rowStatements e.faker tablePlan w.genCalls keys,
            genCalls := w.genCalls + fakerCount tablePlan.Columns * keys.length })) ∧
    (∀ n, c.Name ++ " = ".toList ++ quoteLiteral (e.faker.Generate (n + fakerCount pre) t).1
      ∈ singleRowValues e.faker tablePlan.Name n tablePlan.Columns) ∧
    (∀ a b, quoteLiteral (e.faker.Generate a t).1 = quoteLiteral (e.faker.Generate b t).1
      ↔ (e.faker.Generate a t).1 = (e.faker.Generate b t).1) ∧
    (e.faker.ToLower t ∈ constantTypes → ∀ a b, e.faker.Generate a t = e.faker.Generate b t) := by
  have hcols : tablePlan.Columns ≠ [] := by
    rw [hcolumns]
    exact List.append_ne_nil_of_right_ne_nil _ (List.cons_ne_nil _ _)
  refine ⟨?_, ?_, fun a b => ⟨fun h => quoteLiteral_inj _ _ h, fun h => by rw [h]⟩,
    fun ht a b => Generate_constant e.faker t ht a b⟩
  · obtain ⟨sql, _, hw⟩ := getPrimaryKeysInRange_world e w tablePlan offset chunkSize
    have hgen : (e.getPrimaryKeysInRange w tablePlan offset chunkSize).2.genCalls = w.genCalls := by
      rw [hw]
      rfl
    obtain ⟨total, hrows⟩ := processRows_statements e fuel tablePlan hdry hexec hcols hpk hT hpkq
      hwhere hclean hfuel keys (e.getPrimaryKeysInRange w tablePlan offset chunkSize).2 0
    rw [hgen] at hrows
    refine ⟨total, ?_⟩
    have hk : e.getPrimaryKeysInRange w tablePlan offset chunkSize
        = ((keys, none), (e.getPrimaryKeysInRange w tablePlan offset chunkSize).2) := by
      rw [← hkeys]
    rw [Executor.processChunk, hk]
    simp only [hrows]
  · intro n
    rw [hcolumns]
    exact mem_singleRowValues e.faker tablePlan.Name c t hstrategy pre post n

/-- Instance of the literals of a chunk: the two rows of `users` with a Synthetic `email`
column; the two statements carry the values of two invocations. -/
theorem processChunk_literals_witness :
    ∃ total, twoRowExecutor.processChunk 2 {} usersPlan 1 1000
      = some ((columnResults usersPlan 2 total, none),
          { log := [.Query "SELECT id FROM users WHERE id >= 1 AND id < 1001".toList,
                    .Exec "UPDATE users SET email = \x27ann@example.org\x27 WHERE id = 1".toList,
                    .Exec "UPDATE users SET email = \x27bob@example.org\x27 WHERE id = 2".toList],
            genCalls := 2 }) :=
  (processChunk_literals twoRowExecutor 2 {} usersPlan 1 1000 [1, 2] [] []
    { Name := "email".toList, Strategy := .FakerStrategy "email".toList } "email".toList
    rfl (fun _ _ => rfl) rfl rfl rfl (by decide) (by decide) (by decide) (by decide)
    (by
      intro d hd
      have hd' : d = { Name := "email".toList, Strategy := .FakerStrategy "email".toList } :=
        List.mem_singleton.mp hd
      subst hd'
      exact ⟨by decide, by decide, by decide, fun n => sampleGenerator_email n⟩)
    (by decide)).1

/-! ## The Null strategy -/

/-- C23: the Null strategy renders exactly `NULL` for every table name and
column name, and so does a Fixed strategy whose payload is nil; the same holds
through the dispatch over the interface, and the strategy that `createStrategy`
selects for a declaration with `Null` set renders `NULL`. -/
theorem NullStrategy_GenerateSQL_text (tableName columnName : Str) :
    NullStrategy.GenerateSQL tableName columnName = "NULL".toList ∧
    FixedValueStrategy.GenerateSQL none tableName columnName = "NULL".toList ∧
    AnonymizationStrategy.NullStrategy.GenerateSQL tableName columnName = "NULL".toList ∧
    (AnonymizationStrategy.FixedValueStrategy none).GenerateSQL tableName columnName
      = "NULL".toList :=
  ⟨rfl, rfl, rfl, rfl⟩

/-! ## Limit and ordering in chunked mode -/

/-- The loop of `processChunk` over the keys does not read the limit and the
ordering of the table plan. -/
theorem processRows_ignores_limit (e : Executor) (fuel : Nat) (tablePlan : TablePlan)
    (limit : Int) (orderBy : Str) :
    ∀ (keys : List Int) (w : World) (total : Int),
      e.processRows fuel { tablePlan with Limit := limit, OrderBy := orderBy } keys w total
        = e.processRows fuel tablePlan keys w total := by
  intro keys
  induction keys with
  | nil => intro w total; rfl
  | cons k rest ih =>
    intro w total
    have hg : GenerateSingleRowSQL { tablePlan with Limit := limit, OrderBy := orderBy }
        tablePlan.PrimaryKey k = GenerateSingleRowSQL tablePlan tablePlan.PrimaryKey k := rfl
    rw [Executor.processRows, Executor.processRows]
    simp only [hg, ih]

/-- C27: the statement of `GenerateSingleRowSQL` does not depend on the limit
and the ordering of the table plan: two table plans that differ only in `Limit`
and `OrderBy` give the same result for every primary key and key value, and
`processChunk` behaves in the same way on both.  On the two rows of `users`,
with a limit of 1, `processChunk` sends one `UPDATE` for each of the two keys of
the window and reports two rows affected, whereas the whole-table statement of
the same plan ends with `LIMIT 1`. -/
theorem GenerateSingleRowSQL_ignores_limit (tablePlan : TablePlan) (limit : Int) (orderBy : Str)
    (primaryKey : Str) (pkValue : Int) :
    GenerateSingleRowSQL { tablePlan with Limit := limit, OrderBy := orderBy } primaryKey pkValue
      = GenerateSingleRowSQL tablePlan primaryKey pkValue ∧
    (∀ (e : Executor) (fuel : Nat) (w : World) (offset chunkSize : Int),
      e.processChunk fuel w { tablePlan with Limit := limit, OrderBy := orderBy } offset chunkSize
        = e.processChunk fuel w tablePlan offset chunkSize) ∧
    twoRowExecutor.processChunk 2 {} limitedPlan 1 1000
      = some ((columnResults limitedPlan 2 2, none),
          { log := [.Query "SELECT id FROM users WHERE id >= 1 AND id < 1001".toList,
                    .Exec "UPDATE users SET email = \x27ann@example.org\x27 WHERE id = 1".toList,
                    .Exec "UPDATE users SET email = \x27bob@example.org\x27 WHERE id = 2".toList],
            genCalls := 2 }) ∧
    GenerateTableSQL limitedPlan
      = ("UPDATE users SET email = \x27[FAKER:email:users:email]\x27   LIMIT 1".toList, none) := by
  refine ⟨rfl, ?_, by decide, by decide⟩
  intro e fuel w offset chunkSize
  have hk : e.getPrimaryKeysInRange w { tablePlan with Limit := limit, OrderBy := orderBy }
      offset chunkSize = e.getPrimaryKeysInRange w tablePlan offset chunkSize := rfl
  have hc : ∀ a b, columnResults { tablePlan with Limit := limit, OrderBy := orderBy } a b
      = columnResults tablePlan a b := fun _ _ => rfl
  rw [Executor.processChunk, Executor.processChunk]
  simp only [hk, hc, processRows_ignores_limit]

/-! ## Generator types at plan compilation -/

/-- C30: plan compilation does not check the generator type against the
registry.  For every text `s`, a declaration whose only set field is the type
`faker.` followed by `s` compiles to the Synthetic strategy with generator type
`s`, without error.  For `bogus` and for the empty text the generator fails;
the configuration with a column of type `faker.bogus` compiles to a plan, the
statement of its table is generated without error, and the error
`unsupported faker type: bogus` comes when that statement is substituted. -/
theorem createStrategy_unchecked_type (s : Str) :
    createStrategy { Type_ := "faker.".toList ++ s } = (some (.FakerStrategy s), none) ∧
    (∀ n, sampleGenerator.Generate n "bogus".toList
      = ([], some "unsupported faker type: bogus".toList)) ∧
    (∀ n, sampleGenerator.Generate n [] = ([], some "unsupported faker type: ".toList)) ∧
    CreatePlan bogusConfig
      = (some { Tables :=
          [{ Name := "users".toList,
             Columns := [{ Name := "email".toList,
                           Strategy := .FakerStrategy "bogus".toList }] }] }, none) ∧
    GenerateTableSQL
        { Name := "users".toList,
          Columns := [{ Name := "email".toList, Strategy := .FakerStrategy "bogus".toList }] }
      = ("UPDATE users SET email = \x27[FAKER:bogus:users:email]\x27   ".toList, none) ∧
    ReplaceFakerPlaceholders sampleGenerator 2 0
        "UPDATE users SET email = \x27[FAKER:bogus:users:email]\x27   ".toList
      = some (([], some "unsupported faker type: bogus".toList), 1) := by
  refine ⟨?_, fun _ => rfl, fun _ => rfl, by decide, by decide, by decide⟩
  have hp : "faker.".toList.isPrefixOf ("faker.".toList ++ s) = true := by
    rw [List.isPrefixOf_iff_prefix]
    exact List.prefix_append _ _
  have hd : ("faker.".toList ++ s).drop "faker.".length = s := rfl
  simp only [createStrategy, hp, hd]
  simp

/-! ## Placeholder text in a Fixed value -/

/-- C26: substitution is not confined to Synthetic columns.  The Fixed string
value `[FAKER:email]` is what `createStrategy` selects for a declaration with
that value; it renders as the text of a placeholder; after the substitution of
the whole-table statement the column is assigned a generated value and the
configured text is no longer in the statement, which is the one that
`processTable` sends. -/
theorem FixedValueStrategy_placeholder_substituted :
    createStrategy { Value := some (.str "[FAKER:email]".toList) }
      = (some (.FixedValueStrategy (some (.str "[FAKER:email]".toList))), none) ∧
    FixedValueStrategy.GenerateSQL (some (.str "[FAKER:email]".toList)) "users".toList
        "note".toList = "\x27[FAKER:email]\x27".toList ∧
    GenerateTableSQL notePlan
      = ("UPDATE users SET note = \x27[FAKER:email]\x27   ".toList, none) ∧
    ReplaceFakerPlaceholders sampleGenerator 2 0 (GenerateTableSQL notePlan).1
      = some (("UPDATE users SET note = \x27ann@example.org\x27   ".toList, none), 1) ∧
    ¬ "[FAKER:email]".toList <:+: "UPDATE users SET note = \x27ann@example.org\x27   ".toList ∧
    twoRowExecutor.processTable 2 {} notePlan
      = some ((columnResults notePlan 2 2, none),
          { log := [.Query "SELECT COUNT(*) FROM users ".toList,
                    .Exec "UPDATE users SET note = \x27ann@example.org\x27   ".toList],
            genCalls := 1 }) := by
  decide

/-! ## Plan compilation -/

/-- A declaration that matches a strategy is given one, without error. -/
theorem createStrategy_of_matches (c : ColumnConfig) (h : matchesStrategy c) :
    ∃ s, createStrategy c = (some s, none) := by
  have hp : ("faker.".toList.isPrefixOf c.Type_ = true) ↔ "faker.".toList <+: c.Type_ :=
    List.isPrefixOf_iff_prefix
  unfold createStrategy
  split_ifs with h1 h2 h3 h4
  · exact ⟨_, rfl⟩
  · exact ⟨_, rfl⟩
  · exact ⟨_, rfl⟩
  · exact ⟨_, rfl⟩
  · exfalso
    rcases h with h | h | h | h
    · exact h1 h
    · exact h2 h
    · exact h3 h
    · exact h4 (hp.mpr h)

/-- The inner loop of `CreatePlan` on columns that all match a strategy: one
column plan is appended for each column, in order. -/
theorem createColumnPlans_spec (tableName : Str) :
    ∀ (cols : List (Str × ColumnConfig)) (acc : List ColumnPlan),
      (∀ cc ∈ cols, matchesStrategy cc.2) →
      ∃ new, createColumnPlans tableName cols acc = (some (acc ++ new), none) ∧
        List.Forall₂ columnCompiled cols new := by
  intro cols
  induction cols with
  | nil =>
    intro acc _
    exact ⟨[], by simp [createColumnPlans], List.Forall₂.nil⟩
  | cons cc rest ih =>
    intro acc h
    obtain ⟨columnName, columnConfig⟩ := cc
    obtain ⟨s, hs⟩ := createStrategy_of_matches columnConfig (h _ (List.mem_cons_self _ _))
    obtain ⟨new, hnew, hall⟩ := ih
      (acc ++ [{ Name := columnName, Strategy := s, Formatter := columnConfig.Formatter }])
      (fun cc hcc => h cc (List.mem_cons_of_mem _ hcc))
    refine ⟨{ Name := columnName, Strategy := s, Formatter := columnConfig.Formatter } :: new,
      ?_, List.Forall₂.cons ⟨rfl, rfl, hs⟩ hall⟩
    rw [createColumnPlans]
    simp only [hs]
    rw [hnew]
    simp

/-- The outer loop of `CreatePlan` on tables whose columns all match a strategy:
one table plan is appended for each table, in order. -/
theorem createTablePlans_spec :
    ∀ (tabs : List (Str × TableConfig)) (acc : List TablePlan),
      (∀ tc ∈ tabs, ∀ cc ∈ tc.2.Columns, matchesStrategy cc.2) →
      ∃ new, createTablePlans tabs acc = (some { Tables := acc ++ new }, none) ∧
        List.Forall₂ tableCompiled tabs new := by
  intro tabs
  induction tabs with
  | nil =>
    intro acc _
    exact ⟨[], by simp [createTablePlans], List.Forall₂.nil⟩
  | cons tc rest ih =>
    intro acc h
    obtain ⟨tableName, tableConfig⟩ := tc
    obtain ⟨cols, hcols, hall⟩ := createColumnPlans_spec tableName tableConfig.Columns []
      (h _ (List.mem_cons_self _ _))
    rw [List.nil_append] at hcols
    obtain ⟨new, hnew, hrest⟩ := ih
      (acc ++ [{ Name := tableName, PrimaryKey := tableConfig.PrimaryKey,
                 Where := tableConfig.Where, Limit := tableConfig.Limit,
                 OrderBy := tableConfig.OrderBy, Columns := cols }])
      (fun tc htc => h tc (List.mem_cons_of_mem _ htc))
    refine ⟨{ Name := tableName, PrimaryKey := tableConfig.PrimaryKey,
              Where := tableConfig.Where, Limit := tableConfig.Limit,
              OrderBy := tableConfig.OrderBy, Columns := cols } :: new, ?_,
      List.Forall₂.cons ⟨rfl, rfl, rfl, rfl, rfl, hall⟩ hrest⟩
    rw [createTablePlans]
    simp only [hcols]
    rw [hnew]
    simp

/-- The names of the compiled tables are the configured names, in order. -/
theorem tableCompiled_names :
    ∀ (tabs : List (Str × TableConfig)) (plans : List TablePlan),
      List.Forall₂ tableCompiled tabs plans →
      plans.map TablePlan.Name = tabs.map Prod.fst := by
  intro tabs plans h
  induction h with
  | nil => rfl
  | cons hab _ ih => simp [hab.1, ih]

/-- C22: for every configuration in which each column declaration matches a
strategy, `CreatePlan` succeeds; the plan has exactly one table plan per
configured table, in the order of the visit, with the configured name, filter,
limit, ordering and primary key (empty when not configured), and with exactly one
column plan per configured column, carrying its name, its formatter and the
strategy that `createStrategy` selects; the names of the tables are pairwise
distinct, as the keys of the configuration are.  For the test configuration the
plan has 2 tables, and `customer_entity` has the filter of the configuration and
4 columns tagged faker, fixed, null and expr. -/
theorem CreatePlan_tables (cfg : Config)
    (hmatch : ∀ tc ∈ cfg.Tables, ∀ cc ∈ tc.2.Columns, matchesStrategy cc.2)
    (hkeys : (cfg.Tables.map Prod.fst).Nodup) :
    (∃ plan, CreatePlan cfg = (some plan, none) ∧
      List.Forall₂ tableCompiled cfg.Tables plan.Tables ∧
      plan.Tables.length = cfg.Tables.length ∧
      (plan.Tables.map TablePlan.Name).Nodup) ∧
    ((CreatePlan testConfig).2 = none ∧
      (CreatePlan testConfig).1.map (fun plan => plan.Tables.length) = some 2 ∧
      (CreatePlan testConfig).1.map (fun plan => plan.Tables.map fun t =>
          (t.Name, t.Where, t.PrimaryKey, t.Columns.map fun c => (c.Name, c.Strategy.GetType)))
        = some
          [("customer_entity".toList, "entity_id > 1000".toList, ([] : Str),
            [("email".toList, "faker".toList), ("firstname".toList, "fixed".toList),
             ("lastname".toList, "null".toList), ("description".toList, "expr".toList)]),
           ("sales_order".toList, ([] : Str), ([] : Str), [("customer_email".toList, "faker".toList)])]) := by
  constructor
  · obtain ⟨new, hnew, hall⟩ := createTablePlans_spec cfg.Tables [] hmatch
    rw [List.nil_append] at hnew
    refine ⟨{ Tables := new }, hnew, hall, hall.length_eq.symm, ?_⟩
    rw [tableCompiled_names _ _ hall]
    exact hkeys
  · exact ⟨by decide, by decide, by rfl⟩

/-- Instance of C22 on the test configuration. -/
theorem CreatePlan_tables_witness :
    ∃ plan, CreatePlan testConfig = (some plan, none) ∧ plan.Tables.length = 2 :=
  let ⟨plan, h, _, hlen, _⟩ :=
    (CreatePlan_tables testConfig
      (by
        intro tc htc cc hcc
        simp only [testConfig, List.mem_cons, List.mem_singleton, List.not_mem_nil,
          or_false] at htc
        rcases htc with rfl | rfl
        · simp only [List.mem_cons, List.mem_singleton, List.not_mem_nil, or_false] at hcc
          rcases hcc with rfl | rfl | rfl | rfl
          · exact Or.inr (Or.inr (Or.inr (by decide)))
          · exact Or.inr (Or.inr (Or.inl (by decide)))
          · exact Or.inl rfl
          · exact Or.inr (Or.inl (by decide))
        · simp only [List.mem_cons, List.mem_singleton, List.not_mem_nil, or_false] at hcc
          subst hcc
          exact Or.inr (Or.inr (Or.inr (by decide))))
      (by decide)).1
  ⟨plan, h, hlen⟩

/-! ## The inserted literal and the termination of the substitution -/

/-- A text in which a non-empty pattern is found at position `i` is made of a
text of length `i` in which the pattern does not occur, the pattern, and a
rest. -/
theorem Index_split (pat : Str) (hpat : pat ≠ []) :
    ∀ (s : Str) (i : Nat), Index s pat = some i →
      ∃ X Y, s = X ++ (pat ++ Y) ∧ X.length = i ∧ ¬ pat <:+: X := by
  intro s
  induction s with
  | nil =>
    intro i h
    cases pat with
    | nil => exact absurd rfl hpat
    | cons a as => simp [Index] at h
  | cons c t ih =>
    intro i h
    unfold Index at h
    by_cases hp : pat.isPrefixOf (c :: t) = true
    · rw [if_pos hp] at h
      obtain ⟨Y, hY⟩ := List.isPrefixOf_iff_prefix.mp hp
      refine ⟨[], Y, by simpa using hY.symm, by simpa using h, ?_⟩
      intro hin
      exact hpat (List.eq_nil_of_infix_nil hin)
    · rw [if_neg hp] at h
      cases hj : Index t pat with
      | none => simp [hj] at h
      | some j =>
        rw [hj] at h
        obtain ⟨X, Y, hs, hlen, hX⟩ := ih j hj
        refine ⟨c :: X, Y, by simp [hs], by simpa [hlen] using h, ?_⟩
        intro hin
        rcases List.infix_cons_iff.mp hin with hpre | hin'
        · apply hp
          apply List.isPrefixOf_iff_prefix.mpr
          rw [hs]
          exact hpre.trans (by simp)
        · exact hX hin'

/-- The three shapes of a working text: no opening; a first opening with no
closing delimiter after it; a first placeholder. -/
theorem text_cases (result : Str) :
    ¬ placeholderOpen <:+: result ∨
    (∃ X rest, result = X ++ (placeholderOpen ++ rest) ∧ ¬ placeholderOpen <:+: X ∧
      ¬ placeholderClose <:+: rest) ∨
    (∃ X info W, result = X ++ (placeholderOpen ++ (info ++ (placeholderClose ++ W))) ∧
      ¬ placeholderOpen <:+: X ∧ ¬ placeholderClose <:+: info) := by
  cases hi : Index result placeholderOpen with
  | none => exact Or.inl ((Index_eq_none_iff _ _).mp hi)
  | some i =>
    obtain ⟨X, Y, hs, _, hX⟩ := Index_split placeholderOpen (by decide) result i hi
    cases hj : Index Y placeholderClose with
    | none =>
      exact Or.inr (Or.inl ⟨X, Y, hs, hX, (Index_eq_none_iff _ _).mp hj⟩)
    | some j =>
      obtain ⟨info, W, hY, _, hinfo⟩ := Index_split placeholderClose (by decide) Y j hj
      exact Or.inr (Or.inr ⟨X, info, W, by rw [hs, hY], hX, hinfo⟩)

/-- One iteration of the loop of `ReplaceFakerPlaceholders`, whatever the working
text: either it ends the loop, with the text, with the format error or with the
error of the generator, or the working text is `X`, a first placeholder and `W`
and the loop goes on with `X`, the literal of the generated value and `W`. -/
theorem replaceLoop_cases (g : Generator) (sql result : Str) (calls : Nat) :
    (∃ r, ∀ fuel, replaceLoop g sql (fuel + 1) result calls = some r) ∨
    (∃ X info W, result = X ++ (placeholderOpen ++ (info ++ (placeholderClose ++ W))) ∧
      ¬ placeholderOpen <:+: X ∧ ¬ placeholderClose <:+: info ∧
      ∀ fuel, replaceLoop g sql (fuel + 1) result calls
        = replaceLoop g sql fuel
            (X ++ (quoteLiteral (g.Generate calls (fakerTypeOf info)).1 ++ W)) (calls + 1)) := by
  rcases text_cases result with h | ⟨X, rest, hs, hX, hrest⟩ | ⟨X, info, W, hs, hX, hinfo⟩
  · left
    refine ⟨((result, none), calls), fun fuel => ?_⟩
    rw [replaceLoop, (Index_eq_none_iff _ _).mpr h]
  · left
    refine ⟨(([], some ("invalid faker placeholder format in SQL: ".toList ++ sql)), calls),
      fun fuel => ?_⟩
    rw [hs]
    exact replaceLoop_unterminated g sql X rest calls fuel hX hrest
  · cases hgen : (g.Generate calls (fakerTypeOf info)).2 with
    | some err =>
      left
      refine ⟨(([], some err), calls + 1), fun fuel => ?_⟩
      rw [hs]
      exact replaceLoop_step_error g sql X info W calls fuel hX hinfo err hgen
    | none =>
      right
      refine ⟨X, info, W, hs, hX, hinfo, fun fuel => ?_⟩
      rw [hs]
      exact replaceLoop_step g sql X info W calls fuel hX hinfo hgen

/-- Reading the escaped form of a value, followed by a quote and by a text that
does not start with a quote, gives the value and that text. -/
theorem readLiteralBody_escapeQuotes (rest : Str) (hrest : rest.head? ≠ some quoteChar) :
    ∀ v : Str, readLiteralBody (escapeQuotes v ++ quoteChar :: rest) = some (v, rest) := by
  intro v
  induction v with
  | nil =>
    cases rest with
    | nil => simp [escapeQuotes, readLiteralBody]
    | cons d t =>
      have hd : d ≠ quoteChar := fun e => hrest (by simp [e])
      simp [escapeQuotes, readLiteralBody, hd]
  | cons c v' ih =>
    by_cases hc : c = quoteChar
    · subst hc
      simp [escapeQuotes, readLiteralBody, ih]
    · obtain ⟨d, t, hdt⟩ : ∃ d t, escapeQuotes v' ++ quoteChar :: rest = d :: t := by
        cases h : escapeQuotes v' ++ quoteChar :: rest with
        | nil => simp at h
        | cons d t => exact ⟨d, t, rfl⟩
      have h1 : escapeQuotes (c :: v') ++ quoteChar :: rest = c :: d :: t := by
        simp [escapeQuotes, hc, hdt]
      rw [h1, readLiteralBody, if_neg hc, ← hdt, ih]
      rfl

/-- One iteration of the loop of `ReplaceFakerPlaceholders`, whatever the working
text, is one of four: the text holds no opening and is returned as it is; its
first opening has no closing delimiter after it and the format error is
returned, without text; the generator refuses the type of its first placeholder
and that error is returned, without text; or the first placeholder is replaced
by the literal of the generated value and the loop goes on. -/
theorem replaceLoop_iteration (g : Generator) (sql result : Str) (calls : Nat) :
    (¬ placeholderOpen <:+: result ∧
      ∀ fuel, replaceLoop g sql (fuel + 1) result calls = some ((result, none), calls)) ∨
    (∃ X rest, result = X ++ (placeholderOpen ++ rest) ∧ ¬ placeholderOpen <:+: X ∧
      ¬ placeholderClose <:+: rest ∧
      ∀ fuel, replaceLoop g sql (fuel + 1) result calls
        = some (([], some ("invalid faker placeholder format in SQL: ".toList ++ sql)),
            calls)) ∨
    (∃ X info W err, result = X ++ (placeholderOpen ++ (info ++ (placeholderClose ++ W))) ∧
      ¬ placeholderOpen <:+: X ∧ ¬ placeholderClose <:+: info ∧
      (g.Generate calls (fakerTypeOf info)).2 = some err ∧
      ∀ fuel, replaceLoop g sql (fuel + 1) result calls = some (([], some err), calls + 1)) ∨
    (∃ X info W, result = X ++ (placeholderOpen ++ (info ++ (placeholderClose ++ W))) ∧
      ¬ placeholderOpen <:+: X ∧ ¬ placeholderClose <:+: info ∧
      (g.Generate calls (fakerTypeOf info)).2 = none ∧
      ∀ fuel, replaceLoop g sql (fuel + 1) result calls
        = replaceLoop g sql fuel
            (X ++ (quoteLiteral (g.Generate calls (fakerTypeOf info)).1 ++ W)) (calls + 1)) := by
  rcases text_cases result with h | ⟨X, rest, hs, hX, hrest⟩ | ⟨X, info, W, hs, hX, hinfo⟩
  · refine Or.inl ⟨h, fun fuel => ?_⟩
    rw [replaceLoop, (Index_eq_none_iff _ _).mpr h]
  · refine Or.inr (Or.inl ⟨X, rest, hs, hX, hrest, fun fuel => ?_⟩)
    rw [hs]
    exact replaceLoop_unterminated g sql X rest calls fuel hX hrest
  · cases hgen : (g.Generate calls (fakerTypeOf info)).2 with
    | some err =>
      refine Or.inr (Or.inr (Or.inl ⟨X, info, W, err, hs, hX, hinfo, hgen, fun fuel => ?_⟩))
      rw [hs]
      exact replaceLoop_step_error g sql X info W calls fuel hX hinfo err hgen
    | none =>
      refine Or.inr (Or.inr (Or.inr ⟨X, info, W, hs, hX, hinfo, hgen, fun fuel => ?_⟩))
      rw [hs]
      exact replaceLoop_step g sql X info W calls fuel hX hinfo hgen

/-- C21, as stated, fails for two kinds of input.  By the rules of MySQL in its
default mode, where a backslash escapes the next character, the literal inserted
for the value `\'; DROP TABLE users; -- ` ends after its third character: the
reader gets the value `'` and the rest of the value is read as SQL.  And by the
standard rules, when the text after the placeholder starts with a quote, the
closing quote of the literal is read with it as a doubled quote: for the value
`a` before `'b' x` the reader gets `a'b`. -/
theorem inserted_literal_breaks :
    quoteLiteral "\x5c\x27; DROP TABLE users; -- ".toList
      = "\x27\x5c\x27\x27; DROP TABLE users; -- \x27".toList ∧
    readLiteralMySQL
        (quoteLiteral "\x5c\x27; DROP TABLE users; -- ".toList ++ " WHERE id = 1".toList)
      = some ("\x27".toList, "; DROP TABLE users; -- \x27 WHERE id = 1".toList) ∧
    readLiteral (quoteLiteral "a".toList ++ "\x27b\x27 x".toList)
      = some ("a\x27b".toList, " x".toList) := by
  decide

/-- C21, amended: every value that the substitutor inserts is a string literal
escaped by the rule of standard SQL.  An iteration of the loop does one of four
things, and only in the last one does it insert anything: it returns the text,
which holds no opening; it returns the format error; it returns the error of the
generator; or it replaces the first placeholder by `quoteLiteral` of the
generated value and goes on.  For every value `v` that text is a quote, `v` with
each quote doubled, and a quote; unescaping it gives `v` back; and a reader for
which the doubled quote is the only escape, meeting it before a text that does
not start with a quote, reads exactly `v` and stops at the end of the inserted
text. -/
theorem inserted_literal_escaped (g : Generator) (sql result : Str) (calls : Nat) (v rest : Str)
    (hrest : rest.head? ≠ some quoteChar) :
    ((¬ placeholderOpen <:+: result ∧
        ∀ fuel, replaceLoop g sql (fuel + 1) result calls = some ((result, none), calls)) ∨
      (∃ X tail, result = X ++ (placeholderOpen ++ tail) ∧ ¬ placeholderOpen <:+: X ∧
        ¬ placeholderClose <:+: tail ∧
        ∀ fuel, replaceLoop g sql (fuel + 1) result calls
          = some (([], some ("invalid faker placeholder format in SQL: ".toList ++ sql)),
              calls)) ∨
      (∃ X info W err, result = X ++ (placeholderOpen ++ (info ++ (placeholderClose ++ W))) ∧
        ¬ placeholderOpen <:+: X ∧ ¬ placeholderClose <:+: info ∧
        (g.Generate calls (fakerTypeOf info)).2 = some err ∧
        ∀ fuel, replaceLoop g sql (fuel + 1) result calls
          = some (([], some err), calls + 1)) ∨
      (∃ X info W, result = X ++ (placeholderOpen ++ (info ++ (placeholderClose ++ W))) ∧
        ¬ placeholderOpen <:+: X ∧ ¬ placeholderClose <:+: info ∧
        (g.Generate calls (fakerTypeOf info)).2 = none ∧
        ∀ fuel, replaceLoop g sql (fuel + 1) result calls
          = replaceLoop g sql fuel
              (X ++ (quoteLiteral (g.Generate calls (fakerTypeOf info)).1 ++ W))
              (calls + 1))) ∧
    quoteLiteral v = [quoteChar] ++ escapeQuotes v ++ [quoteChar] ∧
    unescapeLiteral (quoteLiteral v) = v ∧
    readLiteral (quoteLiteral v ++ rest) = some (v, rest) := by
  refine ⟨replaceLoop_iteration g sql result calls, ?_, ?_, ?_⟩
  · simp [quoteLiteral_eq]
  · rw [quoteLiteral_eq, unescapeLiteral]
    have h : ((quoteChar :: (escapeQuotes v ++ [quoteChar])).drop 1).dropLast
        = escapeQuotes v := by
      simp
    rw [h]
    exact replaceAllAux_unquote v _ (Nat.lt_succ_self _)
  · rw [quoteLiteral_eq]
    have h : (quoteChar :: (escapeQuotes v ++ [quoteChar])) ++ rest
        = quoteChar :: (escapeQuotes v ++ quoteChar :: rest) := by
      simp
    rw [h, readLiteral, if_pos rfl]
    exact readLiteralBody_escapeQuotes rest hrest v

/-- Instance of C21 amended: the value `O'Reilly` before the rest of a
statement. -/
theorem inserted_literal_escaped_witness :
    quoteLiteral "O\x27Reilly".toList = "\x27O\x27\x27Reilly\x27".toList ∧
    readLiteral ("\x27O\x27\x27Reilly\x27 WHERE id = 1".toList)
      = some ("O\x27Reilly".toList, " WHERE id = 1".toList) :=
  ⟨by decide,
   (inserted_literal_escaped sampleGenerator [] [] 0 "O\x27Reilly".toList " WHERE id = 1".toList
      (by decide)).2.2.2⟩

/-- A pattern with no character `q` occurs in `A ++ q :: B` as often as in `A`
and in `B` together: no occurrence spans the `q`. -/
theorem occurrences_append_cons (q : Char) (pat : Str) (hq : q ∉ pat) (hpat : pat ≠ []) (B : Str) :
    ∀ A : Str, occurrences pat (A ++ q :: B) = occurrences pat A + occurrences pat B := by
  intro A
  induction A with
  | nil =>
    have hnp : ¬ pat.isPrefixOf (q :: B) = true := by
      intro hp
      have h1 := List.isPrefixOf_iff_prefix.mp hp
      cases pat with
      | nil => exact hpat rfl
      | cons y ys =>
        have h2 := (List.cons_prefix_cons.mp h1).1
        exact hq (h2 ▸ List.mem_cons_self _ _)
    simp [occurrences, hnp]
  | cons a A' ih =>
    have hiff : (pat.isPrefixOf (a :: (A' ++ q :: B)) = true) ↔ (pat.isPrefixOf (a :: A') = true) := by
      rw [List.isPrefixOf_iff_prefix, List.isPrefixOf_iff_prefix]
      constructor
      · intro h
        exact prefix_of_prefix_append_cons q pat hq (a :: A') B h
      · intro h
        exact h.trans (List.prefix_append (a :: A') (q :: B))
    have e1 : occurrences pat (a :: (A' ++ q :: B))
        = (if pat.isPrefixOf (a :: (A' ++ q :: B)) then 1 else 0)
          + occurrences pat (A' ++ q :: B) := rfl
    have e2 : occurrences pat (a :: A')
        = (if pat.isPrefixOf (a :: A') then 1 else 0) + occurrences pat A' := rfl
    by_cases hp : pat.isPrefixOf (a :: A') = true
    · have hp' := hiff.mpr hp
      rw [List.cons_append, e1, e2, ih, if_pos hp, if_pos hp']
      omega
    · have hp' : ¬ pat.isPrefixOf (a :: (A' ++ q :: B)) = true := fun h => hp (hiff.mp h)
      rw [List.cons_append, e1, e2, ih, if_neg hp, if_neg hp']
      omega

/-- A pattern that does not occur in a text occurs zero times in it. -/
theorem occurrences_eq_zero (pat : Str) : ∀ s : Str, ¬ pat <:+: s → occurrences pat s = 0 := by
  intro s
  induction s with
  | nil => intro _; rfl
  | cons c t ih =>
    intro h
    have hp : ¬ pat.isPrefixOf (c :: t) = true := fun hp =>
      h (List.isPrefixOf_iff_prefix.mp hp).isInfix
    have ht : ¬ pat <:+: t := fun ht => h (List.infix_cons_iff.mpr (Or.inr ht))
    simp [occurrences, hp, ih ht]

/-- A pattern occurs at least once in a non-empty text that it starts. -/
theorem occurrences_pos (pat : Str) (c : Char) (t : Str) (h : pat <+: c :: t) :
    1 ≤ occurrences pat (c :: t) := by
  have hp : pat.isPrefixOf (c :: t) = true := List.isPrefixOf_iff_prefix.mpr h
  simp [occurrences, hp]

/-- Escaping brings in no `[FAKER:`. -/
theorem not_tag_infix_escapeQuotes :
    ∀ v : Str, ¬ placeholderTag <:+: v → ¬ placeholderTag <:+: escapeQuotes v := by
  intro v
  induction v with
  | nil => intro h; simpa [escapeQuotes] using h
  | cons c v' ih =>
    intro hv
    have hv' : ¬ placeholderTag <:+: v' := fun h => hv (List.infix_cons_iff.mpr (Or.inr h))
    by_cases hc : c = quoteChar
    · subst hc
      simp only [escapeQuotes, if_true]
      intro h
      rcases List.infix_cons_iff.mp h with h | h
      · exact absurd (List.cons_prefix_cons.mp h).1 (by decide)
      · rcases List.infix_cons_iff.mp h with h | h
        · exact absurd (List.cons_prefix_cons.mp h).1 (by decide)
        · exact ih hv' h
    · simp only [escapeQuotes, hc, if_false]
      intro h
      rcases List.infix_cons_iff.mp h with h | h
      · apply hv
        have h1 : placeholderTag <+: escapeQuotes (c :: v') ++ quoteChar :: [] := by
          simp only [escapeQuotes, hc, if_false]
          exact h.trans (List.prefix_append _ _)
        exact (prefix_of_prefix_escapeQuotes _ quoteChar_not_mem_placeholderTag (c :: v') [] h1).isInfix
      · exact ih hv' h

/-- The replacement of a placeholder by the literal of a value that holds no
`[FAKER:` leaves fewer occurrences of `[FAKER:` in the text. -/
theorem occurrences_step (X info W v : Str) (hv : ¬ placeholderTag <:+: v) :
    occurrences placeholderTag (X ++ (quoteLiteral v ++ W))
      < occurrences placeholderTag
          (X ++ (placeholderOpen ++ (info ++ (placeholderClose ++ W)))) := by
  have hne : placeholderTag ≠ [] := by decide
  have hq := quoteChar_not_mem_placeholderTag
  have hold : X ++ (placeholderOpen ++ (info ++ (placeholderClose ++ W)))
      = X ++ quoteChar :: ((placeholderTag ++ (info ++ [']'])) ++ quoteChar :: W) := by
    simp [placeholderOpen, placeholderClose, placeholderTag]
  have hnew : X ++ (quoteLiteral v ++ W) = X ++ quoteChar :: (escapeQuotes v ++ quoteChar :: W) := by
    simp [quoteLiteral_eq]
  rw [hold, hnew, occurrences_append_cons quoteChar _ hq hne, occurrences_append_cons quoteChar _ hq hne,
    occurrences_append_cons quoteChar _ hq hne, occurrences_append_cons quoteChar _ hq hne,
    occurrences_eq_zero _ _ (not_tag_infix_escapeQuotes v hv)]
  have hpos : 1 ≤ occurrences placeholderTag (placeholderTag ++ (info ++ [']'])) :=
    occurrences_pos placeholderTag '[' _ (by
      show placeholderTag <+: placeholderTag ++ (info ++ [']'])
      exact List.prefix_append _ _)
  omega

/-- The loop of `ReplaceFakerPlaceholders` ends within one iteration more than
there are occurrences of `[FAKER:` in the working text, when no generated value
holds that text. -/
theorem replaceLoop_terminates (g : Generator)
    (hclean : ∀ n t, ¬ placeholderTag <:+: (g.Generate n t).1) (sql : Str) :
    ∀ (fuel : Nat) (result : Str) (calls : Nat), occurrences placeholderTag result < fuel →
      ∃ r, replaceLoop g sql fuel result calls = some r := by
  intro fuel
  induction fuel with
  | zero => intro result calls h; omega
  | succ n ih =>
    intro result calls h
    rcases replaceLoop_cases g sql result calls with ⟨r, hr⟩ | ⟨X, info, W, hs, _, _, hstep⟩
    · exact ⟨r, hr n⟩
    · have hdec := occurrences_step X info W _ (hclean calls (fakerTypeOf info))
      rw [← hs] at hdec
      rw [hstep n]
      exact ih _ _ (by omega)

/-- C25: when no generated value holds the text `[FAKER:`, every iteration of
the loop of `ReplaceFakerPlaceholders` either ends the loop or goes on with a
working text that holds strictly fewer occurrences of `[FAKER:`; hence the
routine returns on every input text, within one iteration more than the text
has occurrences of `[FAKER:`. -/
theorem ReplaceFakerPlaceholders_terminates (g : Generator)
    (hclean : ∀ n t, ¬ placeholderTag <:+: (g.Generate n t).1) :
    (∀ (sql result : Str) (calls : Nat),
      (∃ r, ∀ fuel, replaceLoop g sql (fuel + 1) result calls = some r) ∨
      (∃ result', occurrences placeholderTag result' < occurrences placeholderTag result ∧
        ∀ fuel, replaceLoop g sql (fuel + 1) result calls
          = replaceLoop g sql fuel result' (calls + 1))) ∧
    (∀ (sql : Str) (calls fuel : Nat), occurrences placeholderTag sql < fuel →
      ∃ r, ReplaceFakerPlaceholders g fuel calls sql = some r) := by
  constructor
  · intro sql result calls
    rcases replaceLoop_cases g sql result calls with h | ⟨X, info, W, hs, _, _, hstep⟩
    · exact Or.inl h
    · right
      refine ⟨_, ?_, hstep⟩
      rw [hs]
      exact occurrences_step X info W _ (hclean calls (fakerTypeOf info))
  · intro sql calls fuel h
    exact replaceLoop_terminates g hclean sql fuel sql calls h

/-- The values of a generator whose library returns no `[FAKER:` hold no
`[FAKER:`. -/
theorem Generate_clean (g : Generator) (hlib : ∀ f n, ¬ placeholderTag <:+: g.lib f n)
    (n : Nat) (t : Str) : ¬ placeholderTag <:+: (g.Generate n t).1 := by
  by_cases hs : g.ToLower t ∈ GetSupportedTypes
  · have hm : ∀ s : Str, s ∈ GetSupportedTypes →
        ∀ t' : Str, g.ToLower t' = s → ¬ placeholderTag <:+: (g.Generate n t').1 := by
      intro s hs
      simp only [GetSupportedTypes, List.map, List.mem_cons, List.mem_singleton,
        List.not_mem_nil, or_false] at hs
      intro t' ht'
      rcases hs with h | h | h | h | h | h | h | h | h | h | h | h | h | h | h | h | h | h | h
        | h | h | h | h | h | h <;>
      · subst h
        simp only [Generator.Generate, ht']
        first
          | exact hlib _ _
          | exact (by decide : ¬ placeholderTag <:+: "123 Main St".toList)
          | exact (by decide : ¬ placeholderTag <:+: "New York".toList)
          | exact (by decide : ¬ placeholderTag <:+: "NY".toList)
          | exact (by decide : ¬ placeholderTag <:+: "10001".toList)
          | exact (by decide : ¬ placeholderTag <:+: "USA".toList)
          | exact (by decide : ¬ placeholderTag <:+: "Acme Inc".toList)
          | exact (by decide : ¬ placeholderTag <:+: "Software Engineer".toList)
          | exact (by decide : ¬ placeholderTag <:+: "123456789".toList)
          | exact (by decide : ¬ placeholderTag <:+: "This is a sample sentence.".toList)
          | exact (by decide : ¬ placeholderTag <:+:
              ("This is a sample paragraph. It contains multiple sentences. "
                ++ "This is used for testing purposes.").toList)
    exact hm _ hs t rfl
  · rw [Generate_unsupported g n t hs]
    exact (by decide : ¬ placeholderTag <:+: ([] : Str))

/-- The values of the sample generator hold no `[FAKER:`. -/
theorem sampleGenerator_clean (n : Nat) (t : Str) :
    ¬ placeholderTag <:+: (sampleGenerator.Generate n t).1 := by
  apply Generate_clean
  intro f m
  show ¬ placeholderTag <:+: (if m = 0 then "ann@example.org".toList else "bob@example.org".toList)
  split <;> decide

/-- Instance of C25: the text with two placeholders of the instance of C3 has two
occurrences of `[FAKER:` and is substituted within three iterations. -/
theorem ReplaceFakerPlaceholders_terminates_witness :
    occurrences placeholderTag
        ("UPDATE t SET a = \x27[FAKER:email:t:a]\x27, b = \x27[FAKER:email:t:a]\x27 "
          ++ "WHERE id = 1").toList = 2 ∧
    ∃ r, ReplaceFakerPlaceholders sampleGenerator 3 0
        ("UPDATE t SET a = \x27[FAKER:email:t:a]\x27, b = \x27[FAKER:email:t:a]\x27 "
          ++ "WHERE id = 1").toList = some r :=
  ⟨by decide,
   (ReplaceFakerPlaceholders_terminates sampleGenerator sampleGenerator_clean).2 _ 0 3
      (by decide)⟩

/-! ## The worker pool -/

/-- A step of the worker pool keeps the invariant. -/
theorem PoolState.step_inv (maxWorkers : Nat) (s s' : PoolState) (ev : PoolEvent)
    (hinv : s.inv maxWorkers) (hstep : s.step maxWorkers ev = some s') : s'.inv maxWorkers := by
  obtain ⟨h1, h2⟩ := hinv
  cases ev with
  | send =>
    cases hp : s.pending with
    | nil => simp [PoolState.step, hp] at hstep
    | cons u rest =>
      by_cases hlt : s.pool < maxWorkers
      · simp only [PoolState.step, hp, hlt, if_true, Option.some.injEq] at hstep
        subst hstep
        constructor
        · simp only [List.length_append, List.length_singleton]
          omega
        · show s.pool + 1 ≤ maxWorkers
          omega
      · simp [PoolState.step, hp, hlt] at hstep
  | finish u =>
    by_cases hu : u ∈ s.executing
    · simp only [PoolState.step, hu, if_true, Option.some.injEq] at hstep
      subst hstep
      have hpos : 0 < s.executing.length := List.length_pos_of_mem hu
      constructor
      · simp only [List.length_append, List.length_singleton, List.length_erase_of_mem hu]
        omega
      · exact h2
    · simp [PoolState.step, hu] at hstep
  | release u =>
    by_cases hu : u ∈ s.releasing ∧ 0 < s.pool
    · simp only [PoolState.step, hu, and_self, if_true, Option.some.injEq] at hstep
      subst hstep
      have hpos : 0 < s.releasing.length := List.length_pos_of_mem hu.1
      constructor
      · simp only [List.length_erase_of_mem hu.1]
        omega
      · show s.pool - 1 ≤ maxWorkers
        omega
    · simp [PoolState.step, hu] at hstep
  | handoff u =>
    cases hp : s.pending with
    | nil => simp [PoolState.step, hp] at hstep
    | cons v rest =>
      by_cases hu : maxWorkers = 0 ∧ u ∈ s.releasing
      · simp only [PoolState.step, hp, hu, and_self, if_true, Option.some.injEq] at hstep
        subst hstep
        have hpos : 0 < s.releasing.length := List.length_pos_of_mem hu.2
        constructor
        · simp only [List.length_append, List.length_singleton, List.length_erase_of_mem hu.2]
          omega
        · exact h2
      · simp [PoolState.step, hp, hu] at hstep

/-- A run of the worker pool keeps the invariant. -/
theorem PoolState.run_inv (maxWorkers : Nat) :
    ∀ (events : List PoolEvent) (s s' : PoolState), s.inv maxWorkers →
      PoolState.run maxWorkers s events = some s' → s'.inv maxWorkers := by
  intro events
  induction events with
  | nil =>
    intro s s' hinv hrun
    simp only [PoolState.run, Option.some.injEq] at hrun
    exact hrun ▸ hinv
  | cons ev evs ih =>
    intro s s' hinv hrun
    cases hs : s.step maxWorkers ev with
    | none => simp [PoolState.run, hs] at hrun
    | some s₁ =>
      simp only [PoolState.run, hs] at hrun
      exact ih s₁ s' (PoolState.step_inv maxWorkers s s₁ ev hinv hs) hrun

/-- C24: the worker pool is a counting admission gate.  In every state that the
pool of `Execute` reaches from its start (empty channel, no goroutine), whatever
the order of the events, at most `maxWorkers` chunk units are executing: each
goroutine started and not yet released accounts for one element of the channel,
which holds at most `maxWorkers`.  When `maxWorkers` units are executing no
further unit can be started: the send of the main loop is blocked until the body
of a goroutine has returned and its deferred function has received from the
channel. -/
theorem workerPool_admission (maxWorkers : Nat) (units : List ChunkUnit)
    (events : List PoolEvent) (s : PoolState)
    (hrun : PoolState.run maxWorkers { pending := units } events = some s) :
    s.executing.length ≤ maxWorkers ∧
    s.executing.length + s.releasing.length = s.pool ∧
    s.pool ≤ maxWorkers ∧
    (s.executing.length = maxWorkers →
      s.step maxWorkers .send = none ∧ ∀ u, s.step maxWorkers (.handoff u) = none) := by
  have hinit : PoolState.inv maxWorkers { pending := units } := ⟨rfl, Nat.zero_le _⟩
  obtain ⟨h1, h2⟩ := PoolState.run_inv maxWorkers events _ s hinit hrun
  refine ⟨by omega, h1, h2, ?_⟩
  intro hfull
  have hpool : ¬ s.pool < maxWorkers := by omega
  have hrel : s.releasing = [] := List.length_eq_zero.mp (by omega)
  constructor
  · cases hp : s.pending with
    | nil => simp [PoolState.step, hp]
    | cons u rest => simp [PoolState.step, hp, hpool]
  · intro u
    cases hp : s.pending with
    | nil => simp [PoolState.step, hp]
    | cons v rest => simp [PoolState.step, hp, hrel]

/-- Instance of C24 with two workers and three units: three units cannot be
started in a row; after two units have been started, one has finished and
released its slot and the third has been started, two units are executing and
the pool lets no further one in. -/
theorem workerPool_admission_witness :
    PoolState.run 2 { pending := threeUnits } [.send, .send, .send] = none ∧
    PoolState.run 2 { pending := threeUnits }
        [.send, .send, .finish { table := "users".toList, offset := 1 },
         .release { table := "users".toList, offset := 1 }, .send]
      = some { pending := [], pool := 2,
               executing := [{ table := "users".toList, offset := 1001 },
                             { table := "users".toList, offset := 2001 }],
               releasing := [] } ∧
    ([{ table := "users".toList, offset := 1001 },
      { table := "users".toList, offset := 2001 }] : List ChunkUnit).length ≤ 2 :=
  ⟨by decide, by decide,
   (workerPool_admission 2 threeUnits
      [.send, .send, .finish { table := "users".toList, offset := 1 },
       .release { table := "users".toList, offset := 1 }, .send]
      { pending := [], pool := 2,
        executing := [{ table := "users".toList, offset := 1001 },
                      { table := "users".toList, offset := 2001 }],
        releasing := [] }
      (by decide)).1⟩

/-! ## The report -/

/-- The two cases of `addResult`. -/
theorem addResult_cases (tm : List report.TableReport) (r : report.ExecutionResult) :
    (r.TableName ∈ tm.map report.TableReport.Name ∧
      report.addResult tm r = tm.map (appendField r.TableName (fieldOf r))) ∨
    (r.TableName ∉ tm.map report.TableReport.Name ∧
      report.addResult tm r
        = tm ++ [{ Name := r.TableName, RowsScanned := r.RowsScanned,
                   RowsAffected := r.RowsAffected, Fields := [fieldOf r] }]) := by
  unfold report.addResult
  cases hf : tm.find? (fun t => t.Name = r.TableName) with
  | some t =>
    left
    have hm := List.mem_of_find?_eq_some hf
    have hn : t.Name = r.TableName := by simpa using List.find?_some hf
    exact ⟨List.mem_map.mpr ⟨t, hm, hn⟩, rfl⟩
  | none =>
    right
    refine ⟨?_, rfl⟩
    intro hmem
    obtain ⟨t, ht, hn⟩ := List.mem_map.mp hmem
    have := List.find?_eq_none.mp hf t ht
    simp [hn] at this

/-- The update of a table report keeps its name. -/
theorem appendField_Name (n : Str) (f : report.FieldReport) (t : report.TableReport) :
    (appendField n f t).Name = t.Name := by
  unfold appendField
  split <;> rfl

/-- The update leaves alone a list of reports of other names. -/
theorem map_appendField_of_not_mem (n : Str) (f : report.FieldReport) :
    ∀ tm : List report.TableReport, n ∉ tm.map report.TableReport.Name →
      tm.map (appendField n f) = tm := by
  intro tm
  induction tm with
  | nil => intro _; rfl
  | cons t rest ih =>
    intro h
    have h1 : t.Name ≠ n := fun e => h (by simp [e])
    have h2 : n ∉ rest.map report.TableReport.Name := fun hm => h (by simp at hm ⊢; exact Or.inr hm)
    simp [appendField, h1, ih h2]

/-- The update adds one field entry in all, the names being distinct. -/
theorem fieldTotal_map_appendField (n : Str) (f : report.FieldReport) :
    ∀ tm : List report.TableReport, (tm.map report.TableReport.Name).Nodup →
      n ∈ tm.map report.TableReport.Name →
      fieldTotal (tm.map (appendField n f)) = fieldTotal tm + 1 := by
  intro tm
  induction tm with
  | nil => intro _ h; simp at h
  | cons t rest ih =>
    intro hnd hmem
    rw [List.map_cons, List.nodup_cons] at hnd
    by_cases h1 : t.Name = n
    · have h2 : n ∉ rest.map report.TableReport.Name := h1 ▸ hnd.1
      rw [List.map_cons, map_appendField_of_not_mem n f rest h2]
      simp only [fieldTotal, appendField, h1, if_true, List.map_cons, List.sum_cons,
        List.length_append, List.length_singleton]
      push_cast
      omega
    · have h2 : n ∈ rest.map report.TableReport.Name := by
        rw [List.map_cons, List.mem_cons] at hmem
        rcases hmem with h | h
        · exact absurd h.symm h1
        · exact h
      have := ih hnd.2 h2
      simp only [fieldTotal, List.map_cons, List.sum_cons, appendField, h1, if_false] at this ⊢
      omega

/-- The names of the table reports stay pairwise distinct. -/
theorem addResult_nodup (tm : List report.TableReport) (r : report.ExecutionResult)
    (h : (tm.map report.TableReport.Name).Nodup) :
    ((report.addResult tm r).map report.TableReport.Name).Nodup := by
  rcases addResult_cases tm r with ⟨_, he⟩ | ⟨hn, he⟩
  · rw [he, List.map_map]
    have : (report.TableReport.Name ∘ appendField r.TableName (fieldOf r))
        = report.TableReport.Name := by
      funext t
      exact appendField_Name _ _ t
    rw [this]
    exact h
  · rw [he, List.map_append]
    refine List.Nodup.append h (by simp) ?_
    intro a ha hb
    simp only [List.map_cons, List.map_nil, List.mem_singleton] at hb
    exact hn (hb ▸ ha)

/-- One more error-free result is one more field entry. -/
theorem addResult_fieldTotal (tm : List report.TableReport) (r : report.ExecutionResult)
    (h : (tm.map report.TableReport.Name).Nodup) :
    fieldTotal (report.addResult tm r) = fieldTotal tm + 1 := by
  rcases addResult_cases tm r with ⟨hm, he⟩ | ⟨_, he⟩
  · rw [he]
    exact fieldTotal_map_appendField _ _ tm h hm
  · rw [he]
    simp [fieldTotal, List.map_append, List.sum_append]

/-- The grouping loop: names stay distinct, the error count grows by the number
of results that carry an error, and the field entries by the number of the
others. -/
theorem groupResults_counts :
    ∀ (results : List report.ExecutionResult) (tm : List report.TableReport) (ec : Int),
      (tm.map report.TableReport.Name).Nodup →
      ((report.groupResults results tm ec).1.map report.TableReport.Name).Nodup ∧
      (report.groupResults results tm ec).2
        = ec + ((results.filter fun r => r.Error ≠ none).length : Int) ∧
      fieldTotal (report.groupResults results tm ec).1
        = fieldTotal tm + ((results.filter fun r => r.Error = none).length : Int) := by
  intro results
  induction results with
  | nil => intro tm ec h; simp [report.groupResults, h]
  | cons r rest ih =>
    intro tm ec h
    by_cases he : r.Error = none
    · obtain ⟨h1, h2, h3⟩ := ih (report.addResult tm r) ec (addResult_nodup tm r h)
      rw [report.groupResults]
      simp only [he, ne_eq, not_true_eq_false, if_false]
      refine ⟨h1, ?_, ?_⟩
      · rw [h2]
        simp [he]
      · rw [h3, addResult_fieldTotal tm r h]
        simp [he]
        omega
    · obtain ⟨h1, h2, h3⟩ := ih tm (ec + 1) h
      rw [report.groupResults]
      simp only [he, ne_eq, not_false_eq_true, if_true]
      refine ⟨h1, ?_, ?_⟩
      · rw [h2]
        simp [he]
        omega
      · rw [h3]
        simp [he]

/-- The grouping loop: each table report of the outcome either comes from a
report that was there, with the same row counts and with the field entries of
the results of its table appended, or is new, with the row counts of the first
error-free result of its table and the field entries of the results of its
table. -/
theorem groupResults_tables :
    ∀ (results : List report.ExecutionResult) (tm : List report.TableReport) (ec : Int),
      ∀ T ∈ (report.groupResults results tm ec).1,
        (∃ T₀ ∈ tm, T.Name = T₀.Name ∧ T.RowsScanned = T₀.RowsScanned ∧
          T.RowsAffected = T₀.RowsAffected ∧
          T.Fields = T₀.Fields ++ fieldsOf results T₀.Name) ∨
        (T.Name ∉ tm.map report.TableReport.Name ∧
          ∃ r, firstResult results T.Name = some r ∧ T.RowsScanned = r.RowsScanned ∧
            T.RowsAffected = r.RowsAffected ∧ T.Fields = fieldsOf results T.Name) := by
  intro results
  induction results with
  | nil =>
    intro tm ec T hT
    left
    exact ⟨T, hT, rfl, rfl, rfl, by simp [fieldsOf]⟩
  | cons r rest ih =>
    intro tm ec T hT
    by_cases he : r.Error = none
    · rw [report.groupResults] at hT
      simp only [he, ne_eq, not_true_eq_false, if_false] at hT
      have hfo : ∀ n, n ≠ r.TableName → fieldsOf (r :: rest) n = fieldsOf rest n := by
        intro n hn
        have : ¬ r.TableName = n := fun e => hn e.symm
        simp [fieldsOf, List.filter_cons, he, this]
      have hfs : fieldsOf (r :: rest) r.TableName = fieldOf r :: fieldsOf rest r.TableName := by
        simp [fieldsOf, List.filter_cons, he, fieldOf]
      have hfi : ∀ n, n ≠ r.TableName → firstResult (r :: rest) n = firstResult rest n := by
        intro n hn
        have : ¬ r.TableName = n := fun e => hn e.symm
        simp [firstResult, List.find?_cons, he, this]
      have hfr : firstResult (r :: rest) r.TableName = some r := by
        simp [firstResult, List.find?_cons, he]
      rcases addResult_cases tm r with ⟨hm, hadd⟩ | ⟨hn, hadd⟩
      · rw [hadd] at hT
        rcases ih _ ec T hT with ⟨T₁, hT₁, e1, e2, e3, e4⟩ | ⟨hnot, r', f1, f2, f3, f4⟩
        · obtain ⟨T₀, hT₀, rfl⟩ := List.mem_map.mp hT₁
          left
          refine ⟨T₀, hT₀, ?_⟩
          by_cases hname : T₀.Name = r.TableName
          · simp only [appendField, hname, if_true] at e1 e2 e3 e4
            refine ⟨by rw [e1, hname], e2, e3, ?_⟩
            rw [e4, hname, hfs]
            simp
          · simp only [appendField, hname, if_false] at e1 e2 e3 e4
            exact ⟨e1, e2, e3, by rw [e4, hfo _ hname]⟩
        · right
          have hnames : (tm.map (appendField r.TableName (fieldOf r))).map report.TableReport.Name
              = tm.map report.TableReport.Name := by
            rw [List.map_map]
            congr 1
            funext t
            exact appendField_Name _ _ t
          rw [hnames] at hnot
          have hne : T.Name ≠ r.TableName := fun e => hnot (e ▸ hm)
          exact ⟨hnot, r', by rw [hfi _ hne]; exact f1, f2, f3, by rw [hfo _ hne]; exact f4⟩
      · rw [hadd] at hT
        rcases ih _ ec T hT with ⟨T₁, hT₁, e1, e2, e3, e4⟩ | ⟨hnot, r', f1, f2, f3, f4⟩
        · rcases List.mem_append.mp hT₁ with hin | hin
          · left
            have hne : T₁.Name ≠ r.TableName := fun e => hn (e ▸ List.mem_map.mpr ⟨T₁, hin, rfl⟩)
            exact ⟨T₁, hin, e1, e2, e3, by rw [e4, hfo _ hne]⟩
          · right
            rw [List.mem_singleton] at hin
            subst hin
            simp only at e1 e2 e3 e4
            refine ⟨by rw [e1]; exact hn, r, by rw [e1]; exact hfr, e2, e3, ?_⟩
            rw [e4, e1, hfs]
            rfl
        · right
          rw [List.map_append, List.mem_append, not_or] at hnot
          have hne : T.Name ≠ r.TableName := fun e => hnot.2 (by simp [e])
          exact ⟨hnot.1, r', by rw [hfi _ hne]; exact f1, f2, f3, by rw [hfo _ hne]; exact f4⟩
    · rw [report.groupResults] at hT
      simp only [he, ne_eq, not_false_eq_true, if_true] at hT
      have hfo : ∀ n, fieldsOf (r :: rest) n = fieldsOf rest n := by
        intro n
        simp [fieldsOf, List.filter_cons, he]
      have hfi : ∀ n, firstResult (r :: rest) n = firstResult rest n := by
        intro n
        simp [firstResult, List.find?_cons, he]
      rcases ih tm (ec + 1) T hT with ⟨T₀, hT₀, e1, e2, e3, e4⟩ | ⟨hnot, r', f1, f2, f3, f4⟩
      · left
        exact ⟨T₀, hT₀, e1, e2, e3, by rw [e4, hfo]⟩
      · right
        exact ⟨hnot, r', by rw [hfi]; exact f1, f2, f3, by rw [hfo]; exact f4⟩

/-- The summary loop adds up the field entries and the row counts of the table
reports. -/
theorem summarize_spec :
    ∀ (tables : List report.TableReport) (s : report.Summary),
      report.summarize tables s
        = { TotalTables := s.TotalTables,
            TotalFields := s.TotalFields + fieldTotal tables,
            TotalRowsScanned := s.TotalRowsScanned
              + (tables.map report.TableReport.RowsScanned).sum,
            TotalRowsAffected := s.TotalRowsAffected
              + (tables.map report.TableReport.RowsAffected).sum } := by
  intro tables
  induction tables with
  | nil => intro s; simp [report.summarize, fieldTotal]
  | cons t rest ih =>
    intro s
    rw [report.summarize, ih]
    simp only [fieldTotal, List.map_cons, List.sum_cons]
    congr 1 <;> omega

/-- C29: in the report of `GenerateReport`, the rows scanned and affected of a
table are those of the first error-free result of that table in the input; every
error-free result of the table adds a field entry and none changes the row
counts.  The table names are pairwise distinct, the total of fields is the
number of error-free results, and the totals of rows are the sums of the table
figures.  For a table processed in two chunks of 1000 and 500 rows the table
figures and the totals are 1000, those of the first chunk and not the sum 1500,
while the total of fields is 2. -/
theorem GenerateReport_first_result (g : report.Generator)
    (results : List report.ExecutionResult) :
    (∀ T ∈ (g.GenerateReport results).Tables,
      ∃ r, firstResult results T.Name = some r ∧ T.RowsScanned = r.RowsScanned ∧
        T.RowsAffected = r.RowsAffected ∧ T.Fields = fieldsOf results T.Name) ∧
    ((g.GenerateReport results).Tables.map report.TableReport.Name).Nodup ∧
    (g.GenerateReport results).Summary.TotalTables = (g.GenerateReport results).Tables.length ∧
    (g.GenerateReport results).Summary.TotalFields
      = (results.filter fun r => r.Error = none).length ∧
    (g.GenerateReport results).Summary.TotalRowsScanned
      = ((g.GenerateReport results).Tables.map report.TableReport.RowsScanned).sum ∧
    (g.GenerateReport results).Summary.TotalRowsAffected
      = ((g.GenerateReport results).Tables.map report.TableReport.RowsAffected).sum ∧
    (g.GenerateReport results).Errors.Count
      = (results.filter fun r => r.Error ≠ none).length ∧
    (sampleReporter.GenerateReport twoChunkResults).Tables
      = [{ Name := "users".toList, RowsScanned := 1000, RowsAffected := 1000,
           Fields := [{ Name := "email".toList, Strategy := "faker".toList, RowsAffected := 1000 },
                      { Name := "email".toList, Strategy := "faker".toList,
                        RowsAffected := 500 }] }] ∧
    (sampleReporter.GenerateReport twoChunkResults).Summary
      = { TotalTables := 1, TotalFields := 2, TotalRowsScanned := 1000,
          TotalRowsAffected := 1000 } := by
  obtain ⟨h1, h2, h3⟩ := groupResults_counts results [] 0 (by simp)
  have hsum := summarize_spec (report.groupResults results [] 0).1
    { TotalTables := (report.groupResults results [] 0).1.length }
  refine ⟨?_, h1, ?_, ?_, ?_, ?_, ?_, by decide, by decide⟩
  · intro T hT
    rcases groupResults_tables results [] 0 T hT with ⟨T₀, hT₀, _⟩ | ⟨_, h⟩
    · simp at hT₀
    · exact h
  · show (report.summarize _ _).TotalTables = _
    rw [hsum]
    rfl
  · show (report.summarize _ _).TotalFields = _
    rw [hsum]
    show (0 : Int) + fieldTotal (report.groupResults results [] 0).1 = _
    rw [h3]
    simp [fieldTotal]
  · show (report.summarize _ _).TotalRowsScanned = _
    rw [hsum]
    simp
    rfl
  · show (report.summarize _ _).TotalRowsAffected = _
    rw [hsum]
    simp
    rfl
  · show (report.groupResults results [] 0).2 = _
    rw [h2]
    simp

/-- Instance of C29 on the results of two chunks. -/
theorem GenerateReport_first_result_witness :
    ∃ r, firstResult twoChunkResults "users".toList = some r ∧ (1000 : Int) = r.RowsScanned :=
  let ⟨r, h, hs, _⟩ :=
    (GenerateReport_first_result sampleReporter twoChunkResults).1
      { Name := "users".toList, RowsScanned := 1000, RowsAffected := 1000,
        Fields := [{ Name := "email".toList, Strategy := "faker".toList, RowsAffected := 1000 },
                   { Name := "email".toList, Strategy := "faker".toList,
                     RowsAffected := 500 }] }
      (by decide)
  ⟨r, h, hs⟩

/-! ## Errors in the results of a run -/

/-- The per-column results carry no error. -/
theorem columnResults_error (tablePlan : TablePlan) (a b : Int) :
    ∀ r ∈ columnResults tablePlan a b, r.Error = none := by
  intro r hr
  obtain ⟨c, _, rfl⟩ := List.mem_map.mp hr
  rfl

/-- What `processTable` returns as results: nothing, or the per-column
results. -/
theorem processTable_results_cases (e : Executor) (fuel : Nat) (w : World) (tablePlan : TablePlan)
    (rs : List ExecutionResult) (err : Option Str) (w' : World)
    (h : e.processTable fuel w tablePlan = some ((rs, err), w')) :
    (rs = [] ∧ err ≠ none) ∨ (err = none ∧ ∃ a b, rs = columnResults tablePlan a b) := by
  unfold Executor.processTable at h
  repeat' split at h
  all_goals
    first
      | (simp at h; done)
      | (simp only [Option.some.injEq, Prod.mk.injEq] at h
         obtain ⟨⟨hr, he⟩, _⟩ := h
         subst hr he
         first
           | exact Or.inl ⟨rfl, by simp⟩
           | exact Or.inr ⟨rfl, _, _, rfl⟩)

/-- What `processChunk` returns as results: nothing, or the per-column
results. -/
theorem processChunk_results_cases (e : Executor) (fuel : Nat) (w : World)
    (tablePlan : TablePlan) (offset chunkSize : Int)
    (rs : List ExecutionResult) (err : Option Str) (w' : World)
    (h : e.processChunk fuel w tablePlan offset chunkSize = some ((rs, err), w')) :
    (rs = [] ∧ err ≠ none) ∨ (err = none ∧ ∃ a b, rs = columnResults tablePlan a b) := by
  unfold Executor.processChunk at h
  repeat' split at h
  all_goals
    first
      | (simp at h; done)
      | (simp only [Option.some.injEq, Prod.mk.injEq] at h
         obtain ⟨⟨hr, he⟩, _⟩ := h
         subst hr he
         first
           | exact Or.inl ⟨rfl, by simp⟩
           | exact Or.inr ⟨rfl, _, _, rfl⟩)

/-- The loop over the chunks appends error-free results only. -/
theorem runChunks_error_free (e : Executor) (fuel : Nat) (tablePlan : TablePlan)
    (chunkSize : Int) :
    ∀ (offsets : List Int) (w : World) (results results' : List ExecutionResult) (w' : World),
      (∀ r ∈ results, r.Error = none) →
      e.runChunks fuel tablePlan chunkSize offsets w results = some (results', w') →
      ∀ r ∈ results', r.Error = none := by
  intro offsets
  induction offsets with
  | nil =>
    intro w results results' w' hres h
    simp only [Executor.runChunks, Option.some.injEq, Prod.mk.injEq] at h
    exact h.1 ▸ hres
  | cons offset rest ih =>
    intro w results results' w' hres h
    rw [Executor.runChunks] at h
    by_cases hz : e.maxWorkers = 0
    · simp [hz] at h
    · rw [if_neg hz] at h
      rcases hc : e.processChunk fuel w tablePlan offset chunkSize with
        _ | ⟨⟨chunkResult, _ | cerr⟩, w₁⟩
      · simp [hc] at h
      · rw [hc] at h
        simp only at h
        apply ih w₁ (results ++ chunkResult) results' w' _ h
        intro r hr
        rcases List.mem_append.mp hr with hr | hr
        · exact hres r hr
        · rcases processChunk_results_cases e fuel w tablePlan offset chunkSize _ _ _ hc with
            ⟨hnil, _⟩ | ⟨_, a, b, hcol⟩
          · rw [hnil] at hr
            simp at hr
          · rw [hcol] at hr
            exact columnResults_error tablePlan a b r hr
      · rw [hc] at h
        simp only at h
        exact ih w₁ results results' w' hres h

/-- The table loop of `Execute` appends error-free results only. -/
theorem executeLoop_error_free (e : Executor) (fuel : Nat) (ctx : Nat → Option Str) :
    ∀ (todo done : List TablePlan) (w : World) (results rs : List ExecutionResult)
      (err : Option Str) (w' : World) (tables' : List TablePlan),
      (∀ r ∈ results, r.Error = none) →
      e.executeLoop fuel ctx done todo w results = some ((rs, err), w', tables') →
      ∀ r ∈ rs, r.Error = none := by
  intro todo
  induction todo with
  | nil =>
    intro done w results rs err w' tables' hres h
    simp only [Executor.executeLoop, Option.some.injEq, Prod.mk.injEq] at h
    exact h.1.1 ▸ hres
  | cons tablePlan₀ rest ih =>
    intro done w results rs err w' tables' hres h
    rw [Executor.executeLoop] at h
    cases hctx : ctx done.length with
    | some cerr =>
      rw [hctx] at h
      simp only [Option.some.injEq, Prod.mk.injEq] at h
      exact h.1.1 ▸ hres
    | none =>
      rw [hctx] at h
      simp only at h
      rcases hd : e.dispatchTable fuel (done ++ tablePlan₀ :: rest) w tablePlan₀ with
        _ | ⟨d, w₁⟩
      · simp [hd] at h
      · rw [hd] at h
        cases d with
        | skip =>
          simp only at h
          exact ih _ _ _ _ _ _ _ hres h
        | table tablePlan₁ =>
          simp only at h
          rcases hp : e.processTable fuel w₁ tablePlan₁ with _ | ⟨⟨tableResults, _ | perr⟩, w₂⟩
          · simp [hp] at h
          · rw [hp] at h
            simp only at h
            apply ih _ _ _ _ _ _ _ _ h
            intro r hr
            rcases List.mem_append.mp hr with hr | hr
            · exact hres r hr
            · rcases processTable_results_cases e fuel w₁ tablePlan₁ _ _ _ hp with
                ⟨hnil, _⟩ | ⟨_, a, b, hcol⟩
              · rw [hnil] at hr
                simp at hr
              · rw [hcol] at hr
                exact columnResults_error tablePlan₁ a b r hr
          · rw [hp] at h
            simp only at h
            exact ih _ _ _ _ _ _ _ hres h
        | chunks tablePlan₁ offsets chunkSize =>
          simp only at h
          rcases hr : e.runChunks fuel tablePlan₁ chunkSize offsets w₁ results with
            _ | ⟨results₁, w₂⟩
          · simp [hr] at h
          · rw [hr] at h
            simp only at h
            exact ih _ _ _ _ _ _ _
              (runChunks_error_free e fuel tablePlan₁ chunkSize offsets w₁ results results₁ w₂
                hres hr) h

/-- The grouping loop leaves the error count alone on error-free results. -/
theorem groupResults_error_free :
    ∀ (results : List report.ExecutionResult) (tm : List report.TableReport) (ec : Int),
      (∀ r ∈ results, r.Error = none) → (report.groupResults results tm ec).2 = ec := by
  intro results
  induction results with
  | nil => intro tm ec _; rfl
  | cons r rest ih =>
    intro tm ec h
    have he : r.Error = none := h r (List.mem_cons_self _ _)
    rw [report.groupResults]
    simp only [he, ne_eq, not_true_eq_false, if_false]
    exact ih _ ec (fun r hr => h r (List.mem_cons_of_mem _ hr))

/-- C28: every result that `processTable` and `processChunk` return, and so
every element of the list that `Execute` returns, carries no error: a unit that
fails returns its error beside an empty list and contributes nothing.  Hence
the report made of the results of `Execute` always has the error count 0.  On a
database that refuses every `UPDATE`, `Execute` returns no result and no error
for the table `users`, and the report counts 0 errors and 0 tables. -/
theorem results_carry_no_error (e : Executor) (fuel : Nat) :
    (∀ (w : World) (tablePlan : TablePlan) (rs : List ExecutionResult) (err : Option Str)
        (w' : World),
      e.processTable fuel w tablePlan = some ((rs, err), w') →
        (∀ r ∈ rs, r.Error = none) ∧ (err ≠ none → rs = [])) ∧
    (∀ (w : World) (tablePlan : TablePlan) (offset chunkSize : Int)
        (rs : List ExecutionResult) (err : Option Str) (w' : World),
      e.processChunk fuel w tablePlan offset chunkSize = some ((rs, err), w') →
        (∀ r ∈ rs, r.Error = none) ∧ (err ≠ none → rs = [])) ∧
    (∀ (ctx : Nat → Option Str) (tables : List TablePlan) (w : World)
        (rs : List ExecutionResult) (err : Option Str) (w' : World) (tables' : List TablePlan),
      e.Execute fuel ctx tables w = some ((rs, err), w', tables') →
        (∀ r ∈ rs, r.Error = none) ∧
        ∀ g : report.Generator, (g.GenerateReport (reportResults rs)).Errors.Count = 0) ∧
    refusingExecutor.Execute 2 (fun _ => none) [usersPlan] {}
      = some (([], none),
          { log := [.Query "SELECT COUNT(*) FROM users ".toList,
                    .Query "SELECT COUNT(*) FROM users ".toList,
                    .Exec "UPDATE users SET email = \x27ann@example.org\x27   ".toList],
            genCalls := 1 },
          [usersPlan]) ∧
    (sampleReporter.GenerateReport (reportResults [])).Errors.Count = 0 ∧
    (sampleReporter.GenerateReport (reportResults [])).Summary.TotalTables = 0 := by
  refine ⟨?_, ?_, ?_, by decide, by decide, by decide⟩
  · intro w tablePlan rs err w' h
    rcases processTable_results_cases e fuel w tablePlan rs err w' h with
      ⟨hnil, _⟩ | ⟨hnone, a, b, hcol⟩
    · exact ⟨by rw [hnil]; simp, fun _ => hnil⟩
    · exact ⟨by rw [hcol]; exact columnResults_error tablePlan a b, fun hne => absurd hnone hne⟩
  · intro w tablePlan offset chunkSize rs err w' h
    rcases processChunk_results_cases e fuel w tablePlan offset chunkSize rs err w' h with
      ⟨hnil, _⟩ | ⟨hnone, a, b, hcol⟩
    · exact ⟨by rw [hnil]; simp, fun _ => hnil⟩
    · exact ⟨by rw [hcol]; exact columnResults_error tablePlan a b, fun hne => absurd hnone hne⟩
  · intro ctx tables w rs err w' tables' h
    have hall : ∀ r ∈ rs, r.Error = none :=
      executeLoop_error_free e fuel ctx tables [] w [] rs err w' tables' (by simp) h
    refine ⟨hall, fun g => ?_⟩
    show (report.groupResults (reportResults rs) [] 0).2 = 0
    apply groupResults_error_free
    intro r hr
    obtain ⟨r₀, hr₀, rfl⟩ := List.mem_map.mp hr
    exact hall r₀ hr₀

/-- Instance of C28: the run on the database that refuses every `UPDATE`. -/
theorem results_carry_no_error_witness :
    (sampleReporter.GenerateReport (reportResults [])).Errors.Count = 0 :=
  ((results_carry_no_error refusingExecutor 2).2.2.1 (fun _ => none) [usersPlan] {} [] none
    { log := [.Query "SELECT COUNT(*) FROM users ".toList,
              .Query "SELECT COUNT(*) FROM users ".toList,
              .Exec "UPDATE users SET email = \x27ann@example.org\x27   ".toList],
      genCalls := 1 }
    [usersPlan] (by decide)).2 sampleReporter

/-! ## Openings without a closing delimiter -/

/-- The closing delimiter occurs after the text `[FAKER:` only where it occurs
in the text that follows it. -/
theorem not_close_infix_tag_append (rest : Str) (h : ¬ placeholderClose <:+: rest) :
    ¬ placeholderClose <:+: placeholderTag ++ rest := by
  intro hc
  apply not_close_infix_open_append rest h
  have hsuf : placeholderTag ++ rest <:+ placeholderOpen ++ rest := by
    show placeholderTag ++ rest <:+ quoteChar :: (placeholderTag ++ rest)
    exact List.suffix_cons _ _
  exact hc.trans hsuf.isInfix

/-- The replacement of the first placeholder keeps a later opening that has no
closing delimiter after it. -/
theorem unterminated_step (X info W lit : Str) (hlit : ∃ body, lit = body ++ [quoteChar])
    (h : unterminated (X ++ (placeholderOpen ++ (info ++ (placeholderClose ++ W))))) :
    unterminated (X ++ (lit ++ W)) := by
  obtain ⟨body, hbody⟩ := hlit
  obtain ⟨Y, rest, hs, hrest⟩ := h
  have hs' : (X ++ (placeholderOpen ++ (info ++ [']']))) ++ quoteChar :: W
      = Y ++ quoteChar :: (placeholderTag ++ rest) := by
    show _ = Y ++ (placeholderOpen ++ rest)
    rw [← hs]
    simp [placeholderClose, List.append_assoc]
  rcases List.append_eq_append_iff.mp hs' with ⟨a', hY, hW⟩ | ⟨c', hA, hR⟩
  · cases a' with
    | nil =>
      have hW' : W = placeholderTag ++ rest := by simpa using hW
      refine ⟨X ++ body, rest, ?_, hrest⟩
      rw [hbody, hW']
      simp [placeholderOpen, placeholderTag, List.append_assoc]
    | cons b a'' =>
      have hW' : W = a'' ++ quoteChar :: (placeholderTag ++ rest) := by
        simp only [List.cons_append, List.cons.injEq] at hW
        exact hW.2
      refine ⟨X ++ (lit ++ a''), rest, ?_, hrest⟩
      rw [hW']
      simp [placeholderOpen, placeholderTag, List.append_assoc]
  · cases c' with
    | nil =>
      have hW' : W = placeholderTag ++ rest := by
        have := hR
        simp only [List.nil_append, List.cons.injEq, true_and] at this
        exact this.symm
      refine ⟨X ++ body, rest, ?_, hrest⟩
      rw [hbody, hW']
      simp [placeholderOpen, placeholderTag, List.append_assoc]
    | cons b c'' =>
      exfalso
      simp only [List.cons_append, List.cons.injEq] at hR
      obtain ⟨hb, hR'⟩ := hR
      rcases List.eq_nil_or_concat c'' with hnil | ⟨c3, last, hc3⟩
      · subst hnil
        have hA' : (X ++ (placeholderOpen ++ info)) ++ [']'] = Y ++ [b] := by
          simpa [List.append_assoc] using hA
        have := (List.append_inj' hA' rfl).2
        simp only [List.cons.injEq, and_true] at this
        rw [← this] at hb
        exact absurd hb (by decide)
      · subst hc3
        have hA' : (X ++ (placeholderOpen ++ info)) ++ [']'] = (Y ++ b :: c3) ++ [last] := by
          simpa [List.append_assoc] using hA
        have hl := (List.append_inj' hA' rfl).2
        simp only [List.cons.injEq, and_true] at hl
        apply not_close_infix_tag_append rest hrest
        rw [hR']
        refine ⟨c3, W, ?_⟩
        rw [← hl]
        simp [placeholderClose, List.append_assoc]

/-- On a working text that holds an opening with no closing delimiter after it,
the loop of `ReplaceFakerPlaceholders` returns no text: whenever it returns, it
returns the format error or an error of the generator. -/
theorem replaceLoop_unterminated_result (g : Generator) (sql : Str) :
    ∀ (fuel : Nat) (result : Str) (calls : Nat) (r : (Str × Option Str) × Nat),
      unterminated result → replaceLoop g sql fuel result calls = some r →
      r.1.1 = [] ∧
      (r.1.2 = some ("invalid faker placeholder format in SQL: ".toList ++ sql) ∨
        ∃ n t err, (g.Generate n t).2 = some err ∧ r.1.2 = some err) := by
  intro fuel
  induction fuel with
  | zero =>
    intro result calls r _ h
    simp [replaceLoop] at h
  | succ f ih =>
    intro result calls r hun h
    rcases replaceLoop_iteration g sql result calls with
      ⟨hno, _⟩ | ⟨X, rest, _, _, _, hfmt⟩ | ⟨X, info, W, err, _, _, _, hgen, herr⟩ |
      ⟨X, info, W, hs, _, _, _, hstep⟩
    · exfalso
      obtain ⟨Y, rest, hs, _⟩ := hun
      apply hno
      rw [hs]
      exact ⟨Y, rest, by simp [List.append_assoc]⟩
    · rw [hfmt f] at h
      simp only [Option.some.injEq] at h
      subst h
      exact ⟨rfl, Or.inl rfl⟩
    · rw [herr f] at h
      simp only [Option.some.injEq] at h
      subst h
      exact ⟨rfl, Or.inr ⟨_, _, err, hgen, rfl⟩⟩
    · rw [hstep f] at h
      refine ih _ _ r ?_ h
      rw [hs] at hun
      refine unterminated_step X info W _ ?_ hun
      rw [quoteLiteral_eq]
      exact ⟨quoteChar :: escapeQuotes (g.Generate calls (fakerTypeOf info)).1, by simp⟩

/-- The generated value `[FAKER:email]` is put back into the text as the
placeholder it replaces: on a text that starts with that placeholder the loop
never ends. -/
theorem replaceLoop_echo (sql W : Str) :
    ∀ (fuel calls : Nat),
      replaceLoop echoGenerator sql fuel
        (placeholderOpen ++ ("email".toList ++ (placeholderClose ++ W))) calls = none := by
  intro fuel
  induction fuel with
  | zero => intro calls; rfl
  | succ f ih =>
    intro calls
    have hstep := replaceLoop_step echoGenerator sql [] "email".toList W calls f
      (by decide) (by decide) rfl
    have hlit : quoteLiteral (echoGenerator.Generate calls (fakerTypeOf "email".toList)).1 ++ W
        = placeholderOpen ++ ("email".toList ++ (placeholderClose ++ W)) := by
      have hv : quoteLiteral (echoGenerator.Generate calls (fakerTypeOf "email".toList)).1
          = placeholderOpen ++ ("email".toList ++ placeholderClose) := by
        show quoteLiteral "[FAKER:email]".toList = _
        decide
      rw [hv]
      simp [List.append_assoc]
    rw [List.nil_append, List.nil_append, hlit] at hstep
    rw [hstep]
    exact ih (calls + 1)

/-- C19, as stated, fails when a generated value is itself the text of a
placeholder: with a generator whose values are `[FAKER:email]`, on the text
`'[FAKER:email]' '[FAKER:x`, which holds an opening with no closing delimiter
after it, the loop replaces the first placeholder by itself at every iteration
and never returns, with or without error. -/
theorem ReplaceFakerPlaceholders_endless :
    unterminated "\x27[FAKER:email]\x27 \x27[FAKER:x".toList ∧
    ∀ fuel calls, ReplaceFakerPlaceholders echoGenerator fuel calls
      "\x27[FAKER:email]\x27 \x27[FAKER:x".toList = none :=
  ⟨⟨"\x27[FAKER:email]\x27 ".toList, "x".toList, by decide, by decide⟩,
   fun fuel calls => replaceLoop_echo _ " \x27[FAKER:x".toList fuel calls⟩

/-- C19, amended: on a text that holds a placeholder opening with no closing
delimiter after it, `ReplaceFakerPlaceholders` never returns a text, substituted
in part or not: whenever it returns, it returns the empty text with the format
error or with an error of the generator (raised by a placeholder before that
opening); when no generated value holds `[FAKER:` it does return, within one
iteration more than the text has occurrences of `[FAKER:`, so that it fails; and
when the opening is the first of the text it returns the format error, which
quotes the text, at the first iteration and without any invocation.  A text with
no opening at all is returned unchanged, without error and without
invocation. -/
theorem ReplaceFakerPlaceholders_unterminated (g : Generator) (sql : Str)
    (hsql : unterminated sql) :
    (∀ (fuel calls : Nat) (r : (Str × Option Str) × Nat),
      ReplaceFakerPlaceholders g fuel calls sql = some r →
      r.1.1 = [] ∧
      (r.1.2 = some ("invalid faker placeholder format in SQL: ".toList ++ sql) ∨
        ∃ n t err, (g.Generate n t).2 = some err ∧ r.1.2 = some err)) ∧
    ((∀ n t, ¬ placeholderTag <:+: (g.Generate n t).1) →
      ∀ (fuel calls : Nat), occurrences placeholderTag sql < fuel →
        ∃ err n, ReplaceFakerPlaceholders g fuel calls sql = some (([], some err), n)) ∧
    (∀ X rest, sql = X ++ (placeholderOpen ++ rest) → ¬ placeholderOpen <:+: X →
      ¬ placeholderClose <:+: rest →
      ∀ (fuel calls : Nat), ReplaceFakerPlaceholders g (fuel + 1) calls sql
        = some (([], some ("invalid faker placeholder format in SQL: ".toList ++ sql)),
            calls)) ∧
    (∀ t : Str, ¬ placeholderOpen <:+: t →
      ∀ (fuel calls : Nat), ReplaceFakerPlaceholders g (fuel + 1) calls t
        = some ((t, none), calls)) := by
  refine ⟨?_, ?_, ?_, ?_⟩
  · intro fuel calls r h
    exact replaceLoop_unterminated_result g sql fuel sql calls r hsql h
  · intro hclean fuel calls hfuel
    obtain ⟨r, hr⟩ := replaceLoop_terminates g hclean sql fuel sql calls hfuel
    obtain ⟨h1, h2⟩ := replaceLoop_unterminated_result g sql fuel sql calls r hsql hr
    obtain ⟨⟨text, err⟩, n⟩ := r
    simp only at h1 h2
    subst h1
    rcases h2 with h2 | ⟨_, _, e, _, h2⟩
    · exact ⟨_, n, by rw [← h2]; exact hr⟩
    · exact ⟨e, n, by rw [← h2]; exact hr⟩
  · intro X rest hs hX hrest fuel calls
    unfold ReplaceFakerPlaceholders
    have := replaceLoop_unterminated g sql X rest calls fuel hX hrest
    rw [← hs] at this
    exact this
  · intro t ht fuel calls
    unfold ReplaceFakerPlaceholders
    rw [replaceLoop, (Index_eq_none_iff _ t).mpr ht]

/-- Instance of C19 amended: a well-formed placeholder followed by an opening
that is never closed; the sample generator substitutes the placeholder and the
routine fails at the second iteration, returning no text. -/
theorem ReplaceFakerPlaceholders_unterminated_witness :
    ReplaceFakerPlaceholders sampleGenerator 3 0
        "a = \x27[FAKER:email:t:a]\x27, b = \x27[FAKER:email:t:b".toList
      = some (([], some ("invalid faker placeholder format in SQL: "
          ++ "a = \x27[FAKER:email:t:a]\x27, b = \x27[FAKER:email:t:b").toList), 1) ∧
    ∃ err n, ReplaceFakerPlaceholders sampleGenerator 3 0
        "a = \x27[FAKER:email:t:a]\x27, b = \x27[FAKER:email:t:b".toList
      = some (([], some err), n) :=
  ⟨by decide,
   (ReplaceFakerPlaceholders_unterminated sampleGenerator
      "a = \x27[FAKER:email:t:a]\x27, b = \x27[FAKER:email:t:b".toList
      ⟨"a = \x27[FAKER:email:t:a]\x27, b = ".toList, "email:t:b".toList, by decide,
        by decide⟩).2.1 sampleGenerator_clean 3 0 (by decide)⟩

end Anonymizer
